import Mathlib

/-! The packages `asyncbatch`, `atomicx` and `poolx` of go-leo/goconc.

A shallow embedding of `asyncbatch/group.go` (a size/time-triggered batching engine)
and the properties of its buffer, flush and shutdown logic, followed by the atomic
subtraction helpers of `atomicx/atomic.go` and the bucketed buffer pool of
`poolx/buffer_pool.go`.

Modelling conventions.
* Go `int` and `time.Duration` are `Int`; where `chunk` computes on `int` the result
  wraps around into [-2^63, 2^63). A slice is a `List`; `s[a:b]` is
  `(s.take b).drop a` and panics when out of range.
* A panic outside the recovering closure is the result `none` (in `New`, `chunk`) and
  sets the field `crashed` of the state when it happens in the loop goroutine.
* The mutex-protected sections of `Submit`, `Close`, `onSubmit`, `onTick` and
  `onClose` are atomic transitions of the `Group` state.
* Calling the user handler and the `Recover` hook are effects; they are recorded in
  the two trace fields `calls` and `recovered` of the state. A handler may store into
  the array behind its batch (`writes`); the chunks cut by `chunk` share one array.
* The `select` of `loop` is a transition parameterised by the case that fires. In
  `step` one loop iteration is a single transition; in `act` the handler calls of an
  iteration begin and end as separate actions that interleave with `Submit` and
  `Close`.
-/

namespace asyncbatch

/-- The two package-level errors `ErrTaskInvalid` and `ErrClosed`. -/
inductive Err where
  | ErrTaskInvalid
  | ErrClosed
  deriving DecidableEq, Repr

/-- The text returned by `debug.Stack()`. -/
abbrev Stack := String

/-- A value of type `func(p any, stack []byte)`: either the printing default that
`Correct` installs or a function supplied by the user (told apart by `id`). -/
inductive RecoverFn where
  | printPanic
  | user (id : Nat)
  deriving DecidableEq, Repr

/-- The struct `options`. `Interval` is a `time.Duration` in nanoseconds and a nil
`Recover` is `none`. -/
structure options where
  Size : Int
  Interval : Int
  Recover : Option RecoverFn
  deriving DecidableEq, Repr

/-- The type `Option func(*options)`. -/
abbrev OptionFn := options → options

/-- Option `Size(size)`. -/
def Size (size : Int) : OptionFn :=
  fun o => { o with Size := size }

/-- Option `Interval(interval)`. -/
def Interval (interval : Int) : OptionFn :=
  fun o => { o with Interval := interval }

/-- Option `Recover(f)`. -/
def Recover (f : Option RecoverFn) : OptionFn :=
  fun o => { o with Recover := f }

/-- Method `(*options).Apply`: run the options in order over `o`. -/
def options.Apply (o : options) (opts : List OptionFn) : options :=
  opts.foldl (fun acc opt => opt acc) o

/-- Method `(*options).Correct`: defaults for a non-positive size or interval and for
a nil hook. -/
def options.Correct (o : options) : options :=
  let o1 := if o.Size ≤ 0 then { o with Size := 64 } else o
  let o2 := if o1.Interval ≤ 0 then { o1 with Interval := 128 * 1000000 } else o1
  if o2.Recover = none then { o2 with Recover := some RecoverFn.printPanic } else o2

/-- How a call of the user handler ends: it returns, or it panics and the deferred
function sees the value `p` from `recover()` while the goroutine's stack trace is
`stack`. In a panicking goroutine `recover()` is not nil (a `panic(nil)` is recovered
as a `*runtime.PanicNilError`), so `p` ranges over non-nil values. -/
inductive Outcome (P : Type) where
  | returned
  | panicked (p : P) (stack : Stack)

/-- The builtin `recover()` inside the deferred function: nil (`none`) unless the
handler is panicking, else the panic value. -/
def recover {P : Type} : Outcome P → Option P
  | .returned => none
  | .panicked p _ => some p

/-- The call `debug.Stack()` inside the deferred function. -/
def debugStack {P : Type} : Outcome P → Stack
  | .returned => ""
  | .panicked _ stack => stack

/-- A user handler `func(objs []Obj)`. `task` says how a call on a batch ends.
`writes` gives the values that the call stores into the array elements right behind
its batch, which it can reach because a batch is a slice whose capacity may extend
beyond its length (for example `append(objs, ws...)` stores in place as long as the
capacity allows), as a function of the batch it is called on; a handler that only
reads its batch has `writes` = nothing. -/
structure Handler (Obj P : Type) where
  task : List Obj → Outcome P
  writes : List Obj → List Obj

/-- The struct `Group[Obj]`.
`submitCh` is the number of values queued in the channel of capacity 1, `closedCh`
says whether `close(g.closedCh)` has happened, `wg` is the WaitGroup counter (1 while
`loop` runs), `task` and `writes` are the user handler that the closure built in
`New` calls. `calls` and `recovered` are the traces of the handler and hook
invocations, and `crashed` says that the loop goroutine has died from a panic outside
the recovering closure, which ends the process. -/
structure Group (Obj P : Type) where
  options : asyncbatch.options
  buf : List Obj
  submitCh : Nat
  closed : Bool
  closedCh : Bool
  wg : Nat
  task : List Obj → Outcome P
  calls : List (List Obj)
  recovered : List (RecoverFn × P × Stack)
  writes : List Obj → List Obj
  crashed : Bool

variable {Obj P : Type}

/-- The calls of `opt.Recover` made by the deferred function of the closure that `New`
stores in `g.task`, after the user handler `task` has run on `objs`:
`if p := recover(); p != nil { opt.Recover(p, debug.Stack()) }`. Each entry is the
hook with its two arguments. (A nil `opt.Recover` cannot be called; `Correct` rules
it out.) -/
def hookLog (opt : options) (task : List Obj → Outcome P) (objs : List Obj) :
    List (RecoverFn × P × Stack) :=
  match recover (task objs), opt.Recover with
  | some p, some f => [(f, p, debugStack (task objs))]
  | _, _ => []

/-- The closure that `New` stores in `g.task`: call the user handler on `objs`, then
run the deferred function; the call returns to the loop whether or not the handler
panicked. -/
def Group.runTask (g : Group Obj P) (objs : List Obj) : Group Obj P :=
  { g with
    calls := g.calls ++ [objs]
    recovered := g.recovered ++ hookLog g.options g.task objs }

/-- The `int` (64 bit) result of an arithmetic operation whose exact value is `x`:
two's complement wrap-around into [-2^63, 2^63). -/
def wrapInt (x : Int) : Int :=
  (x + 9223372036854775808) % 18446744073709551616 - 9223372036854775808

/-- The run-time constant `maxAlloc` of a 64-bit platform (1 << 48 on linux/amd64):
the largest allocation the Go runtime accepts. -/
def maxAlloc : Int :=
  281474976710656

/-- Whether `make([]T, 0, cap)` succeeds for elements of `elemSize` bytes:
`runtime.makeslice` panics when `cap` is negative or `elemSize * cap` exceeds
`maxAlloc`. (Running out of physical memory is not modelled.) -/
def makeslice (elemSize cap : Int) : Bool :=
  decide (0 ≤ cap ∧ elemSize * cap ≤ maxAlloc)

/-- The Group value that `New` builds for handler `h` and resolved options `opt`:
empty buffer, no signal queued, open, loop goroutine running (`wg` = 1), nothing
called yet. -/
def start (opt : options) (h : Handler Obj P) : Group Obj P :=
  { options := opt, buf := [], submitCh := 0, closed := false, closedCh := false,
    wg := 1, task := h.task, calls := [], recovered := [], writes := h.writes,
    crashed := false }

/-- The Group value that `New` builds for resolved options `opt` and a handler that
ends as `task` says and only reads its batches. -/
def fresh (opt : options) (task : List Obj → Outcome P) : Group Obj P :=
  start opt { task := task, writes := fun _ => [] }

/-- Function `New` for items of `elemSize` bytes; `none` is a panic. A nil task is
an error. Else `Apply` calls every option, which panics on a nil `Option`; the
options are corrected; `make([]Obj, 0, opt.Size)` panics when the runtime refuses
the capacity; else the loop goroutine is started (`wg` = 1) and the Group is
returned. -/
def New (elemSize : Int) (task : Option (Handler Obj P)) (opts : List (Option OptionFn)) :
    Option (Except Err (Group Obj P)) :=
  match task with
  | none => some (Except.error Err.ErrTaskInvalid)
  | some h =>
    if opts.all Option.isSome then
      let opt := (options.Apply ⟨0, 0, none⟩ (opts.filterMap id)).Correct
      if makeslice elemSize opt.Size then some (Except.ok (start opt h)) else none
    else none

/-- Method `Submit`: the result is the new state and the returned error (`none` is
nil). The send on `submitCh` is the non-blocking `select` with `default`. -/
def Submit (g : Group Obj P) (obj : Obj) : Group Obj P × Option Err :=
  if g.closed then (g, some Err.ErrClosed)
  else if g.closed then (g, some Err.ErrClosed)
  else
    let g1 := { g with buf := g.buf ++ [obj] }
    if g1.options.Size ≤ (g1.buf.length : Int) then
      (if g1.submitCh < 1 then { g1 with submitCh := g1.submitCh + 1 } else g1, none)
    else (g1, none)

/-- Method `Close` up to and including `close(g.closedCh)`; the result is the new
state and the returned error. On the nil path the caller then blocks in `wg.Wait()`
until `loop` has taken its `closedCh` case, which brings `wg` to 0. -/
def Close (g : Group Obj P) : Group Obj P × Option Err :=
  if g.closed then (g, some Err.ErrClosed)
  else if g.closed then (g, some Err.ErrClosed)
  else ({ g with closed := true, closedCh := true }, none)

/-- Method `onSubmit`. -/
def onSubmit (g : Group Obj P) : Group Obj P :=
  if (g.buf.length : Int) < g.options.Size then g
  else
    let batch := g.buf.take g.options.Size.toNat
    let buf := g.buf.drop g.options.Size.toNat
    Group.runTask { g with buf := buf } batch

/-- Method `onTick`. -/
def onTick (g : Group Obj P) : Group Obj P :=
  if (g.buf.length : Int) ≤ 0 then g
  else if g.options.Size ≤ (g.buf.length : Int) then
    let batch := g.buf.take g.options.Size.toNat
    let buf := g.buf.drop g.options.Size.toNat
    Group.runTask { g with buf := buf } batch
  else
    let batch := g.buf
    Group.runTask { g with buf := [] } batch

/-- The slice expression `s[lo:hi]`; it panics (`none`) unless
`0 ≤ lo ≤ hi ≤ len(s)`. (In `chunk` the upper index never exceeds `len(s)`, so the
capacity of `s` does not matter for the check.) -/
def slice {E : Type} (s : List E) (lo hi : Int) : Option (List E) :=
  if 0 ≤ lo ∧ lo ≤ hi ∧ hi ≤ (s.length : Int) then some ((s.take hi.toNat).drop lo.toNat)
  else none

/-- The `for i := 0; i < l; i += size` loop of `chunk`, with `i` and the slice of
chunks built so far as loop state; `i + size` is an `int` and wraps around. The
result is `none` when a slice expression panics. The first argument bounds the
number of iterations; `len(s) + 1` are enough for every `size` ≥ 1 within the range
of `int`, since an iteration that does not panic moves `i` up by at least 1. -/
def chunkLoop {E : Type} (s : List E) (size : Int) :
    Nat → Int → List (List E) → Option (List (List E))
  | 0, _, _ => none
  | fuel + 1, i, ss2 =>
    if i < (s.length : Int) then
      if wrapInt (i + size) < (s.length : Int) then
        match slice s i (wrapInt (i + size)) with
        | none => none
        | some c => chunkLoop s size fuel (wrapInt (i + size)) (ss2 ++ [c])
      else
        match slice s i (s.length : Int) with
        | none => none
        | some c => chunkLoop s size fuel (wrapInt (i + size)) (ss2 ++ [c])
    else some ss2

/-- Function `chunk`; `none` is a panic. The capacity `(l+size)/size` of
`make([]S, 0, ...)` is computed on `int`: the sum wraps around, the division
truncates and panics for `size` = 0, and `make` panics when it refuses the capacity
(an element of `[]S` is a slice header of 24 bytes). The chunks are slices of the
same array: each one's capacity extends over the chunks after it. -/
def chunk {E : Type} (s : List E) (size : Int) : Option (List (List E)) :=
  if size = 0 then none
  else if makeslice 24 (Int.tdiv (wrapInt ((s.length : Int) + size)) size) then
    chunkLoop s size (s.length + 1) 0 []
  else none

/-- The values of consecutive array elements `a` after `ws` has been stored into
them from the first one on; values of `ws` beyond the end of `a` land elsewhere. -/
def overwrite {E : Type} (ws a : List E) : List E :=
  ws.take a.length ++ a.drop ws.length

/-- Two stores from the same array index on, first `old` and then `new`: the values
that the elements from that index on have been given. -/
def overlay {E : Type} (new old : List E) : List E :=
  new ++ old.drop new.length

/-- The loop `for _, batch := range batches { g.task(batch) }` of `onClose`. The
batches are slices of one array and lie one after the other in it; `ws` holds the
values that the handler calls so far have stored into the array from the start of
the next batch on. A batch is read when its turn comes, after these stores.
(`onSubmit` and `onTick` copy the rest of the buffer to a new array before the call,
so there the stores of the handler reach nothing.) -/
def drain (g : Group Obj P) : List Obj → List (List Obj) → Group Obj P
  | _, [] => g
  | ws, b :: bs =>
    drain (g.runTask (overwrite ws b))
      (overlay (g.writes (overwrite ws b)) (ws.drop b.length)) bs

/-- Method `onClose`: a panic of `chunk` happens before `g.buf = nil` and outside the
recovering closure, so it kills the loop goroutine; else the buffer is cleared and
the handler is called on each chunk in order. -/
def onClose (g : Group Obj P) : Group Obj P :=
  match chunk g.buf g.options.Size with
  | none => { g with crashed := true }
  | some batches => drain { g with buf := [] } [] batches

/-- The case of the `select` in `loop` that fires in one iteration. -/
inductive Case where
  | submitCh
  | tick
  | closedCh
  deriving DecidableEq, Repr

/-- One iteration of the `for`/`select` of `loop`. Nothing happens when the loop has
exited (`wg` = 0) or when the chosen case is not ready: `submitCh` needs a queued
value and `closedCh` needs the channel closed. The `closedCh` case runs `onClose` and
returns, and the deferred `wg.Done()` runs, also when `onClose` panics. -/
def loop (g : Group Obj P) (c : Case) : Group Obj P :=
  if g.wg = 0 then g
  else
    match c with
    | .submitCh =>
      if 0 < g.submitCh then onSubmit { g with submitCh := g.submitCh - 1 } else g
    | .tick => onTick g
    | .closedCh =>
      if g.closedCh then { onClose g with wg := g.wg - 1 } else g

/-- What can happen to a Group: a `Submit` call, a `Close` call, or an iteration of
the loop goroutine. -/
inductive Event (Obj : Type) where
  | submit (obj : Obj)
  | close
  | loop (c : Case)

/-- The state after one event. -/
def step (g : Group Obj P) : Event Obj → Group Obj P
  | .submit obj => (Submit g obj).1
  | .close => (Close g).1
  | .loop c => loop g c

/-- The state after a sequence of events. -/
def run (g : Group Obj P) (es : List (Event Obj)) : Group Obj P :=
  es.foldl step g

/-- The items of a run for which `Submit` returned nil, in submission order. -/
def accepted : Group Obj P → List (Event Obj) → List Obj
  | _, [] => []
  | g, .submit obj :: es =>
    (if (Submit g obj).2 = none then [obj] else []) ++ accepted (step g (.submit obj)) es
  | g, e :: es => accepted (step g e) es

/-- A concrete open Group of `Nat` items with size threshold `size`, backlog `buf` and
a handler that returns normally: the state after `New` and one `Submit` per item of
`buf` with no loop iteration in between. -/
def backlog (size : Int) (buf : List Nat) : Group Nat String :=
  run (fresh ⟨size, 128 * 1000000, some RecoverFn.printPanic⟩ (fun _ => Outcome.returned))
    (buf.map Event.submit)

/-- A list of batches is in chunk shape for `n`: every batch has between 1 and `n`
items and every batch but the last has exactly `n`. -/
def Chunked {E : Type} (n : Nat) (cs : List (List E)) : Prop :=
  (∀ c ∈ cs.dropLast, c.length = n) ∧ (∀ c ∈ cs, 1 ≤ c.length ∧ c.length ≤ n)

/-- The fields that no flush writes: options, the closed flag, the two channels, the
WaitGroup counter and the handler. -/
def SameFrame (g g1 : Group Obj P) : Prop :=
  g1.options = g.options ∧ g1.closed = g.closed ∧ g1.closedCh = g.closedCh ∧
    g1.wg = g.wg ∧ g1.task = g.task ∧ g1.submitCh = g.submitCh

/-- The flag is set whenever `closedCh` is closed, and once the loop has exited the
flag is set and the buffer is empty unless the drain has panicked. -/
def Drained (g : Group Obj P) : Prop :=
  (g.closedCh = true → g.closed = true) ∧
    (g.wg = 0 → g.closed = true ∧ (g.buf = [] ∨ g.crashed = true))

/-- The items of all `Submit` calls of an event sequence, in submission order. -/
def items : List (Event Obj) → List Obj
  | [] => []
  | .submit obj :: es => obj :: items es
  | _ :: es => items es

/-- An event sequence with no `Close` and no idle period: only `Submit` calls,
size-signal iterations of the loop, and ticks that find the buffer empty or holding
at least `Size` items (no tick flushes a short batch). -/
def fullBatches : Group Obj P → List (Event Obj) → Bool
  | _, [] => true
  | g, e :: es =>
    (match e with
      | .submit _ => true
      | .loop .submitCh => true
      | .loop .tick => g.buf.isEmpty || decide (g.options.Size ≤ (g.buf.length : Int))
      | _ => false) && fullBatches (step g e) es

/-- An event sequence without `Submit` calls: loop iterations and `Close` calls. -/
def flushOnly (fs : List (Event Obj)) : Bool :=
  fs.all fun e =>
    match e with
    | .submit _ => false
    | _ => true

/-- The shape of the handler calls while batches are cut by size: either every batch
so far has exactly `n` items, or the buffer is empty and the batches are in chunk
shape (only the last one may be shorter). -/
def Shape (n : Nat) (g : Group Obj P) : Prop :=
  (∀ c ∈ g.calls, c.length = n) ∨ (g.buf = [] ∧ Chunked n g.calls)

/-- One option as a caller writes it: `Size(size)`, `Interval(interval)` or
`Recover(f)`. -/
inductive Setting where
  | size (size : Int)
  | interval (interval : Int)
  | recover (f : Option RecoverFn)

/-- The `Option` value that a written option denotes. -/
def Setting.toOption : Setting → OptionFn
  | .size n => Size n
  | .interval d => Interval d
  | .recover f => Recover f

/-- The argument of the last `Size` option of a list, if there is one. -/
def lastSize : List Setting → Option Int
  | [] => none
  | s :: ss =>
    match lastSize ss with
    | some n => some n
    | none =>
      match s with
      | .size n => some n
      | _ => none

/-- The argument of the last `Interval` option of a list, if there is one. -/
def lastInterval : List Setting → Option Int
  | [] => none
  | s :: ss =>
    match lastInterval ss with
    | some d => some d
    | none =>
      match s with
      | .interval d => some d
      | _ => none

/-- The argument of the last `Recover` option of a list, if there is one. -/
def lastRecover : List Setting → Option (Option RecoverFn)
  | [] => none
  | s :: ss =>
    match lastRecover ss with
    | some f => some f
    | none =>
      match s with
      | .recover f => some f
      | _ => none

/-- The configuration that `New` resolves from its options:
`new(options).Apply(opts...).Correct()`. -/
def resolve (opts : List OptionFn) : options :=
  (options.Apply ⟨0, 0, none⟩ opts).Correct

/-- A handler that only reads its batches: no call stores anything behind its
batch. -/
def Quiet (g : Group Obj P) : Prop :=
  ∀ b : List Obj, g.writes b = []

/-- The part of `onSubmit` that runs under the mutex: the state it leaves and the
batch it has cut for the handler, if any. -/
def cutSubmit (g : Group Obj P) : Group Obj P × List (List Obj) :=
  if (g.buf.length : Int) < g.options.Size then (g, [])
  else
    let batch := g.buf.take g.options.Size.toNat
    let buf := g.buf.drop g.options.Size.toNat
    ({ g with buf := buf }, [batch])

/-- The part of `onTick` that runs under the mutex: the state it leaves and the
batch it has cut for the handler, if any. -/
def cutTick (g : Group Obj P) : Group Obj P × List (List Obj) :=
  if (g.buf.length : Int) ≤ 0 then (g, [])
  else if g.options.Size ≤ (g.buf.length : Int) then
    let batch := g.buf.take g.options.Size.toNat
    let buf := g.buf.drop g.options.Size.toNat
    ({ g with buf := buf }, [batch])
  else
    let batch := g.buf
    ({ g with buf := [] }, [batch])

/-- Where the loop goroutine stands: blocked in the `select`; past the mutex section
of a flush with the batches `bs` still to hand over (`ws` as in `drain`, `last` says
that the flush is `onClose`, after which `loop` returns); inside the call
`g.task(b)`, with what remains after it; or returned from `loop`. -/
inductive Pc (Obj : Type) where
  | select
  | handing (ws : List Obj) (bs : List (List Obj)) (last : Bool)
  | inTask (b : List Obj) (ws : List Obj) (bs : List (List Obj)) (last : Bool)
  | exited

/-- A Group together with the position of its loop goroutine and the number of
handler invocations that have begun and not yet ended. -/
structure Sys (Obj P : Type) where
  g : Group Obj P
  pc : Pc Obj
  inFlight : Nat

/-- The atomic actions of a running Group. Callers on any goroutine perform `submit`
and `close` (the methods `Submit`, and `Close` up to `close(g.closedCh)`). The loop
goroutine performs the others: `fire c` is the `select` taking case `c` followed by
the mutex section of the flush, `begin` is the call of `g.task` on the next batch and
`finish` is its return. -/
inductive Act (Obj : Type) where
  | submit (obj : Obj)
  | close
  | fire (c : Case)
  | begin
  | finish

/-- The loop goroutine after a mutex section or after a handler call has returned:
it goes on to the next batch if there is one, else back to the `select`, or after
`onClose` it returns from `loop` and the deferred `wg.Done()` runs. -/
def settle (g : Group Obj P) (ws : List Obj) (bs : List (List Obj)) (last : Bool)
    (n : Nat) : Sys Obj P :=
  match bs with
  | [] =>
    if last then ⟨{ g with wg := g.wg - 1 }, Pc.exited, n⟩ else ⟨g, Pc.select, n⟩
  | b :: rest => ⟨g, Pc.handing ws (b :: rest) last, n⟩

/-- The state after one action; an action that is not enabled changes nothing.
`begin` records the handler call and `finish` runs the deferred function of the
closure built in `New` and makes the stores of the call visible. -/
def act (s : Sys Obj P) : Act Obj → Sys Obj P
  | .submit obj => { s with g := (Submit s.g obj).1 }
  | .close => { s with g := (Close s.g).1 }
  | .fire c =>
    match s.pc with
    | .select =>
      match c with
      | .submitCh =>
        if 0 < s.g.submitCh then
          settle (cutSubmit { s.g with submitCh := s.g.submitCh - 1 }).1 []
            (cutSubmit { s.g with submitCh := s.g.submitCh - 1 }).2 false s.inFlight
        else s
      | .tick => settle (cutTick s.g).1 [] (cutTick s.g).2 false s.inFlight
      | .closedCh =>
        if s.g.closedCh then
          match chunk s.g.buf s.g.options.Size with
          | none => ⟨{ s.g with crashed := true, wg := s.g.wg - 1 }, Pc.exited, s.inFlight⟩
          | some batches => settle { s.g with buf := [] } [] batches true s.inFlight
        else s
    | _ => s
  | .begin =>
    match s.pc with
    | .handing ws (b :: bs) last =>
      ⟨{ s.g with calls := s.g.calls ++ [overwrite ws b] },
        Pc.inTask (overwrite ws b) (ws.drop b.length) bs last, s.inFlight + 1⟩
    | _ => s
  | .finish =>
    match s.pc with
    | .inTask b ws bs last =>
      settle { s.g with recovered := s.g.recovered ++ hookLog s.g.options s.g.task b }
        (overlay (s.g.writes b) ws) bs last (s.inFlight - 1)
    | _ => s

/-- The state after a sequence of actions, in any interleaving of the goroutines. -/
def exec (s : Sys Obj P) (as : List (Act Obj)) : Sys Obj P :=
  as.foldl act s

/-- The system right after `New` has returned `g`: the loop goroutine is at its
`select` and no handler invocation is in flight. -/
def boot (g : Group Obj P) : Sys Obj P :=
  ⟨g, Pc.select, 0⟩

/-- The actions of the loop goroutine that hand `n` batches to the handler one after
the other. -/
def handOver : Nat → List (Act Obj)
  | 0 => []
  | n + 1 => Act.begin :: Act.finish :: handOver n

end asyncbatch

/-! # Package atomicx: subtraction on unsigned atomics -/

namespace atomicx

/-- The conversion `uint32(x)` of a signed value: `x` modulo 2^32. -/
def toUint32 (x : Int) : Nat :=
  (x % 4294967296).toNat

/-- The conversion `uint64(x)` of a signed value: `x` modulo 2^64. -/
def toUint64 (x : Int) : Nat :=
  (x % 18446744073709551616).toNat

/-- The `int32` result of an arithmetic operation whose exact value is `x`: two's
complement wrap-around into [-2^31, 2^31). -/
def wrapInt32 (x : Int) : Int :=
  (x + 2147483648) % 4294967296 - 2147483648

/-- The `int64` result of an arithmetic operation whose exact value is `x`: two's
complement wrap-around into [-2^63, 2^63). -/
def wrapInt64 (x : Int) : Int :=
  (x + 9223372036854775808) % 18446744073709551616 - 9223372036854775808

/-- The bitwise complement `^x` of a `uint32`. -/
def notUint32 (x : Nat) : Nat :=
  4294967295 - x

/-- The bitwise complement `^x` of a `uint64`. -/
def notUint64 (x : Nat) : Nat :=
  18446744073709551615 - x

/-- The call `atomic.AddUint32(addr, delta)` with `*addr = v`: the value stored in
`*addr` and the value returned. -/
def AddUint32 (v delta : Nat) : Nat × Nat :=
  ((v + delta) % 4294967296, (v + delta) % 4294967296)

/-- The call `atomic.AddUint64(addr, delta)` with `*addr = v`: the value stored in
`*addr` and the value returned. -/
def AddUint64 (v delta : Nat) : Nat × Nat :=
  ((v + delta) % 18446744073709551616, (v + delta) % 18446744073709551616)

/-- Function `SubUint32` with `*addr = v`: the value stored and the value returned. -/
def SubUint32 (v : Nat) (delta : Int) : Nat × Nat :=
  AddUint32 v (notUint32 (toUint32 (wrapInt32 (delta - 1))))

/-- Function `SubUint64` with `*addr = v`: the value stored and the value returned. -/
def SubUint64 (v : Nat) (delta : Int) : Nat × Nat :=
  AddUint64 v (notUint64 (toUint64 (wrapInt64 (delta - 1))))

/-- Function `DecrUint32`. -/
def DecrUint32 (v : Nat) : Nat × Nat :=
  SubUint32 v 1

/-- Function `DecrUint64`. -/
def DecrUint64 (v : Nat) : Nat × Nat :=
  SubUint64 v 1

/-- Function `IncrUint32`. -/
def IncrUint32 (v : Nat) : Nat × Nat :=
  AddUint32 v 1

/-- Function `IncrUint64`. -/
def IncrUint64 (v : Nat) : Nat × Nat :=
  AddUint64 v 1

end atomicx

/-! # Package poolx: the bucketed buffer pool -/

namespace poolx

/-- The package-level error `ErrInvalidSize`. -/
inductive Err where
  | ErrInvalidSize
  deriving DecidableEq, Repr

/-- A `*bytes.Buffer`, described by the capacity `Cap()` and the length `Len()` of
its byte slice. -/
structure Buffer where
  cap : Int
  len : Int
  deriving DecidableEq, Repr

/-- Modelled from the spec: the generic type `Pool[T]` with `NewPool`, `Get` and
`Put`, of which `BufferPool` is an instance, is not among the sources. Following the
comments of `NewBufferPool`, a pool makes new buffers of capacity `size`, resets a
buffer that is put back and keeps it for a later `Get`. `free` holds the pooled
buffers, the one put back last first. -/
structure BufferPool where
  size : Int
  free : List Buffer
  deriving DecidableEq, Repr

/-- Function `NewBufferPool`: an empty pool whose constructor makes
`bytes.NewBuffer(make([]byte, 0, size))`. -/
def NewBufferPool (size : Int) : BufferPool :=
  { size := size, free := [] }

/-- Modelled from the spec: method `Get` of the missing `Pool[T]`. A pooled buffer is
handed out when there is one, else the constructor runs; `make` with a negative
capacity panics (`none`). -/
def BufferPool.Get (sp : BufferPool) : Option (Buffer × BufferPool) :=
  match sp.free with
  | b :: rest => some (b, { sp with free := rest })
  | [] => if sp.size < 0 then none else some ({ cap := sp.size, len := 0 }, sp)

/-- Modelled from the spec: method `Put` of the missing `Pool[T]`. The buffer is reset
(`b.Reset()` keeps the capacity) and kept in the pool. -/
def BufferPool.Put (sp : BufferPool) (b : Buffer) : BufferPool :=
  { sp with free := { b with len := 0 } :: sp.free }

/-- The struct `BucketBufferPool`. -/
structure BucketBufferPool where
  minSize : Int
  maxSize : Int
  buckets : List BufferPool
  deriving DecidableEq, Repr

/-- The `int` (64 bit) result of an arithmetic operation whose exact value is `x`:
two's complement wrap-around into [-2^63, 2^63). -/
def wrapInt (x : Int) : Int :=
  (x + 9223372036854775808) % 18446744073709551616 - 9223372036854775808

/-- The conversion `uint64(x)` of an `int`: `x` modulo 2^64. -/
def toUint64 (x : Int) : Nat :=
  (x % 18446744073709551616).toNat

/-- The statement `curSize *= multiplier` with `multiplier` = 2. -/
def double (curSize : Int) : Int :=
  wrapInt (curSize * 2)

/-- The loop `for curSize < maxSize { buckets = append(buckets, p); curSize *= 2 }` of
`NewBucketBufferPool`, with `curSize` and `buckets` as loop state. The first argument
bounds the number of iterations; `none` means the loop has not ended within it. -/
def bucketLoop (maxSize : Int) : Nat → Int → List BufferPool → Option (Int × List BufferPool)
  | 0, _, _ => none
  | fuel + 1, curSize, buckets =>
    if curSize < maxSize then
      bucketLoop maxSize fuel (double curSize) (buckets ++ [NewBufferPool curSize])
    else some (curSize, buckets)

/-- Function `NewBucketBufferPool`, run for at most `fuel` iterations of its loop:
`none` means it has not returned within them, else the result is the error or the
pool. (`NewBufferPool` gives no error: its constructor functions are not nil.) -/
def NewBucketBufferPool (fuel : Nat) (minSize maxSize : Int) :
    Option (Except Err BucketBufferPool) :=
  if maxSize < minSize then some (Except.error Err.ErrInvalidSize)
  else
    match bucketLoop maxSize fuel minSize [] with
    | none => none
    | some (curSize, buckets) =>
      some (Except.ok
        { minSize := minSize, maxSize := maxSize, buckets := buckets ++ [NewBufferPool curSize] })

/-- The bit-length loop behind `bits.Len64`: halve until zero. -/
def lenLoop : Nat → Nat → Nat
  | 0, _ => 0
  | fuel + 1, x => if x = 0 then 0 else lenLoop fuel (x / 2) + 1

/-- The library function `bits.Len64`: the number of bits needed to write `x`, 0 for
`x = 0`. -/
def Len64 (x : Nat) : Nat :=
  lenLoop 64 x

/-- The library function `bits.Div64(0, x, y)`: quotient and remainder; it panics
(`none`) for `y = 0`. -/
def Div64 (x y : Nat) : Option (Nat × Nat) :=
  if y = 0 then none else some (x / y, x % y)

/-- The result of `findPool`: nil, the bucket at index `idx` of `p.buckets`, or a
run-time panic (division by zero, index out of range). -/
inductive Found where
  | nil
  | bucket (idx : Nat)
  | panic
  deriving DecidableEq, Repr

/-- The index computed in `findPool` from quotient and remainder:
`idx := bits.Len64(div)`, lowered by one `if rem == 0 && div != 0 && div&(div-1) == 0`. -/
def bucketIndex (div rem : Nat) : Nat :=
  if rem = 0 ∧ div ≠ 0 ∧ (div &&& (div - 1)) = 0 then Len64 div - 1 else Len64 div

/-- Method `findPool`. -/
def findPool (p : BucketBufferPool) (size : Int) : Found :=
  if size > p.maxSize then Found.nil
  else
    match Div64 (toUint64 size) (toUint64 p.minSize) with
    | none => Found.panic
    | some (div, rem) =>
      if bucketIndex div rem < p.buckets.length then Found.bucket (bucketIndex div rem)
      else Found.panic

/-- Method `Get` of `BucketBufferPool`: the buffer returned and the pool afterwards;
`none` is a panic. Above `maxSize` a new buffer `bytes.NewBuffer(make([]byte, size))`
is returned. -/
def BucketBufferPool.Get (p : BucketBufferPool) (size : Int) :
    Option (Buffer × BucketBufferPool) :=
  match findPool p size with
  | Found.nil => if size < 0 then none else some ({ cap := size, len := size }, p)
  | Found.panic => none
  | Found.bucket idx =>
    match p.buckets[idx]? with
    | none => none
    | some sp =>
      match sp.Get with
      | none => none
      | some (b, sp1) => some (b, { p with buckets := p.buckets.set idx sp1 })

/-- Method `Put` of `BucketBufferPool`: the pool afterwards; `none` is a panic. -/
def BucketBufferPool.Put (p : BucketBufferPool) (b : Buffer) : Option BucketBufferPool :=
  match findPool p b.cap with
  | Found.nil => some p
  | Found.panic => none
  | Found.bucket idx =>
    match p.buckets[idx]? with
    | none => none
    | some sp => some { p with buckets := p.buckets.set idx (sp.Put b) }

/-- The pool that `NewBucketBufferPool(128, 1024)` returns. -/
def pool128 : BucketBufferPool :=
  { minSize := 128, maxSize := 1024,
    buckets := [NewBufferPool 128, NewBufferPool 256, NewBufferPool 512, NewBufferPool 1024] }

end poolx

namespace asyncbatch

variable {Obj P : Type}

/-! ## Effects of the wrapped task -/

@[simp]
theorem runTask_calls (g : Group Obj P) (objs : List Obj) :
    (g.runTask objs).calls = g.calls ++ [objs] := by
  rfl

@[simp]
theorem runTask_buf (g : Group Obj P) (objs : List Obj) : (g.runTask objs).buf = g.buf := by
  rfl

@[simp]
theorem runTask_options (g : Group Obj P) (objs : List Obj) :
    (g.runTask objs).options = g.options := by
  rfl

@[simp]
theorem runTask_submitCh (g : Group Obj P) (objs : List Obj) :
    (g.runTask objs).submitCh = g.submitCh := by
  rfl

@[simp]
theorem runTask_closed (g : Group Obj P) (objs : List Obj) :
    (g.runTask objs).closed = g.closed := by
  rfl

@[simp]
theorem runTask_closedCh (g : Group Obj P) (objs : List Obj) :
    (g.runTask objs).closedCh = g.closedCh := by
  rfl

@[simp]
theorem runTask_wg (g : Group Obj P) (objs : List Obj) : (g.runTask objs).wg = g.wg := by
  rfl

@[simp]
theorem runTask_task (g : Group Obj P) (objs : List Obj) : (g.runTask objs).task = g.task := by
  rfl

@[simp]
theorem runTask_writes (g : Group Obj P) (objs : List Obj) :
    (g.runTask objs).writes = g.writes := by
  rfl

@[simp]
theorem runTask_crashed (g : Group Obj P) (objs : List Obj) :
    (g.runTask objs).crashed = g.crashed := by
  rfl

@[simp]
theorem runTask_recovered (g : Group Obj P) (objs : List Obj) :
    (g.runTask objs).recovered = g.recovered ++ hookLog g.options g.task objs := by
  rfl

/-! ## The drain loop -/

@[simp]
theorem overwrite_length {E : Type} (ws a : List E) : (overwrite ws a).length = a.length := by
  simp only [overwrite, List.length_append, List.length_take, List.length_drop]
  omega

@[simp]
theorem overwrite_nil {E : Type} (a : List E) : overwrite [] a = a := by
  simp [overwrite]

theorem drain_nil (g : Group Obj P) (ws : List Obj) : drain g ws [] = g := rfl

theorem drain_cons (g : Group Obj P) (ws b : List Obj) (bs : List (List Obj)) :
    drain g ws (b :: bs) = drain (g.runTask (overwrite ws b))
      (overlay (g.writes (overwrite ws b)) (ws.drop b.length)) bs := rfl

/-- The drain loop writes nothing but the two traces. -/
theorem drain_frame (bs : List (List Obj)) :
    ∀ (g : Group Obj P) (ws : List Obj),
      (drain g ws bs).options = g.options ∧ (drain g ws bs).buf = g.buf ∧
      (drain g ws bs).submitCh = g.submitCh ∧ (drain g ws bs).closed = g.closed ∧
      (drain g ws bs).closedCh = g.closedCh ∧ (drain g ws bs).wg = g.wg ∧
      (drain g ws bs).task = g.task ∧ (drain g ws bs).writes = g.writes ∧
      (drain g ws bs).crashed = g.crashed := by
  induction bs with
  | nil => intro g ws; simp [drain_nil]
  | cons b bs ih =>
    intro g ws
    rw [drain_cons]
    have := ih (g.runTask (overwrite ws b))
      (overlay (g.writes (overwrite ws b)) (ws.drop b.length))
    simpa using this

/-- The drain loop calls the handler once per batch, on a batch as long as the one
cut by `chunk`, and the hook calls are those of these handler calls. When no call
stores behind its batch the handler gets the batches themselves. -/
theorem drain_calls (bs : List (List Obj)) :
    ∀ (g : Group Obj P) (ws : List Obj), ∃ cs : List (List Obj),
      (drain g ws bs).calls = g.calls ++ cs ∧
      (drain g ws bs).recovered = g.recovered ++ cs.flatMap (hookLog g.options g.task) ∧
      cs.map List.length = bs.map List.length ∧
      (Quiet g → ws = [] → cs = bs) := by
  induction bs with
  | nil => intro g ws; exact ⟨[], by simp [drain_nil], by simp [drain_nil], rfl, fun _ _ => rfl⟩
  | cons b bs ih =>
    intro g ws
    obtain ⟨cs, h1, h2, h3, h4⟩ := ih (g.runTask (overwrite ws b))
      (overlay (g.writes (overwrite ws b)) (ws.drop b.length))
    refine ⟨overwrite ws b :: cs, ?_, ?_, ?_, ?_⟩
    · rw [drain_cons, h1]; simp
    · rw [drain_cons, h2]; simp [List.flatMap_cons]
    · simp [h3]
    · intro hq hws
      subst hws
      have hq1 : Quiet (g.runTask (overwrite [] b)) := fun c => hq c
      have := h4 hq1 (by simp [overlay, hq b])
      simp [this]

/-- With a handler that only reads its batches the drain loop is a fold of the
wrapped task over the batches. -/
theorem drain_quiet (bs : List (List Obj)) :
    ∀ g : Group Obj P, Quiet g → drain g [] bs = bs.foldl Group.runTask g := by
  induction bs with
  | nil => intro g _; rfl
  | cons b bs ih =>
    intro g hq
    rw [drain_cons, List.foldl_cons]
    have e : overlay (g.writes (overwrite [] b)) (([] : List Obj).drop b.length) = [] := by
      simp [overlay, hq b]
    rw [e, overwrite_nil]
    exact ih (g.runTask b) (fun c => hq c)

/-! ## The chunk loop -/

theorem wrapInt_le (x : Int) (h : 0 ≤ x) : wrapInt x ≤ x := by
  unfold wrapInt
  omega

theorem wrapInt_lt (x : Int) : wrapInt x < 9223372036854775808 := by
  unfold wrapInt
  omega

theorem wrapInt_eq (x : Int) (h0 : -9223372036854775808 ≤ x) (h1 : x < 9223372036854775808) :
    wrapInt x = x := by
  unfold wrapInt
  omega

/-- A sum of two non-negative `int` values either is exact or wraps to a negative
value. -/
theorem wrapInt_add (i size : Int) (hi : 0 ≤ i) (hi2 : i < 9223372036854775808)
    (hs : 0 ≤ size) (hs2 : size < 9223372036854775808) :
    wrapInt (i + size) = i + size ∨ wrapInt (i + size) < 0 := by
  unfold wrapInt
  omega

theorem slice_some {E : Type} (s : List E) (lo hi : Int) (c : List E)
    (h : slice s lo hi = some c) :
    0 ≤ lo ∧ lo ≤ hi ∧ hi ≤ (s.length : Int) ∧ c = (s.take hi.toNat).drop lo.toNat := by
  unfold slice at h
  split at h
  · rename_i hc
    exact ⟨hc.1, hc.2.1, hc.2.2, by simpa using h.symm⟩
  · cases h

theorem slice_ok {E : Type} (s : List E) (lo hi : Int) (h0 : 0 ≤ lo) (h1 : lo ≤ hi)
    (h2 : hi ≤ (s.length : Int)) : slice s lo hi = some ((s.take hi.toNat).drop lo.toNat) := by
  simp [slice, h0, h1, h2]

/-- When `i + size` wraps around to `i` itself the loop of `chunk` makes no progress;
no `size` within the range of `int` does this. -/
theorem chunkLoop_stuck {E : Type} (s : List E) (size : Int) (i : Int)
    (hi : i < (s.length : Int)) (hw : wrapInt (i + size) = i) :
    ∀ (fuel : Nat) (acc : List (List E)), chunkLoop s size fuel i acc = none := by
  intro fuel
  induction fuel with
  | zero => intro acc; rfl
  | succ f ih =>
    intro acc
    simp only [chunkLoop, hi, hw, if_true]
    cases slice s i i with
    | none => rfl
    | some c => exact ih _

theorem take_drop_flatten {E : Type} (s : List E) (a b : Nat) (hab : a ≤ b) :
    s.take a ++ (s.take b).drop a = s.take b := by
  have h : s.take a = (s.take b).take a := by
    rw [List.take_take]
    congr 1
    omega
  rw [h]
  exact List.take_append_drop a (s.take b)

/-- What the loop of `chunk` returns, if it returns: the chunks built before, then
chunks of between 1 and `size` items that concatenate to the rest of the slice; for
`size` within the range of `int` all but the last have exactly `size` items. -/
theorem chunkLoop_sound {E : Type} (s : List E) (size : Int) (hS : 1 ≤ size) :
    ∀ (fuel : Nat) (i : Int) (acc cs : List (List E)), 0 ≤ i →
      chunkLoop s size fuel i acc = some cs →
      ∃ tail : List (List E), cs = acc ++ tail ∧
        s.take i.toNat ++ tail.flatten = s.take (max i.toNat s.length) ∧
        (∀ c ∈ tail, 1 ≤ c.length ∧ (c.length : Int) ≤ size) ∧
        (size < 9223372036854775808 → i < 9223372036854775808 →
          ∀ c ∈ tail.dropLast, (c.length : Int) = size) := by
  intro fuel
  induction fuel with
  | zero => intro i acc cs _ h; cases h
  | succ f ih =>
    intro i acc cs hi h
    by_cases hlt : i < (s.length : Int)
    · have hwle := wrapInt_le (i + size) (by omega)
      by_cases hne : wrapInt (i + size) = i
      · rw [chunkLoop_stuck s size i hlt hne (f + 1) acc] at h
        cases h
      · simp only [chunkLoop, hlt, if_true] at h
        by_cases hw : wrapInt (i + size) < (s.length : Int)
        · simp only [hw, if_true] at h
          cases hsl : slice s i (wrapInt (i + size)) with
          | none => rw [hsl] at h; cases h
          | some c =>
            rw [hsl] at h
            obtain ⟨_, h1, h2, hc⟩ := slice_some s _ _ c hsl
            obtain ⟨tail, e1, e2, e3, e4⟩ := ih (wrapInt (i + size)) _ cs (by omega) h
            have hclen : (c.length : Int) = wrapInt (i + size) - i := by
              rw [hc, List.length_drop, List.length_take]
              omega
            refine ⟨c :: tail, by rw [e1]; simp, ?_, ?_, ?_⟩
            · rw [List.flatten_cons, ← List.append_assoc, hc,
                take_drop_flatten s _ _ (by omega), e2]
              congr 1
              omega
            · intro d hd
              rcases List.mem_cons.mp hd with hd | hd
              · subst hd
                omega
              · exact e3 d hd
            · intro hs2 hi2 d hd
              have hd2 : d = c ∨ d ∈ tail.dropLast := by
                cases tail with
                | nil => simp at hd
                | cons t rest =>
                  rw [List.dropLast_cons_of_ne_nil (by simp)] at hd
                  simpa using hd
              rcases hd2 with hd2 | hd2
              · subst hd2
                rcases wrapInt_add i size hi hi2 (by omega) hs2 with hwa | hwa
                · omega
                · omega
              · exact e4 hs2 (wrapInt_lt _) d hd2
        · simp only [hw, if_false] at h
          cases hsl : slice s i (s.length : Int) with
          | none => rw [hsl] at h; cases h
          | some c =>
            rw [hsl] at h
            obtain ⟨_, h1, h2, hc⟩ := slice_some s _ _ c hsl
            obtain ⟨tail, e1, e2, e3, _⟩ := ih (wrapInt (i + size)) _ cs (by omega) h
            have hclen : (c.length : Int) = (s.length : Int) - i := by
              rw [hc, List.length_drop, List.length_take]
              omega
            have hmax : max (wrapInt (i + size)).toNat s.length = (wrapInt (i + size)).toNat := by
              omega
            have hmax2 : max i.toNat s.length = s.length := by omega
            have htk : s.take (wrapInt (i + size)).toNat = s := by
              apply List.take_of_length_le
              omega
            rw [hmax, htk] at e2
            have htail : tail = [] := by
              have : tail.flatten = [] := by simpa using e2
              cases tail with
              | nil => rfl
              | cons d rest =>
                have hd := (e3 d (by simp)).1
                have hd0 : d = [] := by
                  simp only [List.flatten_cons, List.append_eq_nil] at this
                  exact this.1
                rw [hd0] at hd
                simp at hd
            subst htail
            refine ⟨[c], by rw [e1]; simp, ?_, ?_, ?_⟩
            · rw [hmax2, hc]
              simp only [List.flatten_cons, List.flatten_nil, List.append_nil, Int.toNat_ofNat,
                List.take_length]
              exact List.take_append_drop _ _
            · intro d hd
              have : d = c := by simpa using hd
              subst this
              omega
            · intro _ _ d hd
              simp at hd
    · simp only [chunkLoop, hlt, if_false] at h
      have : cs = acc := by simpa using h.symm
      subst this
      refine ⟨[], by simp, ?_, by simp, by simp⟩
      have hmax : max i.toNat s.length = i.toNat := by omega
      rw [hmax]
      simp

/-- If `chunk` returns, its chunks concatenate to the slice and every one has
between 1 and `size` items; for `size` within the range of `int` every chunk but the
last has exactly `size` items. -/
theorem chunk_sound {E : Type} (s : List E) (size : Int) (hS : 1 ≤ size) (cs : List (List E))
    (h : chunk s size = some cs) :
    cs.flatten = s ∧ (∀ c ∈ cs, 1 ≤ c.length ∧ (c.length : Int) ≤ size) ∧
      (size < 9223372036854775808 → Chunked size.toNat cs) := by
  unfold chunk at h
  have h0 : ¬ size = 0 := by omega
  simp only [h0, if_false] at h
  split at h
  · obtain ⟨tail, e1, e2, e3, e4⟩ := chunkLoop_sound s size hS _ 0 [] cs (by omega) h
    simp only [List.nil_append] at e1
    subst e1
    refine ⟨by simpa using e2, e3, fun hs2 => ⟨fun c hc => ?_, fun c hc => ?_⟩⟩
    · have := e4 hs2 (by omega) c hc
      omega
    · have := e3 c hc
      omega
  · cases h

/-- Without overflow of `i + size` the loop of `chunk` returns within
`len(s) - i + 1` iterations. -/
theorem chunkLoop_returns {E : Type} (s : List E) (size : Int) (hS : 1 ≤ size)
    (hov : (s.length : Int) + size < 9223372036854775808) :
    ∀ (fuel : Nat) (i : Int) (acc : List (List E)), 0 ≤ i → 1 ≤ fuel →
      (s.length : Int) < i + (fuel : Int) → ∃ cs, chunkLoop s size fuel i acc = some cs := by
  intro fuel
  induction fuel with
  | zero => intro i acc _ h; omega
  | succ f ih =>
    intro i acc hi _ hf
    by_cases hlt : i < (s.length : Int)
    · have hw : wrapInt (i + size) = i + size := wrapInt_eq _ (by omega) (by omega)
      simp only [chunkLoop, hlt, if_true, hw]
      by_cases h2 : i + size < (s.length : Int)
      · simp only [h2, if_true, slice_ok s i (i + size) hi (by omega) (by omega)]
        exact ih _ _ (by omega) (by omega) (by push_cast at hf; omega)
      · simp only [h2, if_false, slice_ok s i (s.length : Int) hi (by omega) (by omega)]
        exact ih _ _ (by omega) (by push_cast at hf; omega) (by push_cast at hf; omega)
    · exact ⟨acc, by simp only [chunkLoop, hlt, if_false]⟩

/-- Function `chunk` returns whenever `l + size` does not overflow and the runtime
accepts the capacity `(l+size)/size`. -/
theorem chunk_returns {E : Type} (s : List E) (size : Int) (hS : 1 ≤ size)
    (hov : (s.length : Int) + size < 9223372036854775808)
    (hcap : 24 * (((s.length : Int) + size) / size) ≤ maxAlloc) :
    ∃ cs, chunk s size = some cs := by
  have h0 : ¬ size = 0 := by omega
  have hw : wrapInt ((s.length : Int) + size) = (s.length : Int) + size :=
    wrapInt_eq _ (by omega) (by omega)
  have hdiv : Int.tdiv ((s.length : Int) + size) size = ((s.length : Int) + size) / size :=
    Int.tdiv_eq_ediv (by omega) (by omega)
  have hnn : 0 ≤ ((s.length : Int) + size) / size := Int.ediv_nonneg (by omega) (by omega)
  have hmk : makeslice 24 (Int.tdiv (wrapInt ((s.length : Int) + size)) size) = true := by
    rw [hw, hdiv]
    simp [makeslice, hnn, hcap]
  simp only [chunk, h0, if_false, hmk, if_true]
  exact chunkLoop_returns s size hS hov _ 0 [] (by omega) (by omega) (by push_cast; omega)

theorem chunk_nil {E : Type} (size : Int) (cs : List (List E))
    (h : chunk ([] : List E) size = some cs) : cs = [] := by
  unfold chunk at h
  split at h
  · cases h
  · split at h
    · simpa [chunkLoop] using h.symm
    · cases h

/-- A list of batches in chunk shape for `n` has ceil(total / n) batches:
`total ≤ count * n < total + n`. -/
theorem Chunked.count {E : Type} (n : Nat) (hn : 1 ≤ n) :
    ∀ cs : List (List E), Chunked n cs →
      cs.flatten.length ≤ cs.length * n ∧ cs.length * n < cs.flatten.length + n := by
  intro cs
  induction cs with
  | nil => intro _; simp; omega
  | cons c rest ih =>
    intro h
    by_cases hr : rest = []
    · subst hr
      have := h.2 c (by simp)
      simp
      omega
    · have hc : c.length = n := h.1 c (by rw [List.dropLast_cons_of_ne_nil hr]; simp)
      have hrest : Chunked n rest := by
        refine ⟨fun d hd => h.1 d ?_, fun d hd => h.2 d (by simp [hd])⟩
        rw [List.dropLast_cons_of_ne_nil hr]
        simp [hd]
      have := ih hrest
      simp only [List.flatten_cons, List.length_append, List.length_cons, hc, Nat.succ_mul]
      omega

theorem ceil_of_bounds (k N S : Int) (hS : 1 ≤ S) (h1 : N ≤ k * S) (h2 : k * S < N + S) :
    k = (N + S - 1) / S := by
  have hS0 : 0 < S := by omega
  have a : k ≤ (N + S - 1) / S := (Int.le_ediv_iff_mul_le hS0).mpr (by omega)
  have b : (N + S - 1) / S < k + 1 :=
    (Int.ediv_lt_iff_lt_mul hS0).mpr (by rw [add_mul]; omega)
  omega

/-! ## What the flushes leave alone -/

theorem onSubmit_frame (g : Group Obj P) : SameFrame g (onSubmit g) := by
  unfold onSubmit SameFrame
  split <;> simp

theorem onTick_frame (g : Group Obj P) : SameFrame g (onTick g) := by
  unfold onTick SameFrame
  split
  · simp
  · split <;> simp

theorem onClose_none (g : Group Obj P) (h : chunk g.buf g.options.Size = none) :
    onClose g = { g with crashed := true } := by
  simp only [onClose, h]

theorem onClose_some (g : Group Obj P) (cs : List (List Obj))
    (h : chunk g.buf g.options.Size = some cs) :
    onClose g = drain { g with buf := [] } [] cs := by
  simp only [onClose, h]

theorem onClose_frame (g : Group Obj P) : SameFrame g (onClose g) := by
  cases h : chunk g.buf g.options.Size with
  | none => rw [onClose_none g h]; exact ⟨rfl, rfl, rfl, rfl, rfl, rfl⟩
  | some cs =>
    rw [onClose_some g cs h]
    have f := drain_frame cs { g with buf := [] } []
    exact ⟨f.1, f.2.2.2.1, f.2.2.2.2.1, f.2.2.2.2.2.1, f.2.2.2.2.2.2.1, f.2.2.1⟩

theorem onClose_writes (g : Group Obj P) : (onClose g).writes = g.writes := by
  cases h : chunk g.buf g.options.Size with
  | none => rw [onClose_none g h]
  | some cs =>
    rw [onClose_some g cs h]
    exact (drain_frame cs { g with buf := [] } []).2.2.2.2.2.2.2.1

/-- The drain either panics in `chunk` and leaves buffer and traces as they are, or
empties the buffer and calls the handler once per chunk, on a batch as long as the
chunk, which is the chunk itself when no handler call stores behind its batch. -/
theorem onClose_cases (g : Group Obj P) :
    (chunk g.buf g.options.Size = none ∧ (onClose g).calls = g.calls ∧
      (onClose g).recovered = g.recovered ∧ (onClose g).buf = g.buf ∧
      (onClose g).crashed = true) ∨
    (∃ cs bs : List (List Obj), chunk g.buf g.options.Size = some cs ∧
      (onClose g).calls = g.calls ++ bs ∧
      (onClose g).recovered = g.recovered ++ bs.flatMap (hookLog g.options g.task) ∧
      (onClose g).buf = [] ∧ (onClose g).crashed = g.crashed ∧
      bs.map List.length = cs.map List.length ∧ (Quiet g → bs = cs)) := by
  cases h : chunk g.buf g.options.Size with
  | none =>
    left
    rw [onClose_none g h]
    exact ⟨rfl, rfl, rfl, rfl, rfl⟩
  | some cs =>
    right
    obtain ⟨bs, h1, h2, h3, h4⟩ := drain_calls cs { g with buf := [] } []
    have f := drain_frame cs { g with buf := [] } []
    rw [onClose_some g cs h]
    exact ⟨cs, bs, rfl, h1, h2, f.2.1, f.2.2.2.2.2.2.2.2, h3, fun hq => h4 (fun b => hq b) rfl⟩

theorem onClose_suffix (g : Group Obj P) : (onClose g).buf <:+ g.buf := by
  rcases onClose_cases g with ⟨_, _, _, h, _⟩ | ⟨_, _, _, _, _, h, _⟩
  · rw [h]
  · rw [h]; exact List.nil_suffix

theorem mem_of_map_length_eq {E : Type} (bs cs : List (List E))
    (h : bs.map List.length = cs.map List.length) (b : List E) (hb : b ∈ bs) :
    ∃ c ∈ cs, c.length = b.length := by
  have : b.length ∈ cs.map List.length := by
    rw [← h]
    exact List.mem_map_of_mem _ hb
  obtain ⟨c, hc, hl⟩ := List.mem_map.mp this
  exact ⟨c, hc, hl⟩

theorem Submit_closed (g : Group Obj P) (obj : Obj) (h : g.closed = true) :
    Submit g obj = (g, some Err.ErrClosed) := by
  simp [Submit, h]

theorem Submit_open (g : Group Obj P) (obj : Obj) (h : g.closed = false) :
    Submit g obj =
      ({ g with
          buf := g.buf ++ [obj]
          submitCh :=
            if g.options.Size ≤ ((g.buf ++ [obj]).length : Int) ∧ g.submitCh < 1
            then g.submitCh + 1 else g.submitCh }, none) := by
  unfold Submit
  simp only [h, Bool.false_eq_true, if_false]
  by_cases h1 : g.options.Size ≤ ((g.buf ++ [obj]).length : Int)
  · by_cases h2 : g.submitCh < 1
    · simp only [h1, h2, if_true, and_self]
    · simp only [h1, h2, if_true, if_false, and_false]
  · simp only [h1, if_false, false_and]

theorem Submit_frame (g : Group Obj P) (obj : Obj) :
    (Submit g obj).1.options = g.options ∧ (Submit g obj).1.closed = g.closed ∧
      (Submit g obj).1.closedCh = g.closedCh ∧ (Submit g obj).1.wg = g.wg ∧
      (Submit g obj).1.task = g.task ∧ (Submit g obj).1.calls = g.calls ∧
      (Submit g obj).1.recovered = g.recovered := by
  cases h : g.closed with
  | true => simp [Submit_closed g obj h, h]
  | false => simp [Submit_open g obj h, h]

theorem Close_frame (g : Group Obj P) :
    (Close g).1.options = g.options ∧ (Close g).1.buf = g.buf ∧
      (Close g).1.submitCh = g.submitCh ∧ (Close g).1.wg = g.wg ∧
      (Close g).1.task = g.task ∧ (Close g).1.calls = g.calls ∧
      (Close g).1.recovered = g.recovered := by
  unfold Close
  by_cases hc : g.closed = true
  · simp [hc]
  · simp [hc]

theorem step_wg (g : Group Obj P) (e : Event Obj) (h : (step g e).wg ≠ g.wg) :
    e = Event.loop Case.closedCh ∧ g.closedCh = true ∧
      step g e = { onClose g with wg := g.wg - 1 } := by
  cases e with
  | submit obj => exact absurd (Submit_frame g obj).2.2.2.1 h
  | close => exact absurd (Close_frame g).2.2.2.1 h
  | loop c =>
    simp only [step, loop] at h ⊢
    by_cases h0 : g.wg = 0
    · simp [h0] at h
    · simp only [h0, if_false] at h ⊢
      cases c with
      | submitCh =>
        exfalso
        apply h
        dsimp only
        split
        · exact (onSubmit_frame _).2.2.2.1
        · rfl
      | tick => exact absurd (onTick_frame g).2.2.2.1 h
      | closedCh =>
        by_cases hc : g.closedCh = true
        · simp [hc]
        · simp [hc] at h

theorem Close_closed (g : Group Obj P) (h : g.closed = true) :
    Close g = (g, some Err.ErrClosed) := by
  simp [Close, h]

theorem Close_open (g : Group Obj P) (h : g.closed = false) :
    Close g = ({ g with closed := true, closedCh := true }, none) := by
  simp [Close, h]

/-- Every event leads to one of six states: the same state, the state after an
accepted `Submit`, the state after the first `Close`, or the state after one of the
three flushes run by the loop. -/
theorem step_cases (g : Group Obj P) (e : Event Obj) :
    step g e = g ∨
    (∃ obj, e = Event.submit obj ∧ g.closed = false ∧ step g e = (Submit g obj).1 ∧
      (Submit g obj).1.buf = g.buf ++ [obj] ∧ (Submit g obj).1.submitCh ≤ max g.submitCh 1) ∨
    (g.closed = false ∧ step g e = { g with closed := true, closedCh := true }) ∨
    (0 < g.wg ∧ 0 < g.submitCh ∧ step g e = onSubmit { g with submitCh := g.submitCh - 1 }) ∨
    (0 < g.wg ∧ step g e = onTick g) ∨
    (0 < g.wg ∧ g.closedCh = true ∧ step g e = { onClose g with wg := g.wg - 1 }) := by
  cases e with
  | submit obj =>
    cases h : g.closed with
    | true => left; simp [step, Submit_closed g obj h]
    | false =>
      right; left
      refine ⟨obj, rfl, rfl, rfl, ?_, ?_⟩
      · simp [Submit_open g obj h]
      · simp only [Submit_open g obj h]
        split <;> omega
  | close =>
    cases h : g.closed with
    | true => left; simp [step, Close_closed g h]
    | false => right; right; left; simp [step, Close_open g h]
  | loop c =>
    by_cases h0 : g.wg = 0
    · left; simp [step, loop, h0]
    · have hpos : 0 < g.wg := by omega
      cases c with
      | submitCh =>
        by_cases hs : 0 < g.submitCh
        · right; right; right; left
          exact ⟨hpos, hs, by simp [step, loop, h0, hs]⟩
        · left; simp [step, loop, h0, hs]
      | tick => right; right; right; right; left; exact ⟨hpos, by simp [step, loop, h0]⟩
      | closedCh =>
        by_cases hc : g.closedCh = true
        · right; right; right; right; right
          exact ⟨hpos, hc, by simp [step, loop, h0, hc]⟩
        · left; simp [step, loop, h0, hc]

theorem run_nil (g : Group Obj P) : run g [] = g := rfl

theorem run_cons (g : Group Obj P) (e : Event Obj) (es : List (Event Obj)) :
    run g (e :: es) = run (step g e) es := rfl

theorem run_append (g : Group Obj P) (es fs : List (Event Obj)) :
    run g (es ++ fs) = run (run g es) fs := by
  simp [run, List.foldl_append]

/-- A property that every event preserves holds after every run. -/
theorem run_induction (Inv : Group Obj P → Prop)
    (hstep : ∀ g e, Inv g → Inv (step g e)) :
    ∀ (es : List (Event Obj)) (g : Group Obj P), Inv g → Inv (run g es) := by
  intro es
  induction es with
  | nil => intro g h; exact h
  | cons e es ih => intro g h; exact ih _ (hstep g e h)

theorem step_closed (g : Group Obj P) (e : Event Obj) (h : g.closed = true) :
    (step g e).closed = true := by
  rcases step_cases g e with h1 | ⟨_, _, h1, _⟩ | ⟨h1, _⟩ | ⟨_, _, h1⟩ | ⟨_, h1⟩ | ⟨_, _, h1⟩
  · rw [h1]; exact h
  · rw [h1] at h; cases h
  · rw [h1] at h; cases h
  · rw [h1, (onSubmit_frame _).2.1]; exact h
  · rw [h1, (onTick_frame _).2.1]; exact h
  · rw [h1]; exact ((onClose_frame g).2.1).trans h

theorem step_options (g : Group Obj P) (e : Event Obj) : (step g e).options = g.options := by
  rcases step_cases g e with h1 | ⟨obj, _, _, h1, _⟩ | ⟨_, h1⟩ | ⟨_, _, h1⟩ | ⟨_, h1⟩ | ⟨_, _, h1⟩
  · rw [h1]
  · rw [h1]; exact (Submit_frame g obj).1
  · rw [h1]
  · rw [h1, (onSubmit_frame _).1]
  · rw [h1, (onTick_frame _).1]
  · rw [h1]; exact (onClose_frame g).1

theorem step_task (g : Group Obj P) (e : Event Obj) : (step g e).task = g.task := by
  rcases step_cases g e with h1 | ⟨obj, _, _, h1, _⟩ | ⟨_, h1⟩ | ⟨_, _, h1⟩ | ⟨_, h1⟩ | ⟨_, _, h1⟩
  · rw [h1]
  · rw [h1]; exact (Submit_frame g obj).2.2.2.2.1
  · rw [h1]
  · rw [h1, (onSubmit_frame _).2.2.2.2.1]
  · rw [h1, (onTick_frame _).2.2.2.2.1]
  · rw [h1]; exact (onClose_frame g).2.2.2.2.1

theorem onSubmit_writes (g : Group Obj P) : (onSubmit g).writes = g.writes := by
  unfold onSubmit
  split <;> rfl

theorem onTick_writes (g : Group Obj P) : (onTick g).writes = g.writes := by
  unfold onTick
  split
  · rfl
  · split <;> rfl

theorem step_writes (g : Group Obj P) (e : Event Obj) : (step g e).writes = g.writes := by
  rcases step_cases g e with h1 | ⟨obj, _, h0, h1, _⟩ | ⟨_, h1⟩ | ⟨_, _, h1⟩ | ⟨_, h1⟩ | ⟨_, _, h1⟩
  · rw [h1]
  · rw [h1, Submit_open g obj h0]
  · rw [h1]
  · rw [h1, onSubmit_writes]
  · rw [h1, onTick_writes]
  · rw [h1]; exact onClose_writes g

theorem step_quiet (g : Group Obj P) (e : Event Obj) (h : Quiet g) : Quiet (step g e) := by
  intro b
  rw [step_writes]
  exact h b

theorem onSubmit_suffix (g : Group Obj P) : (onSubmit g).buf <:+ g.buf := by
  unfold onSubmit
  split
  · exact List.suffix_refl _
  · simpa using List.drop_suffix _ _

theorem onTick_suffix (g : Group Obj P) : (onTick g).buf <:+ g.buf := by
  unfold onTick
  split
  · exact List.suffix_refl _
  · split
    · simpa using List.drop_suffix _ _
    · simp

theorem step_suffix (g : Group Obj P) (e : Event Obj) (h : g.closed = true) :
    (step g e).buf <:+ g.buf := by
  rcases step_cases g e with h1 | ⟨_, _, h1, _⟩ | ⟨h1, _⟩ | ⟨_, _, h1⟩ | ⟨_, h1⟩ | ⟨_, _, h1⟩
  · rw [h1]
  · exact absurd h (by simp [h1])
  · exact absurd h (by simp [h1])
  · rw [h1]; exact onSubmit_suffix _
  · rw [h1]; exact onTick_suffix _
  · rw [h1]
    exact onClose_suffix g

theorem step_submitCh (g : Group Obj P) (e : Event Obj) (h : g.submitCh ≤ 1) :
    (step g e).submitCh ≤ 1 := by
  rcases step_cases g e with h1 | ⟨_, _, _, h1, _, h2⟩ | ⟨_, h1⟩ | ⟨_, _, h1⟩ | ⟨_, h1⟩ | ⟨_, _, h1⟩
  · rw [h1]; exact h
  · rw [h1]; omega
  · rw [h1]; exact h
  · rw [h1, (onSubmit_frame _).2.2.2.2.2]; show g.submitCh - 1 ≤ 1; omega
  · rw [h1, (onTick_frame _).2.2.2.2.2]; exact h
  · rw [h1]; exact ((onClose_frame g).2.2.2.2.2).le.trans h

theorem step_closedCh (g : Group Obj P) (e : Event Obj) (h : g.closedCh = true) :
    (step g e).closedCh = true := by
  rcases step_cases g e with h1 | ⟨obj, _, _, h1, _⟩ | ⟨_, h1⟩ | ⟨_, _, h1⟩ | ⟨_, h1⟩ | ⟨_, _, h1⟩
  · rw [h1]; exact h
  · rw [h1, (Submit_frame g obj).2.2.1]; exact h
  · rw [h1]
  · rw [h1, (onSubmit_frame _).2.2.1]; exact h
  · rw [h1, (onTick_frame _).2.2.1]; exact h
  · rw [h1]; exact ((onClose_frame g).2.2.1).trans h

theorem step_wg_le (g : Group Obj P) (e : Event Obj) : (step g e).wg ≤ g.wg := by
  by_cases h : (step g e).wg = g.wg
  · omega
  · rw [(step_wg g e h).2.2]
    show g.wg - 1 ≤ g.wg
    omega

/-- Once the flag is set and the loop has exited, no event changes the state. -/
theorem step_terminated (g : Group Obj P) (e : Event Obj) (hc : g.closed = true)
    (hw : g.wg = 0) : step g e = g := by
  rcases step_cases g e with h1 | ⟨_, _, h1, _⟩ | ⟨h1, _⟩ | ⟨h1, _⟩ | ⟨h1, _⟩ | ⟨h1, _⟩
  · exact h1
  · exact absurd hc (by simp [h1])
  · exact absurd hc (by simp [h1])
  · omega
  · omega
  · omega

/-! ## Conservation of the accepted items -/

theorem onSubmit_small (g : Group Obj P) (h : (g.buf.length : Int) < g.options.Size) :
    onSubmit g = g := by
  simp [onSubmit, h]

theorem onSubmit_big (g : Group Obj P) (h : g.options.Size ≤ (g.buf.length : Int)) :
    onSubmit g = Group.runTask { g with buf := g.buf.drop g.options.Size.toNat }
      (g.buf.take g.options.Size.toNat) := by
  have : ¬ ((g.buf.length : Int) < g.options.Size) := by omega
  simp [onSubmit, this]

theorem onTick_empty (g : Group Obj P) (h : g.buf = []) : onTick g = g := by
  simp [onTick, h]

theorem onTick_big (g : Group Obj P) (hS : 1 ≤ g.options.Size)
    (h : g.options.Size ≤ (g.buf.length : Int)) :
    onTick g = Group.runTask { g with buf := g.buf.drop g.options.Size.toNat }
      (g.buf.take g.options.Size.toNat) := by
  have a : ¬ ((g.buf.length : Int) ≤ 0) := by omega
  simp only [onTick, a, h, if_true, if_false]

theorem onTick_short (g : Group Obj P) (h0 : g.buf ≠ [])
    (h : (g.buf.length : Int) < g.options.Size) :
    onTick g = Group.runTask { g with buf := [] } g.buf := by
  have a : ¬ ((g.buf.length : Int) ≤ 0) := by
    have := List.length_pos.mpr h0
    omega
  have b : ¬ (g.options.Size ≤ (g.buf.length : Int)) := by omega
  simp only [onTick, a, b, if_false]

theorem onSubmit_conserve (g : Group Obj P) :
    (onSubmit g).calls.flatten ++ (onSubmit g).buf = g.calls.flatten ++ g.buf := by
  unfold onSubmit
  split
  · rfl
  · simp

theorem onTick_conserve (g : Group Obj P) :
    (onTick g).calls.flatten ++ (onTick g).buf = g.calls.flatten ++ g.buf := by
  unfold onTick
  split
  · rfl
  · split <;> simp

theorem onClose_conserve (g : Group Obj P) (hS : 1 ≤ g.options.Size) (hq : Quiet g) :
    (onClose g).calls.flatten ++ (onClose g).buf = g.calls.flatten ++ g.buf := by
  rcases onClose_cases g with ⟨_, h1, _, h2, _⟩ | ⟨cs, bs, hc, h1, _, h2, _, _, h3⟩
  · rw [h1, h2]
  · rw [h1, h2, h3 hq]
    simp [(chunk_sound g.buf g.options.Size hS cs hc).1]

theorem accepted_cons (g : Group Obj P) (e : Event Obj) (es : List (Event Obj)) :
    accepted g (e :: es) = accepted g [e] ++ accepted (step g e) es := by
  cases e <;> simp [accepted]

theorem step_conserve (g : Group Obj P) (hS : 1 ≤ g.options.Size) (hq : Quiet g)
    (e : Event Obj) :
    (step g e).calls.flatten ++ (step g e).buf
      = g.calls.flatten ++ g.buf ++ accepted g [e] := by
  cases e with
  | submit obj =>
    cases h : g.closed with
    | true => simp [step, accepted, Submit_closed g obj h]
    | false => simp [step, accepted, Submit_open g obj h]
  | close =>
    simp [step, accepted, (Close_frame g).2.1, (Close_frame g).2.2.2.2.2.1]
  | loop c =>
    rcases step_cases g (Event.loop c) with h1 | ⟨_, h0, _⟩ | ⟨_, h1⟩ | ⟨_, _, h1⟩ | ⟨_, h1⟩ |
      ⟨_, _, h1⟩
    · simp [h1, accepted]
    · cases h0
    · simp [h1, accepted]
    · rw [h1, onSubmit_conserve]
      simp [accepted]
    · rw [h1, onTick_conserve]
      simp [accepted]
    · rw [h1]
      show (onClose g).calls.flatten ++ (onClose g).buf = _
      rw [onClose_conserve g hS hq]
      simp [accepted]

/-- With a handler that only reads its batches, the batches handed over so far
followed by the buffer are the accepted items in order, whether or not the drain
panics. -/
theorem run_conserve (es : List (Event Obj)) :
    ∀ g : Group Obj P, 1 ≤ g.options.Size → Quiet g →
      (run g es).calls.flatten ++ (run g es).buf = g.calls.flatten ++ g.buf ++ accepted g es := by
  induction es with
  | nil => intro g _ _; simp [run, accepted]
  | cons e es ih =>
    intro g hS hq
    rw [run_cons, ih (step g e) (by rw [step_options]; exact hS) (step_quiet g e hq),
      step_conserve g hS hq e, accepted_cons g e es]
    simp

/-! ## The batches of one event -/

/-- What one event hands to the handler: nothing (the buffer is unchanged or, for an
accepted `Submit`, one item longer), or the first `Size` items of a buffer holding at
least that many, or on a tick a whole buffer shorter than `Size`, or on a drain that
does not panic one batch per chunk of the buffer, as long as the chunk (and equal to
it when no handler call stores behind its batch). The hook calls are those of these
batches. -/
theorem step_batches (g : Group Obj P) (hS : 1 ≤ g.options.Size) (e : Event Obj) :
    ∃ bs : List (List Obj),
      (step g e).calls = g.calls ++ bs ∧
      (step g e).recovered = g.recovered ++ bs.flatMap (hookLog g.options g.task) ∧
      ((bs = [] ∧ ((step g e).buf = g.buf ∨
          ∃ x, e = Event.submit x ∧ (step g e).buf = g.buf ++ [x])) ∨
        (g.options.Size ≤ (g.buf.length : Int) ∧ bs = [g.buf.take g.options.Size.toNat] ∧
          (step g e).buf = g.buf.drop g.options.Size.toNat) ∨
        (e = Event.loop Case.tick ∧ g.buf ≠ [] ∧ (g.buf.length : Int) < g.options.Size ∧
          bs = [g.buf] ∧ (step g e).buf = []) ∨
        (e = Event.loop Case.closedCh ∧ ∃ cs, chunk g.buf g.options.Size = some cs ∧
          bs.map List.length = cs.map List.length ∧ (Quiet g → bs = cs) ∧
          (step g e).buf = [])) := by
  have same : step g e = g → ∃ bs : List (List Obj),
      (step g e).calls = g.calls ++ bs ∧
      (step g e).recovered = g.recovered ++ bs.flatMap (hookLog g.options g.task) ∧
      ((bs = [] ∧ ((step g e).buf = g.buf ∨
          ∃ x, e = Event.submit x ∧ (step g e).buf = g.buf ++ [x])) ∨
        (g.options.Size ≤ (g.buf.length : Int) ∧ bs = [g.buf.take g.options.Size.toNat] ∧
          (step g e).buf = g.buf.drop g.options.Size.toNat) ∨
        (e = Event.loop Case.tick ∧ g.buf ≠ [] ∧ (g.buf.length : Int) < g.options.Size ∧
          bs = [g.buf] ∧ (step g e).buf = []) ∨
        (e = Event.loop Case.closedCh ∧ ∃ cs, chunk g.buf g.options.Size = some cs ∧
          bs.map List.length = cs.map List.length ∧ (Quiet g → bs = cs) ∧
          (step g e).buf = [])) := fun h1 =>
    ⟨[], by simp [h1], by simp [h1], Or.inl ⟨rfl, Or.inl (by rw [h1])⟩⟩
  have big : ∀ g1 : Group Obj P, g1.options = g.options → g1.buf = g.buf → g1.task = g.task →
      g1.calls = g.calls → g1.recovered = g.recovered →
      g.options.Size ≤ (g.buf.length : Int) →
      step g e = Group.runTask { g1 with buf := g1.buf.drop g1.options.Size.toNat }
        (g1.buf.take g1.options.Size.toNat) → ∃ bs : List (List Obj),
      (step g e).calls = g.calls ++ bs ∧
      (step g e).recovered = g.recovered ++ bs.flatMap (hookLog g.options g.task) ∧
      ((bs = [] ∧ ((step g e).buf = g.buf ∨
          ∃ x, e = Event.submit x ∧ (step g e).buf = g.buf ++ [x])) ∨
        (g.options.Size ≤ (g.buf.length : Int) ∧ bs = [g.buf.take g.options.Size.toNat] ∧
          (step g e).buf = g.buf.drop g.options.Size.toNat) ∨
        (e = Event.loop Case.tick ∧ g.buf ≠ [] ∧ (g.buf.length : Int) < g.options.Size ∧
          bs = [g.buf] ∧ (step g e).buf = []) ∨
        (e = Event.loop Case.closedCh ∧ ∃ cs, chunk g.buf g.options.Size = some cs ∧
          bs.map List.length = cs.map List.length ∧ (Quiet g → bs = cs) ∧
          (step g e).buf = [])) := by
    intro g1 ho hb ht hcs hr hge h1
    refine ⟨[g.buf.take g.options.Size.toNat], ?_, ?_, Or.inr (Or.inl ⟨hge, rfl, ?_⟩)⟩
    · rw [h1]; simp [ho, hb, hcs]
    · rw [h1]; simp [ho, hb, ht, hr, List.flatMap_singleton]
    · rw [h1]; simp [ho, hb]
  cases e with
  | submit obj =>
    cases h : g.closed with
    | true => exact same (by simp [step, Submit_closed g obj h])
    | false =>
      refine ⟨[], ?_, ?_, Or.inl ⟨rfl, Or.inr ⟨obj, rfl, ?_⟩⟩⟩
      · simp [step, Submit_open g obj h]
      · simp [step, Submit_open g obj h]
      · simp [step, Submit_open g obj h]
  | close =>
    cases h : g.closed with
    | true => exact same (by simp [step, Close_closed g h])
    | false =>
      exact ⟨[], by simp [step, Close_open g h], by simp [step, Close_open g h],
        Or.inl ⟨rfl, Or.inl (by simp [step, Close_open g h])⟩⟩
  | loop c =>
    by_cases hw : g.wg = 0
    · exact same (by simp [step, loop, hw])
    · cases c with
      | submitCh =>
        by_cases hs : 0 < g.submitCh
        · by_cases hlt : (g.buf.length : Int) < g.options.Size
          · have h1 : step g (Event.loop Case.submitCh) = { g with submitCh := g.submitCh - 1 } := by
              simp only [step, loop, hw, hs, if_true, if_false]
              rw [onSubmit_small _ (by exact hlt)]
            rw [h1]
            exact ⟨[], by simp, by simp, Or.inl ⟨rfl, Or.inl rfl⟩⟩
          · have hge : g.options.Size ≤ (g.buf.length : Int) := by omega
            apply big { g with submitCh := g.submitCh - 1 } rfl rfl rfl rfl rfl hge
            simp only [step, loop, hw, hs, if_true, if_false]
            rw [onSubmit_big _ (by exact hge)]
        · exact same (by simp [step, loop, hw, hs])
      | tick =>
        by_cases he : g.buf = []
        · exact same (by simp [step, loop, hw, onTick_empty g he])
        · by_cases hlt : (g.buf.length : Int) < g.options.Size
          · refine ⟨[g.buf], ?_, ?_, Or.inr (Or.inr (Or.inl ⟨rfl, he, hlt, rfl, ?_⟩))⟩
            · simp [step, loop, hw, onTick_short g he hlt]
            · simp [step, loop, hw, onTick_short g he hlt, List.flatMap_singleton]
            · simp [step, loop, hw, onTick_short g he hlt]
          · have hge : g.options.Size ≤ (g.buf.length : Int) := by omega
            apply big g rfl rfl rfl rfl rfl hge
            simp only [step, loop, hw, if_false]
            rw [onTick_big g hS hge]
      | closedCh =>
        by_cases hc : g.closedCh = true
        · have h1 : step g (Event.loop Case.closedCh) = { onClose g with wg := g.wg - 1 } := by
            simp [step, loop, hw, hc]
          rw [h1]
          rcases onClose_cases g with ⟨_, c1, c2, c3, _⟩ | ⟨cs, bs, hcs, c1, c2, c3, _, c4, c5⟩
          · exact ⟨[], by simpa using c1, by simpa using c2, Or.inl ⟨rfl, Or.inl c3⟩⟩
          · exact ⟨bs, c1, c2, Or.inr (Or.inr (Or.inr ⟨rfl, cs, hcs, c4, c5, c3⟩))⟩
        · exact same (by simp [step, loop, hw, hc])

/-! ## Hook calls -/

theorem hookLog_panicked (opt : options) (task : List Obj → Outcome P) (f : RecoverFn)
    (hf : opt.Recover = some f) (objs : List Obj) (p : P) (st : Stack)
    (h : task objs = Outcome.panicked p st) : hookLog opt task objs = [(f, p, st)] := by
  simp [hookLog, h, hf, recover, debugStack]

theorem hookLog_returned (opt : options) (task : List Obj → Outcome P) (objs : List Obj)
    (h : task objs = Outcome.returned) : hookLog opt task objs = [] := by
  simp [hookLog, h, recover]

/-- In every run of a new Group, whatever its handler does, the hook calls are those
of the handler calls, in order. -/
theorem run_hookLog (opt : options) (h : Handler Obj P) (hS : 1 ≤ opt.Size)
    (es : List (Event Obj)) :
    (run (start opt h) es).options = opt ∧ (run (start opt h) es).task = h.task ∧
      (run (start opt h) es).recovered
        = (run (start opt h) es).calls.flatMap (hookLog opt h.task) := by
  refine run_induction (fun g1 : Group Obj P => g1.options = opt ∧ g1.task = h.task ∧
    g1.recovered = g1.calls.flatMap (hookLog opt h.task)) ?_ es (start opt h)
    ⟨rfl, rfl, by simp [start]⟩
  intro g e ⟨ho, ht, hr⟩
  refine ⟨by rw [step_options]; exact ho, by rw [step_task]; exact ht, ?_⟩
  obtain ⟨bs, h1, h2, _⟩ := step_batches g (by rw [ho]; exact hS) e
  rw [h1, h2, hr, ho, ht, List.flatMap_append]

/-- With size 1 every batch of every run of a new Group holds exactly one item,
whatever its handler does. -/
theorem run_size_one (opt : options) (h : Handler Obj P) (hS : opt.Size = 1)
    (es : List (Event Obj)) :
    (run (start opt h) es).options = opt ∧
      ∀ b ∈ (run (start opt h) es).calls, b.length = 1 := by
  refine run_induction (fun g1 : Group Obj P => g1.options = opt ∧ ∀ b ∈ g1.calls, b.length = 1)
    ?_ es (start opt h) ⟨rfl, by simp [start]⟩
  intro g e ⟨ho, hb⟩
  refine ⟨by rw [step_options]; exact ho, ?_⟩
  have hS1 : g.options.Size = 1 := by rw [ho]; exact hS
  obtain ⟨bs, h1, _, h3⟩ := step_batches g (by omega) e
  rw [h1]
  intro b hbm
  rcases List.mem_append.mp hbm with hbm | hbm
  · exact hb b hbm
  · rcases h3 with ⟨h, _⟩ | ⟨hge, h, _⟩ | ⟨_, hne, hlt, _⟩ | ⟨_, cs, hcs, hlen, _⟩
    · rw [h] at hbm; cases hbm
    · rw [h] at hbm
      have : b = g.buf.take g.options.Size.toNat := by simpa using hbm
      rw [this, List.length_take, hS1]
      rw [hS1] at hge
      simp
      omega
    · have := List.length_pos.mpr hne
      omega
    · obtain ⟨c, hc, hl⟩ := mem_of_map_length_eq bs cs hlen b hbm
      have := (chunk_sound g.buf g.options.Size (by omega) cs hcs).2.1 c hc
      rw [hS1] at this
      omega

theorem flatten_length_of_singletons {E : Type} (cs : List (List E))
    (h : ∀ c ∈ cs, c.length = 1) : cs.flatten.length = cs.length := by
  induction cs with
  | nil => rfl
  | cons c cs ih =>
    have h1 := h c (by simp)
    have h2 := ih (fun d hd => h d (by simp [hd]))
    simp [h1, h2]
    omega

theorem forall₂_hookLog (opt : options) (task : List Obj → Outcome P) (f : RecoverFn)
    (hf : opt.Recover = some f) (hp : ∀ b, ∃ p st, task b = Outcome.panicked p st)
    (cs : List (List Obj)) :
    List.Forall₂ (fun b r => ∃ p st, task b = Outcome.panicked p st ∧ r = (f, p, st))
      cs (cs.flatMap (hookLog opt task)) := by
  induction cs with
  | nil => simp
  | cons c cs ih =>
    obtain ⟨p, st, h⟩ := hp c
    rw [List.flatMap_cons, hookLog_panicked opt task f hf c p st h]
    exact List.Forall₂.cons ⟨p, st, h, rfl⟩ ih

/-! ## Batches cut by size -/

theorem Chunked.of_full {E : Type} (n : Nat) (hn : 1 ≤ n) (cs : List (List E))
    (h : ∀ c ∈ cs, c.length = n) : Chunked n cs := by
  refine ⟨fun c hc => h c (List.mem_of_mem_dropLast hc), fun c hc => ?_⟩
  have := h c hc
  omega

theorem Chunked.append {E : Type} (n : Nat) (hn : 1 ≤ n) (a b : List (List E))
    (ha : ∀ c ∈ a, c.length = n) (hb : Chunked n b) : Chunked n (a ++ b) := by
  by_cases hbn : b = []
  · subst hbn
    simpa using Chunked.of_full n hn a ha
  · refine ⟨fun c hc => ?_, fun c hc => ?_⟩
    · rw [List.dropLast_append_of_ne_nil _ hbn] at hc
      rcases List.mem_append.mp hc with hc | hc
      · exact ha c hc
      · exact hb.1 c hc
    · rcases List.mem_append.mp hc with hc | hc
      · have := ha c hc
        omega
      · exact hb.2 c hc

theorem step_closed_eq (g : Group Obj P) (e : Event Obj) (he : e ≠ Event.close) :
    (step g e).closed = g.closed := by
  rcases step_cases g e with h1 | ⟨obj, _, _, h1, _⟩ | ⟨h0, h1⟩ | ⟨_, _, h1⟩ | ⟨_, h1⟩ | ⟨_, _, h1⟩
  · rw [h1]
  · rw [h1]; exact (Submit_frame g obj).2.1
  · cases e with
    | submit obj =>
      have := (Submit_frame g obj).2.1
      simp only [step] at h1 ⊢
      exact this
    | close => exact absurd rfl he
    | loop c =>
      simp only [step] at h1 ⊢
      by_cases hw : g.wg = 0
      · simp [loop, hw]
      · cases c with
        | submitCh =>
          simp only [loop, hw, if_false]
          split
          · exact (onSubmit_frame _).2.1
          · rfl
        | tick =>
          simp only [loop, hw, if_false]
          exact (onTick_frame g).2.1
        | closedCh =>
          simp only [loop, hw, if_false]
          split
          · exact (onClose_frame g).2.1
          · rfl
  · rw [h1]; exact (onSubmit_frame _).2.1
  · rw [h1]; exact (onTick_frame _).2.1
  · rw [h1]; exact (onClose_frame g).2.1

/-- While only full batches are cut, the Group stays open with its loop running, all
submitted items are accepted and every batch has exactly `Size` items. -/
theorem fullBatches_run (es : List (Event Obj)) :
    ∀ g : Group Obj P, 1 ≤ g.options.Size → fullBatches g es = true → g.closed = false →
      (∀ c ∈ g.calls, c.length = g.options.Size.toNat) →
      (run g es).closed = false ∧ (run g es).wg = g.wg ∧
        (∀ c ∈ (run g es).calls, c.length = g.options.Size.toNat) ∧
        accepted g es = items es := by
  induction es with
  | nil => intro g _ _ hc hf; exact ⟨hc, rfl, hf, rfl⟩
  | cons e es ih =>
    intro g hS hfb hc hf
    simp only [fullBatches, Bool.and_eq_true] at hfb
    obtain ⟨he, hrest⟩ := hfb
    have hne : e ≠ Event.close := by
      intro h; subst h; simp at he
    have hnc : e ≠ Event.loop Case.closedCh := by
      intro h; subst h; simp at he
    have hopt := step_options g e
    have hcl : (step g e).closed = false := by rw [step_closed_eq g e hne]; exact hc
    have hwg : (step g e).wg = g.wg := by
      by_contra hw
      exact hnc (step_wg g e hw).1
    have hfull : ∀ c ∈ (step g e).calls, c.length = (step g e).options.Size.toNat := by
      rw [hopt]
      obtain ⟨bs, h1, _, h3⟩ := step_batches g hS e
      rw [h1]
      intro c hcm
      rcases List.mem_append.mp hcm with hcm | hcm
      · exact hf c hcm
      · rcases h3 with ⟨hb, _⟩ | ⟨hge, hb, _⟩ | ⟨het, hbne, hlt, _⟩ | ⟨het, _⟩
        · rw [hb] at hcm; cases hcm
        · rw [hb] at hcm
          have : c = g.buf.take g.options.Size.toNat := by simpa using hcm
          rw [this, List.length_take]
          omega
        · subst het
          simp only [Bool.or_eq_true, decide_eq_true_eq, List.isEmpty_iff] at he
          rcases he with he | he
          · exact absurd he hbne
          · omega
        · exact absurd het hnc
    have := ih (step g e) (by rw [hopt]; exact hS) hrest hcl hfull
    rw [hopt] at this
    refine ⟨this.1, by rw [run_cons, this.2.1, hwg], this.2.2.1, ?_⟩
    rw [accepted_cons, this.2.2.2]
    cases e with
    | submit obj => simp [accepted, items, Submit_open g obj hc]
    | close => exact absurd rfl hne
    | loop c => simp [accepted, items]

/-- Without further `Submit` calls nothing is accepted and the batches keep their
shape. -/
theorem flushOnly_run (fs : List (Event Obj)) :
    ∀ g : Group Obj P, 1 ≤ g.options.Size → g.options.Size < 9223372036854775808 →
      Quiet g → flushOnly fs = true → Shape g.options.Size.toNat g →
      Shape g.options.Size.toNat (run g fs) ∧ accepted g fs = [] := by
  induction fs with
  | nil => intro g _ _ _ _ h; exact ⟨h, rfl⟩
  | cons e fs ih =>
    intro g hS hS2 hq hfl hsh
    simp only [flushOnly, List.all_cons, Bool.and_eq_true] at hfl
    obtain ⟨he, hrest⟩ := hfl
    have hopt := step_options g e
    have hn : 1 ≤ g.options.Size.toNat := by omega
    have hshape : Shape (step g e).options.Size.toNat (step g e) := by
      rw [hopt]
      obtain ⟨bs, h1, _, h3⟩ := step_batches g hS e
      rcases h3 with ⟨hb, hbuf⟩ | ⟨hge, hb, _⟩ | ⟨_, hbne, hlt, hb, hbuf⟩ |
        ⟨_, cs, hcs, _, hb, hbuf⟩
      · have hbuf2 : (step g e).buf = g.buf := by
          rcases hbuf with hbuf | ⟨x, hx, _⟩
          · exact hbuf
          · subst hx; simp at he
        have hcalls : (step g e).calls = g.calls := by rw [h1, hb]; simp
        unfold Shape
        rw [hcalls, hbuf2]
        exact hsh
      · rcases hsh with hA | ⟨hB, _⟩
        · left
          rw [h1, hb]
          intro c hcm
          rcases List.mem_append.mp hcm with hcm | hcm
          · exact hA c hcm
          · have : c = g.buf.take g.options.Size.toNat := by simpa using hcm
            rw [this, List.length_take]
            omega
        · rw [hB] at hge
          simp at hge
          omega
      · rcases hsh with hA | ⟨hB, _⟩
        · right
          refine ⟨hbuf, ?_⟩
          rw [h1, hb]
          apply Chunked.append _ hn _ _ hA
          have hpos := List.length_pos.mpr hbne
          refine ⟨fun c hc => by simp at hc, fun c hc => ?_⟩
          have : c = g.buf := by simpa using hc
          subst this
          omega
        · exact absurd hB hbne
      · have hb := hb hq
        rcases hsh with hA | ⟨hB, hch⟩
        · right
          refine ⟨hbuf, ?_⟩
          rw [h1, hb]
          exact Chunked.append _ hn _ _ hA ((chunk_sound g.buf g.options.Size hS cs hcs).2.2 hS2)
        · right
          refine ⟨hbuf, ?_⟩
          rw [hB] at hcs
          rw [h1, hb, chunk_nil _ cs hcs]
          simpa using hch
    have := ih (step g e) (by rw [hopt]; exact hS) (by rw [hopt]; exact hS2)
      (step_quiet g e hq) hrest hshape
    rw [hopt] at this
    refine ⟨this.1, ?_⟩
    rw [accepted_cons, this.2]
    cases e with
    | submit obj => simp at he
    | close => simp [accepted]
    | loop c => simp [accepted]

/-- With a size S ≥ 1 within the range of `int` and a handler that only reads its
batches: take any run `es` of `Submit` calls, size flushes and ticks that cut only
full batches (no `Close`, no idle period), submitting N items in all, and let the
loop go on in any way without further `Submit` (`fs`) until the buffer is empty. Then
the batches handed to the handler concatenate to the submitted items in order, there
are exactly ceil(N/S) of them, each but the last has exactly S items and each has
between 1 and S. One tick empties the buffer when fewer than S items are left. -/
theorem run_batches_by_size (opt : options) (task : List Obj → Outcome P) (hS : 1 ≤ opt.Size)
    (hS2 : opt.Size < 9223372036854775808)
    (es : List (Event Obj)) (hes : fullBatches (fresh opt task) es = true) :
    (∀ fs : List (Event Obj), flushOnly fs = true →
      (run (run (fresh opt task) es) fs).buf = [] →
      (run (run (fresh opt task) es) fs).calls.flatten = items es ∧
      ((run (run (fresh opt task) es) fs).calls.length : Int)
        = (((items es).length : Int) + opt.Size - 1) / opt.Size ∧
      (∀ c ∈ (run (run (fresh opt task) es) fs).calls.dropLast, (c.length : Int) = opt.Size) ∧
      (∀ c ∈ (run (run (fresh opt task) es) fs).calls,
        1 ≤ c.length ∧ (c.length : Int) ≤ opt.Size)) ∧
    ((((run (fresh opt task) es).buf.length : Int) < opt.Size) →
      (run (run (fresh opt task) es) [Event.loop Case.tick]).buf = []) := by
  have hS0 : 1 ≤ (fresh opt task).options.Size := hS
  have hn : ((opt.Size.toNat : Nat) : Int) = opt.Size := by omega
  have hq0 : Quiet (fresh opt task) := fun _ => rfl
  have hq1 : Quiet (run (fresh opt task) es) :=
    run_induction (fun g1 : Group Obj P => Quiet g1) (fun g1 e h => step_quiet g1 e h) es
      (fresh opt task) hq0
  have h1 := fullBatches_run es (fresh opt task) hS0 hes rfl (by simp [fresh, start])
  have hopt1 : (run (fresh opt task) es).options = opt :=
    run_induction (fun g1 : Group Obj P => g1.options = opt)
      (fun g1 e h => by show (step g1 e).options = opt; rw [step_options]; exact h) es
      (fresh opt task) rfl
  have hcons1 := run_conserve es (fresh opt task) hS0 hq0
  rw [h1.2.2.2] at hcons1
  refine ⟨?_, ?_⟩
  · intro fs hfs hempty
    have h2 := flushOnly_run fs (run (fresh opt task) es) (by rw [hopt1]; exact hS)
      (by rw [hopt1]; exact hS2) hq1 hfs (Or.inl (by rw [hopt1]; exact h1.2.2.1))
    rw [hopt1] at h2
    have hcons2 := run_conserve fs (run (fresh opt task) es) (by rw [hopt1]; exact hS) hq1
    rw [h2.2, hempty, hcons1] at hcons2
    have hflat : (run (run (fresh opt task) es) fs).calls.flatten = items es := by
      simpa [fresh, start] using hcons2
    have hch : Chunked opt.Size.toNat (run (run (fresh opt task) es) fs).calls := by
      rcases h2.1 with hA | ⟨_, hB⟩
      · exact Chunked.of_full _ (by omega) _ hA
      · exact hB
    have hcnt := Chunked.count opt.Size.toNat (by omega) _ hch
    rw [hflat] at hcnt
    refine ⟨hflat, ?_, ?_, ?_⟩
    · have a : ((items es).length : Int)
          ≤ ((run (run (fresh opt task) es) fs).calls.length : Int) * (opt.Size.toNat : Int) := by
        exact_mod_cast hcnt.1
      have b : ((run (run (fresh opt task) es) fs).calls.length : Int) * (opt.Size.toNat : Int)
          < ((items es).length : Int) + (opt.Size.toNat : Int) := by
        exact_mod_cast hcnt.2
      rw [hn] at a b
      exact ceil_of_bounds _ _ _ hS a b
    · intro c hc
      have := hch.1 c hc
      omega
    · intro c hc
      have := hch.2 c hc
      omega
  · intro hlt
    have hw : (run (fresh opt task) es).wg = 1 := h1.2.1
    have hlt2 : ((run (fresh opt task) es).buf.length : Int)
        < (run (fresh opt task) es).options.Size := by rw [hopt1]; exact hlt
    have e1 : run (run (fresh opt task) es) [Event.loop Case.tick]
        = loop (run (fresh opt task) es) Case.tick := rfl
    rw [e1]
    by_cases he : (run (fresh opt task) es).buf = []
    · simp [loop, hw, onTick_empty _ he, he]
    · simp [loop, hw, onTick_short _ he hlt2]

/-! ## The three flushes -/

/-- C3: with size S ≥ 1, `onSubmit` leaves the whole state unchanged when the buffer
holds fewer than S items; otherwise it calls the handler exactly once, with the first
S items of the buffer, and the new buffer is the remaining tail, so that batch
followed by new buffer is the old buffer. -/
theorem onSubmit_flush (g : Group Obj P) (hS : 1 ≤ g.options.Size) :
    (((g.buf.length : Int) < g.options.Size) → onSubmit g = g) ∧
    (g.options.Size ≤ (g.buf.length : Int) →
      ∃ batch : List Obj,
        (onSubmit g).calls = g.calls ++ [batch] ∧
        batch = g.buf.take g.options.Size.toNat ∧
        (batch.length : Int) = g.options.Size ∧
        (onSubmit g).buf = g.buf.drop g.options.Size.toNat ∧
        batch ++ (onSubmit g).buf = g.buf) := by
  refine ⟨fun h => by simp [onSubmit, h], fun h => ?_⟩
  have hlt : ¬ ((g.buf.length : Int) < g.options.Size) := by omega
  refine ⟨g.buf.take g.options.Size.toNat, ?_, rfl, ?_, ?_, ?_⟩
  · simp [onSubmit, hlt]
  · rw [List.length_take]
    omega
  · simp [onSubmit, hlt]
  · simp [onSubmit, hlt]

/-- Witness of C3: size 3 and buffer 1,2,3,4 give one call with [1,2,3] and leave [4]. -/
theorem onSubmit_flush_witness :
    (onSubmit (backlog 3 [1, 2, 3, 4])).calls = [[1, 2, 3]] ∧
    (onSubmit (backlog 3 [1, 2, 3, 4])).buf = [4] := by
  obtain ⟨batch, h1, h2, _, h4, _⟩ :=
    (onSubmit_flush (backlog 3 [1, 2, 3, 4]) (by decide)).2 (by decide)
  rw [h1, h4, h2]
  decide

/-- C4: with size S ≥ 1, `onTick` (i) leaves the whole state unchanged on an empty
buffer, (ii) yields the same state as `onSubmit`, hence the same batch and the same
remaining buffer, when the buffer holds at least S items, and (iii) on a buffer of 1
to S-1 items calls the handler exactly once with the entire buffer and leaves the
buffer empty. -/
theorem onTick_flush (g : Group Obj P) (hS : 1 ≤ g.options.Size) :
    (g.buf = [] → onTick g = g) ∧
    (g.options.Size ≤ (g.buf.length : Int) → onTick g = onSubmit g) ∧
    (1 ≤ g.buf.length → (g.buf.length : Int) < g.options.Size →
      (onTick g).calls = g.calls ++ [g.buf] ∧ (onTick g).buf = []) := by
  refine ⟨fun h => by simp [onTick, h], fun h => ?_, fun h1 h2 => ?_⟩
  · have a : ¬ ((g.buf.length : Int) ≤ 0) := by omega
    have b : ¬ ((g.buf.length : Int) < g.options.Size) := by omega
    simp only [onTick, onSubmit, a, b, h, if_true, if_false]
  · have a : ¬ ((g.buf.length : Int) ≤ 0) := by omega
    have b : ¬ (g.options.Size ≤ (g.buf.length : Int)) := by omega
    simp only [onTick, a, b, if_false]
    simp

/-- Witness of C4: size 5 and items 10,20 give exactly one call, with [10,20]. -/
theorem onTick_flush_witness :
    (onTick (backlog 5 [10, 20])).calls = [[10, 20]] ∧ (onTick (backlog 5 [10, 20])).buf = [] := by
  have h := (onTick_flush (backlog 5 [10, 20]) (by decide)).2.2 (by decide) (by decide)
  rw [h.1, h.2]
  exact ⟨by decide, rfl⟩

/-! ## Submit and Close -/

/-- C6: `Submit` returns `ErrClosed` exactly when the closed flag is set (and nil
exactly when it is not); when it is set the call changes nothing, in particular not
the buffer and not the pending signal. From a state with the flag set, whatever
happens next, the flag stays set and the buffer is always a suffix of what it was: no
item enters it any more. -/
theorem Submit_rejects_iff_closed (g : Group Obj P) (obj : Obj) :
    ((Submit g obj).2 = some Err.ErrClosed ↔ g.closed = true) ∧
    ((Submit g obj).2 = none ↔ g.closed = false) ∧
    (g.closed = true → (Submit g obj).1 = g) ∧
    (g.closed = true → ∀ es : List (Event Obj),
      (run g es).closed = true ∧ (run g es).buf <:+ g.buf) := by
  refine ⟨?_, ?_, ?_, ?_⟩
  · cases h : g.closed with
    | true => simp [Submit_closed g obj h]
    | false => simp [Submit_open g obj h]
  · cases h : g.closed with
    | true => simp [Submit_closed g obj h]
    | false => simp [Submit_open g obj h]
  · intro h
    rw [Submit_closed g obj h]
  · intro h es
    refine run_induction (fun g1 => g1.closed = true ∧ g1.buf <:+ g.buf) ?_ es g
      ⟨h, List.suffix_refl _⟩
    intro g1 e ⟨h1, h2⟩
    exact ⟨step_closed g1 e h1, (step_suffix g1 e h1).trans h2⟩

/-- Witness of C6: on a closed Group with backlog 1,2 a `Submit` returns `ErrClosed`
and leaves buffer and signal as they were. -/
theorem Submit_rejects_iff_closed_witness :
    (Submit (Close (backlog 3 [1, 2])).1 7).2 = some Err.ErrClosed ∧
    (Submit (Close (backlog 3 [1, 2])).1 7).1.buf = [1, 2] ∧
    (Submit (Close (backlog 3 [1, 2])).1 7).1.submitCh = 0 := by
  have h := Submit_rejects_iff_closed (Close (backlog 3 [1, 2])).1 7
  refine ⟨h.1.mpr (by decide), ?_, ?_⟩
  · rw [h.2.2.1 (by decide)]
    decide
  · rw [h.2.2.1 (by decide)]
    decide

/-- In every run of a new Group, whatever its handler does, the channel `submitCh`
holds at most one signal. -/
theorem run_submitCh (opt : options) (h : Handler Obj P) (es : List (Event Obj)) :
    (run (start opt h) es).submitCh ≤ 1 :=
  run_induction (fun g1 => g1.submitCh ≤ 1) (fun g1 e h1 => step_submitCh g1 e h1) es
    (start opt h) (by simp [start])

/-- C7: on an open Group `Submit` returns nil and the buffer becomes the old buffer
followed by the item. Afterwards a signal is pending exactly when one was pending
before or the new buffer length is at least the size. The channel never holds more
than one signal: one `Submit` keeps the count at most 1, and so does every run from
a new Group. -/
theorem Submit_accepts (g : Group Obj P) (obj : Obj) (h : g.closed = false) :
    (Submit g obj).2 = none ∧
    (Submit g obj).1.buf = g.buf ++ [obj] ∧
    (0 < (Submit g obj).1.submitCh ↔
      (0 < g.submitCh ∨ g.options.Size ≤ ((g.buf ++ [obj]).length : Int))) ∧
    (g.submitCh ≤ 1 → (Submit g obj).1.submitCh ≤ 1) ∧
    (∀ (opt : options) (task : List Obj → Outcome P) (es : List (Event Obj)),
      (run (fresh opt task) es).submitCh ≤ 1) := by
  refine ⟨by simp [Submit_open g obj h], by simp [Submit_open g obj h], ?_, ?_, ?_⟩
  · simp only [Submit_open g obj h]
    split <;> omega
  · intro h1
    simp only [Submit_open g obj h]
    split <;> omega
  · intro opt task es
    exact run_submitCh opt ⟨task, fun _ => []⟩ es

/-- Witness of C7: size 3, buffer 1,2 and no signal pending; `Submit 3` is accepted,
the buffer is 1,2,3 and one signal is pending. -/
theorem Submit_accepts_witness :
    (Submit (backlog 3 [1, 2]) 3).2 = none ∧
    (Submit (backlog 3 [1, 2]) 3).1.buf = [1, 2, 3] ∧
    0 < (Submit (backlog 3 [1, 2]) 3).1.submitCh := by
  have h := Submit_accepts (backlog 3 [1, 2]) 3 (by decide)
  refine ⟨h.1, ?_, h.2.2.1.mpr (Or.inr (by decide))⟩
  rw [h.2.1]
  decide

/-- C8: on an open Group `Close` returns nil and sets the closed flag; on a Group
whose flag is set it returns `ErrClosed` and changes nothing. No event clears the
flag, so from a state with the flag set every later `Submit` and every later `Close`
returns `ErrClosed`. After the first `Close` the loop's `closedCh` case stays ready
and ends the loop (`wg` = 0), which is when that `Close` returns; from then on (flag
set, loop ended) no event changes the state, so no handler call happens any more. -/
theorem Close_idempotent (g : Group Obj P) :
    (g.closed = false → (Close g).2 = none ∧ (Close g).1.closed = true) ∧
    (g.closed = true → Close g = (g, some Err.ErrClosed)) ∧
    (∀ e : Event Obj, g.closed = true → (step g e).closed = true) ∧
    (g.closed = true → ∀ (es : List (Event Obj)) (obj : Obj),
      (run g es).closed = true ∧
      (Submit (run g es) obj).2 = some Err.ErrClosed ∧
      (Close (run g es)).2 = some Err.ErrClosed) ∧
    (g.closed = false → g.wg ≤ 1 → ∀ es : List (Event Obj),
      (loop (run (Close g).1 es) Case.closedCh).wg = 0) ∧
    (g.closed = true → g.wg = 0 → ∀ es : List (Event Obj),
      run g es = g ∧ (run g es).calls = g.calls ∧ (run g es).recovered = g.recovered) := by
  refine ⟨fun h => by simp [Close_open g h], fun h => Close_closed g h,
    fun e h => step_closed g e h, ?_, ?_, ?_⟩
  · intro hc es obj
    have h1 : (run g es).closed = true :=
      run_induction (fun g1 : Group Obj P => g1.closed = true)
        (fun g1 e h => step_closed g1 e h) es g hc
    exact ⟨h1, by simp [Submit_closed _ obj h1], by simp [Close_closed _ h1]⟩
  · intro h hw es
    have inv := run_induction (fun g1 : Group Obj P => g1.closedCh = true ∧ g1.wg ≤ 1)
      (fun g1 e h1 => ⟨step_closedCh g1 e h1.1, (step_wg_le g1 e).trans h1.2⟩) es (Close g).1
      (by simp [Close_open g h]; exact hw)
    by_cases h0 : (run (Close g).1 es).wg = 0
    · simp [loop, h0]
    · simp only [loop, h0, if_false, inv.1, if_true]
      have := inv.2
      show (run (Close g).1 es).wg - 1 = 0
      omega
  · intro hc hw es
    have hrun : run g es = g := by
      have := run_induction (fun g1 : Group Obj P => g1 = g)
        (fun g1 e h1 => by subst h1; exact step_terminated g1 e hc hw) es g rfl
      exact this
    rw [hrun]
    exact ⟨rfl, rfl, rfl⟩

/-- Witness of C8: the first `Close` of an open Group returns nil, a second one
returns `ErrClosed`. -/
theorem Close_idempotent_witness :
    (Close (backlog 3 [1, 2])).2 = none ∧
    (Close (Close (backlog 3 [1, 2])).1).2 = some Err.ErrClosed := by
  refine ⟨((Close_idempotent (backlog 3 [1, 2])).1 (by decide)).1, ?_⟩
  rw [(Close_idempotent (Close (backlog 3 [1, 2])).1).2.1 (by decide)]

/-! ## Panic containment and the latency of a tick -/

/-- C9: let the resolved options carry the hook `f`. One call of the wrapped task on
a batch records the handler call, leaves buffer, flags, channels and the WaitGroup
counter as they are (the call returns to the loop) and calls the hook exactly once,
with the panic value and the stack trace, if the handler panics, and not at all if the
handler returns. In every run the hook calls are exactly those of the handler calls,
in order. With size 1 and a handler that panics on every call, every batch is a
single item and has exactly one hook call with its panic value, so that the number of
hook calls plus the number of items still buffered is the number of accepted items. -/
theorem panic_contained (opt : options) (task : List Obj → Outcome P) (f : RecoverFn)
    (hf : opt.Recover = some f) :
    (∀ (g : Group Obj P) (objs : List Obj), g.options = opt → g.task = task →
      (∀ p st, task objs = Outcome.panicked p st →
        (g.runTask objs).recovered = g.recovered ++ [(f, p, st)]) ∧
      (task objs = Outcome.returned → (g.runTask objs).recovered = g.recovered) ∧
      (g.runTask objs).calls = g.calls ++ [objs] ∧
      (g.runTask objs).buf = g.buf ∧ SameFrame g (g.runTask objs)) ∧
    (1 ≤ opt.Size → ∀ es : List (Event Obj),
      (run (fresh opt task) es).recovered
        = (run (fresh opt task) es).calls.flatMap (hookLog opt task)) ∧
    (opt.Size = 1 → (∀ b, ∃ p st, task b = Outcome.panicked p st) →
      ∀ es : List (Event Obj),
        List.Forall₂ (fun b r => ∃ p st, task b = Outcome.panicked p st ∧ r = (f, p, st))
          (run (fresh opt task) es).calls (run (fresh opt task) es).recovered ∧
        (∀ b ∈ (run (fresh opt task) es).calls, b.length = 1) ∧
        (run (fresh opt task) es).recovered.length + (run (fresh opt task) es).buf.length
          = (accepted (fresh opt task) es).length) := by
  refine ⟨?_, ?_, ?_⟩
  · intro g objs ho ht
    refine ⟨fun p st h => ?_, fun h => ?_, rfl, rfl, ⟨rfl, rfl, rfl, rfl, rfl, rfl⟩⟩
    · rw [runTask_recovered, ho, ht, hookLog_panicked opt task f hf objs p st h]
    · rw [runTask_recovered, ho, ht, hookLog_returned opt task objs h]
      simp
  · intro hS es
    exact (run_hookLog opt ⟨task, fun _ => []⟩ hS es).2.2
  · intro hS hp es
    have h1 : (run (fresh opt task) es).recovered
        = (run (fresh opt task) es).calls.flatMap (hookLog opt task) :=
      (run_hookLog opt ⟨task, fun _ => []⟩ (by omega) es).2.2
    have h2 : ∀ b ∈ (run (fresh opt task) es).calls, b.length = 1 :=
      (run_size_one opt ⟨task, fun _ => []⟩ hS es).2
    have h3 := run_conserve es (fresh opt task) (by show 1 ≤ opt.Size; omega) (fun _ => rfl)
    have hF := forall₂_hookLog opt task f hf hp (run (fresh opt task) es).calls
    rw [← h1] at hF
    refine ⟨hF, h2, ?_⟩
    have hlen := congrArg List.length h3
    simp only [List.length_append, flatten_length_of_singletons _ h2] at hlen
    rw [← hF.length_eq]
    simpa [fresh, start] using hlen

/-- Witness of C9: size 1, a handler that always panics with "boom"; two items are
submitted and flushed, and the hook is called twice. -/
theorem panic_contained_witness :
    (run (fresh ⟨1, 1000000000, some (RecoverFn.user 0)⟩
        (fun _ => (Outcome.panicked "boom" "goroutine 7 [running]" : Outcome String)))
      [Event.submit 1, Event.loop Case.submitCh, Event.submit 2,
        Event.loop Case.submitCh]).recovered.length = 2 := by
  have h := ((panic_contained ⟨1, 1000000000, some (RecoverFn.user 0)⟩
    (fun _ : List Nat => (Outcome.panicked "boom" "goroutine 7 [running]" : Outcome String))
    (RecoverFn.user 0) rfl).2.2 rfl (fun _ => ⟨_, _, rfl⟩)
    [Event.submit 1, Event.loop Case.submitCh, Event.submit 2, Event.loop Case.submitCh]).2.2
  have hb : (run (fresh ⟨1, 1000000000, some (RecoverFn.user 0)⟩
        (fun _ => (Outcome.panicked "boom" "goroutine 7 [running]" : Outcome String)))
      [Event.submit 1, Event.loop Case.submitCh, Event.submit 2,
        Event.loop Case.submitCh]).buf.length = 0 := by decide
  have ha : (accepted (fresh ⟨1, 1000000000, some (RecoverFn.user 0)⟩
        (fun _ => (Outcome.panicked "boom" "goroutine 7 [running]" : Outcome String)))
      [Event.submit 1, Event.loop Case.submitCh, Event.submit 2,
        Event.loop Case.submitCh]).length = 2 := by decide
  omega

/-- Counterexample to C10 as stated: size 2 and buffer 1,2,3 when the tick fires; the
tick hands [1,2] to the handler and item 3, buffered before the tick, is still in the
buffer afterwards. -/
theorem onTick_leaves_items :
    (backlog 2 [1, 2, 3]).buf = [1, 2, 3] ∧
    (onTick (backlog 2 [1, 2, 3])).calls = [[1, 2]] ∧
    (onTick (backlog 2 [1, 2, 3])).buf = [3] ∧
    ¬ (∀ x ∈ (backlog 2 [1, 2, 3]).buf, x ∉ (onTick (backlog 2 [1, 2, 3])).buf) := by
  decide

/-- C10 as amended: with size S ≥ 1, a tick that finds at most S items hands every
buffered item to the handler (one call with the whole buffer, or none when it is
empty) and leaves the buffer empty; a tick that finds more than S items hands only
the first S to the handler and the other items stay in the buffer, in order. -/
theorem onTick_bounded (g : Group Obj P) (hS : 1 ≤ g.options.Size) :
    (((g.buf.length : Int) ≤ g.options.Size) →
      (onTick g).buf = [] ∧
      (g.buf = [] → (onTick g).calls = g.calls) ∧
      (g.buf ≠ [] → (onTick g).calls = g.calls ++ [g.buf])) ∧
    (g.options.Size < (g.buf.length : Int) →
      (onTick g).calls = g.calls ++ [g.buf.take g.options.Size.toNat] ∧
      (onTick g).buf = g.buf.drop g.options.Size.toNat ∧
      (g.buf.take g.options.Size.toNat).length = g.options.Size.toNat ∧
      ((onTick g).buf.length : Int) = (g.buf.length : Int) - g.options.Size) := by
  refine ⟨fun hle => ?_, fun hlt => ?_⟩
  · by_cases he : g.buf = []
    · rw [onTick_empty g he]
      exact ⟨he, fun _ => rfl, fun h => absurd he h⟩
    · by_cases hlt : (g.buf.length : Int) < g.options.Size
      · rw [onTick_short g he hlt]
        exact ⟨rfl, fun h => absurd h he, fun _ => rfl⟩
      · have heq : (g.buf.length : Int) = g.options.Size := by omega
        rw [onTick_big g hS (by omega)]
        have ht : g.buf.take g.options.Size.toNat = g.buf :=
          List.take_of_length_le (by omega)
        have hd : g.buf.drop g.options.Size.toNat = [] :=
          List.drop_eq_nil_of_le (by omega)
        refine ⟨by simp [hd], fun h => absurd h he, fun _ => by simp [ht]⟩
  · rw [onTick_big g hS (by omega)]
    refine ⟨by simp, by simp, ?_, ?_⟩
    · rw [List.length_take]
      omega
    · simp
      omega

/-- Witness of C10 as amended: size 5 and buffer 10,20: the tick hands over both
items and empties the buffer. -/
theorem onTick_bounded_witness :
    (onTick (backlog 5 [10, 20])).buf = [] ∧ (onTick (backlog 5 [10, 20])).calls = [[10, 20]] := by
  have h := (onTick_bounded (backlog 5 [10, 20]) (by decide)).1 (by decide)
  refine ⟨h.1, ?_⟩
  rw [h.2.2 (by decide)]
  decide

/-! ## Configuration and construction -/

theorem Apply_cons (o : options) (opt : OptionFn) (opts : List OptionFn) :
    options.Apply o (opt :: opts) = options.Apply (opt o) opts := rfl

theorem Apply_settings (ss : List Setting) :
    ∀ o : options,
      (options.Apply o (ss.map Setting.toOption)).Size = (lastSize ss).getD o.Size ∧
      (options.Apply o (ss.map Setting.toOption)).Interval = (lastInterval ss).getD o.Interval ∧
      (options.Apply o (ss.map Setting.toOption)).Recover = (lastRecover ss).getD o.Recover := by
  induction ss with
  | nil => intro o; exact ⟨rfl, rfl, rfl⟩
  | cons s ss ih =>
    intro o
    rw [List.map_cons, Apply_cons]
    obtain ⟨h1, h2, h3⟩ := ih (s.toOption o)
    rw [h1, h2, h3]
    refine ⟨?_, ?_, ?_⟩
    · simp only [lastSize]
      cases lastSize ss with
      | some n => rfl
      | none => cases s <;> simp [Setting.toOption, Size, Interval, Recover]
    · simp only [lastInterval]
      cases lastInterval ss with
      | some n => rfl
      | none => cases s <;> simp [Setting.toOption, Size, Interval, Recover]
    · simp only [lastRecover]
      cases lastRecover ss with
      | some n => rfl
      | none => cases s <;> simp [Setting.toOption, Size, Interval, Recover]

theorem Correct_Size (o : options) : o.Correct.Size = if 0 < o.Size then o.Size else 64 := by
  unfold options.Correct
  by_cases h : o.Size ≤ 0
  · have h2 : ¬ 0 < o.Size := by omega
    simp only [h, h2, if_true, if_false]
    split <;> split <;> rfl
  · have h2 : 0 < o.Size := by omega
    simp only [h, h2, if_true, if_false]
    split <;> split <;> rfl

theorem Correct_Interval (o : options) :
    o.Correct.Interval = if 0 < o.Interval then o.Interval else 128 * 1000000 := by
  unfold options.Correct
  by_cases h1 : o.Size ≤ 0 <;> by_cases h : o.Interval ≤ 0
  all_goals
    first
    | (have h2 : ¬ 0 < o.Interval := by omega
       simp only [h1, h, h2, if_true, if_false]
       split <;> rfl)
    | (have h2 : 0 < o.Interval := by omega
       simp only [h1, h, h2, if_true, if_false]
       split <;> rfl)

theorem Correct_Recover (o : options) :
    o.Correct.Recover = some (o.Recover.getD RecoverFn.printPanic) := by
  unfold options.Correct
  by_cases h1 : o.Size ≤ 0 <;> by_cases h : o.Interval ≤ 0 <;>
    cases hr : o.Recover <;> simp [h1, h, hr]

theorem lastSize_append (ss : List Setting) (n : Int) :
    lastSize (ss ++ [Setting.size n]) = some n := by
  induction ss with
  | nil => rfl
  | cons s ss ih => simp [lastSize, ih]

theorem lastInterval_append (ss : List Setting) (d : Int) :
    lastInterval (ss ++ [Setting.interval d]) = some d := by
  induction ss with
  | nil => rfl
  | cons s ss ih => simp [lastInterval, ih]

theorem lastRecover_append (ss : List Setting) (f : Option RecoverFn) :
    lastRecover (ss ++ [Setting.recover f]) = some f := by
  induction ss with
  | nil => rfl
  | cons s ss ih => simp [lastRecover, ih]

theorem resolve_Size (ss : List Setting) :
    (resolve (ss.map Setting.toOption)).Size
      = if 0 < (lastSize ss).getD 0 then (lastSize ss).getD 0 else 64 := by
  unfold resolve
  rw [Correct_Size, (Apply_settings ss ⟨0, 0, none⟩).1]

theorem resolve_Interval (ss : List Setting) :
    (resolve (ss.map Setting.toOption)).Interval
      = if 0 < (lastInterval ss).getD 0 then (lastInterval ss).getD 0 else 128 * 1000000 := by
  unfold resolve
  rw [Correct_Interval, (Apply_settings ss ⟨0, 0, none⟩).2.1]

theorem resolve_Recover (ss : List Setting) :
    (resolve (ss.map Setting.toOption)).Recover
      = some (((lastRecover ss).getD none).getD RecoverFn.printPanic) := by
  unfold resolve
  rw [Correct_Recover, (Apply_settings ss ⟨0, 0, none⟩).2.2]

/-- C11: for every list of written options, `Apply` followed by `Correct` yields
Size = the argument of the last `Size` option if there is one and it is > 0, else 64;
Interval = the argument of the last `Interval` option if there is one and it is > 0,
else 128 ms; Recover = the function of the last `Recover` option if there is one and
it is not nil, else the printing default. An option written last wins over all
earlier ones. For every list of `Option` values whatsoever the resolved Size and
Interval are strictly positive and the hook is not nil. -/
theorem resolve_defaults (ss : List Setting) :
    ((resolve (ss.map Setting.toOption)).Size =
      match lastSize ss with
      | some n => if 0 < n then n else 64
      | none => 64) ∧
    ((resolve (ss.map Setting.toOption)).Interval =
      match lastInterval ss with
      | some d => if 0 < d then d else 128 * 1000000
      | none => 128 * 1000000) ∧
    ((resolve (ss.map Setting.toOption)).Recover =
      match lastRecover ss with
      | some (some f) => some f
      | _ => some RecoverFn.printPanic) ∧
    (∀ n : Int, (resolve ((ss ++ [Setting.size n]).map Setting.toOption)).Size
      = if 0 < n then n else 64) ∧
    (∀ d : Int, (resolve ((ss ++ [Setting.interval d]).map Setting.toOption)).Interval
      = if 0 < d then d else 128 * 1000000) ∧
    (∀ f : RecoverFn,
      (resolve ((ss ++ [Setting.recover (some f)]).map Setting.toOption)).Recover = some f) ∧
    (∀ opts : List OptionFn,
      0 < (resolve opts).Size ∧ 0 < (resolve opts).Interval ∧ (resolve opts).Recover ≠ none) := by
  refine ⟨?_, ?_, ?_, ?_, ?_, ?_, ?_⟩
  · rw [resolve_Size]
    cases lastSize ss <;> simp
  · rw [resolve_Interval]
    cases lastInterval ss <;> simp
  · rw [resolve_Recover]
    cases lastRecover ss with
    | none => rfl
    | some f => cases f <;> rfl
  · intro n
    rw [resolve_Size, lastSize_append]
    rfl
  · intro d
    rw [resolve_Interval, lastInterval_append]
    rfl
  · intro f
    rw [resolve_Recover, lastRecover_append]
    rfl
  · intro opts
    unfold resolve
    refine ⟨?_, ?_, ?_⟩
    · rw [Correct_Size]
      split <;> omega
    · rw [Correct_Interval]
      split <;> omega
    · rw [Correct_Recover]
      simp

/-! ## Size of the batches -/

theorem onSubmit_calls_cases (g : Group Obj P) :
    (onSubmit g).calls = g.calls ∨
    (g.options.Size ≤ (g.buf.length : Int) ∧
      (onSubmit g).calls = g.calls ++ [g.buf.take g.options.Size.toNat]) := by
  by_cases h : (g.buf.length : Int) < g.options.Size
  · left; rw [onSubmit_small g h]
  · right
    have hge : g.options.Size ≤ (g.buf.length : Int) := by omega
    exact ⟨hge, by rw [onSubmit_big g hge]; simp⟩

theorem onTick_calls_cases (g : Group Obj P) (hS : 1 ≤ g.options.Size) :
    (onTick g).calls = g.calls ∨
    (g.options.Size ≤ (g.buf.length : Int) ∧
      (onTick g).calls = g.calls ++ [g.buf.take g.options.Size.toNat]) ∨
    (g.buf ≠ [] ∧ (g.buf.length : Int) < g.options.Size ∧
      (onTick g).calls = g.calls ++ [g.buf]) := by
  by_cases he : g.buf = []
  · left; rw [onTick_empty g he]
  · by_cases h : (g.buf.length : Int) < g.options.Size
    · right; right
      exact ⟨he, h, by rw [onTick_short g he h]; simp⟩
    · right; left
      have hge : g.options.Size ≤ (g.buf.length : Int) := by omega
      exact ⟨hge, by rw [onTick_big g hS hge]; simp⟩

/-- On an empty buffer the drain calls the handler zero times. -/
theorem onClose_calls_nil (g : Group Obj P) (hb : g.buf = []) :
    (onClose g).calls = g.calls := by
  rcases onClose_cases g with ⟨_, h, _⟩ | ⟨cs, bs, hcs, h, _, _, _, hlen, _⟩
  · exact h
  · rw [hb] at hcs
    have hnil := chunk_nil _ cs hcs
    subst hnil
    have : bs = [] := by simpa using hlen
    rw [h, this]
    simp

/-- Every batch of one event has between 1 and `Size` items. -/
theorem step_batch_bounds (g : Group Obj P) (hS : 1 ≤ g.options.Size) (e : Event Obj)
    (b : List Obj) (hb : b ∈ (step g e).calls) :
    b ∈ g.calls ∨ (1 ≤ b.length ∧ (b.length : Int) ≤ g.options.Size) := by
  obtain ⟨bs, h1, _, h3⟩ := step_batches g hS e
  rw [h1] at hb
  rcases List.mem_append.mp hb with hb | hb
  · exact Or.inl hb
  · right
    rcases h3 with ⟨h, _⟩ | ⟨hge, h, _⟩ | ⟨_, hne, hlt, h, _⟩ | ⟨_, cs, hcs, hlen, _⟩
    · rw [h] at hb; cases hb
    · rw [h] at hb
      have : b = g.buf.take g.options.Size.toNat := by simpa using hb
      rw [this, List.length_take]
      omega
    · rw [h] at hb
      have : b = g.buf := by simpa using hb
      rw [this]
      have := List.length_pos.mpr hne
      omega
    · obtain ⟨c, hc, hl⟩ := mem_of_map_length_eq bs cs hlen b hb
      have := (chunk_sound g.buf g.options.Size hS cs hcs).2.1 c hc
      omega

/-- In every run of a new Group with size S ≥ 1, whatever its handler does, every
batch handed to the handler has between 1 and S items. -/
theorem run_batch_bounds (opt : options) (h : Handler Obj P) (hS : 1 ≤ opt.Size)
    (es : List (Event Obj)) :
    ∀ b ∈ (run (start opt h) es).calls, 1 ≤ b.length ∧ (b.length : Int) ≤ opt.Size := by
  have inv := run_induction (fun g1 : Group Obj P => g1.options = opt ∧
      ∀ b ∈ g1.calls, 1 ≤ b.length ∧ (b.length : Int) ≤ opt.Size) ?_ es (start opt h)
      ⟨rfl, by simp [start]⟩
  · exact inv.2
  · intro g e ⟨ho, hb⟩
    refine ⟨by rw [step_options]; exact ho, fun b hbm => ?_⟩
    rcases step_batch_bounds g (by rw [ho]; exact hS) e b hbm with h | h
    · exact hb b h
    · rw [ho] at h; exact h

/-- C18: with resolved size S ≥ 1, every batch handed to the handler in any run of a
new Group has at least 1 and at most S items. This holds for each flush on any state:
a batch handed over by `onSubmit`, by `onTick` or by the drain `onClose` has between
1 and S items. With an empty buffer the drain calls the handler zero times, and so
does `Close` followed by the loop's `closedCh` case. -/
theorem batch_bounds (opt : options) (task : List Obj → Outcome P) (hS : 1 ≤ opt.Size)
    (es : List (Event Obj)) :
    (∀ b ∈ (run (fresh opt task) es).calls, 1 ≤ b.length ∧ (b.length : Int) ≤ opt.Size) ∧
    (∀ (g : Group Obj P) (b : List Obj), g.options = opt →
      (b ∈ (onSubmit g).calls ∨ b ∈ (onTick g).calls ∨ b ∈ (onClose g).calls) →
      b ∈ g.calls ∨ (1 ≤ b.length ∧ (b.length : Int) ≤ opt.Size)) ∧
    (∀ g : Group Obj P, g.buf = [] →
      (onClose g).calls = g.calls ∧
      (run g [Event.close, Event.loop Case.closedCh]).calls = g.calls) := by
  refine ⟨?_, ?_, ?_⟩
  · exact run_batch_bounds opt ⟨task, fun _ => []⟩ hS es
  · intro g b ho hb
    have hSg : 1 ≤ g.options.Size := by rw [ho]; exact hS
    rcases hb with hb | hb | hb
    · rcases onSubmit_calls_cases g with h | ⟨hge, h⟩
      · rw [h] at hb; exact Or.inl hb
      · rw [h] at hb
        rcases List.mem_append.mp hb with hb | hb
        · exact Or.inl hb
        · right
          have : b = g.buf.take g.options.Size.toNat := by simpa using hb
          rw [this, List.length_take, ← ho]
          omega
    · rcases onTick_calls_cases g hSg with h | ⟨hge, h⟩ | ⟨hne, hlt, h⟩
      · rw [h] at hb; exact Or.inl hb
      · rw [h] at hb
        rcases List.mem_append.mp hb with hb | hb
        · exact Or.inl hb
        · right
          have : b = g.buf.take g.options.Size.toNat := by simpa using hb
          rw [this, List.length_take, ← ho]
          omega
      · rw [h] at hb
        rcases List.mem_append.mp hb with hb | hb
        · exact Or.inl hb
        · right
          have : b = g.buf := by simpa using hb
          rw [this, ← ho]
          have := List.length_pos.mpr hne
          omega
    · rcases onClose_cases g with ⟨_, h, _⟩ | ⟨cs, bs, hcs, h, _, _, _, hlen, _⟩
      · rw [h] at hb; exact Or.inl hb
      · rw [h] at hb
        rcases List.mem_append.mp hb with hb | hb
        · exact Or.inl hb
        · right
          obtain ⟨c, hc, hl⟩ := mem_of_map_length_eq bs cs hlen b hb
          have := (chunk_sound g.buf g.options.Size hSg cs hcs).2.1 c hc
          rw [← ho]
          omega
  · intro g hb
    have h1 : (onClose g).calls = g.calls := onClose_calls_nil g hb
    refine ⟨h1, ?_⟩
    have e1 : run g [Event.close, Event.loop Case.closedCh]
        = loop (Close g).1 Case.closedCh := rfl
    rw [e1]
    have hc := Close_frame g
    have h2 : (onClose (Close g).1).calls = g.calls := by
      rw [onClose_calls_nil _ (by rw [hc.2.1]; exact hb), hc.2.2.2.2.2.1]
    by_cases hw : (Close g).1.wg = 0
    · simp only [loop, hw, if_true]
      exact hc.2.2.2.2.2.1
    · by_cases hcc : (Close g).1.closedCh = true
      · simp only [loop, hw, hcc, if_true, if_false]
        exact h2
      · simp only [loop, hw, hcc, if_false]
        exact hc.2.2.2.2.2.1

/-- Witness of C18: size 2 and items 1,2,3, flushed by a size signal and a tick: the
two batches have 2 and 1 items. -/
theorem batch_bounds_witness :
    (run (fresh ⟨2, 1000000000, some RecoverFn.printPanic⟩
        (fun _ => (Outcome.returned : Outcome String)))
      [Event.submit 1, Event.submit 2, Event.submit 3, Event.loop Case.submitCh,
        Event.loop Case.tick]).calls = [[1, 2], [3]] ∧
    ∀ b ∈ (run (fresh ⟨2, 1000000000, some RecoverFn.printPanic⟩
        (fun _ => (Outcome.returned : Outcome String)))
      [Event.submit 1, Event.submit 2, Event.submit 3, Event.loop Case.submitCh,
        Event.loop Case.tick]).calls, 1 ≤ b.length ∧ (b.length : Int) ≤ 2 :=
  ⟨by decide, (batch_bounds ⟨2, 1000000000, some RecoverFn.printPanic⟩
    (fun _ => (Outcome.returned : Outcome String)) (by decide)
    [Event.submit 1, Event.submit 2, Event.submit 3, Event.loop Case.submitCh,
      Event.loop Case.tick]).1⟩

/-! ## The shutdown drain -/

/-- Where `chunk` does not panic (`l + size` does not overflow and the runtime accepts
the capacity) and the handler only reads its batches, the drain hands the whole buffer
to the handler: one call per chunk, in order; the chunks concatenate to the buffer,
there are ceil(L/S) of them, each has at most S items and each but the last exactly
S; the buffer is empty afterwards. -/
theorem onClose_delivers (g : Group Obj P) (hS : 1 ≤ g.options.Size)
    (hov : (g.buf.length : Int) + g.options.Size < 9223372036854775808)
    (hcap : 24 * (((g.buf.length : Int) + g.options.Size) / g.options.Size) ≤ maxAlloc)
    (hq : Quiet g) :
    ∃ cs : List (List Obj), chunk g.buf g.options.Size = some cs ∧
      (onClose g).calls = g.calls ++ cs ∧ (onClose g).buf = [] ∧
      (onClose g).crashed = g.crashed ∧ cs.flatten = g.buf ∧
      (cs.length : Int) = ((g.buf.length : Int) + g.options.Size - 1) / g.options.Size ∧
      (∀ c ∈ cs, (c.length : Int) ≤ g.options.Size) ∧
      (∀ c ∈ cs.dropLast, (c.length : Int) = g.options.Size) := by
  obtain ⟨cs, hcs⟩ := chunk_returns g.buf g.options.Size hS hov hcap
  obtain ⟨hfl, hbd, hch⟩ := chunk_sound g.buf g.options.Size hS cs hcs
  have hch := hch (by omega)
  have hcnt := Chunked.count g.options.Size.toNat (by omega) _ hch
  rw [hfl] at hcnt
  have hn : ((g.options.Size.toNat : Nat) : Int) = g.options.Size := by omega
  rcases onClose_cases g with ⟨hnone, _⟩ | ⟨cs1, bs, hcs1, c1, _, c3, c4, _, c6⟩
  · rw [hcs] at hnone
    cases hnone
  · rw [hcs] at hcs1
    cases hcs1
    refine ⟨cs, hcs, by rw [c1, c6 hq], c3, c4, hfl, ?_, fun c hc => (hbd c hc).2, ?_⟩
    · have h1 : (g.buf.length : Int) ≤ (cs.length : Int) * (g.options.Size.toNat : Int) := by
        exact_mod_cast hcnt.1
      have h2 : (cs.length : Int) * (g.options.Size.toNat : Int)
          < (g.buf.length : Int) + (g.options.Size.toNat : Int) := by
        exact_mod_cast hcnt.2
      rw [hn] at h1 h2
      exact ceil_of_bounds _ _ _ hS h1 h2
    · intro c hc
      have := hch.1 c hc
      omega

theorem step_drained (g : Group Obj P) (e : Event Obj) (h : Drained g) :
    Drained (step g e) := by
  rcases step_cases g e with h1 | ⟨obj, _, h0, h1, _⟩ | ⟨h0, h1⟩ | ⟨hw, _, h1⟩ | ⟨hw, h1⟩ |
    ⟨hw, hc, h1⟩
  · rw [h1]; exact h
  · rw [h1]
    have f := Submit_frame g obj
    refine ⟨fun hc => ?_, fun hw => ?_⟩
    · rw [f.2.2.1] at hc
      rw [f.2.1]
      exact h.1 hc
    · rw [f.2.2.2.1] at hw
      have := (h.2 hw).1
      rw [h0] at this
      cases this
  · rw [h1]
    refine ⟨fun _ => rfl, fun hw => ?_⟩
    have := (h.2 hw).1
    rw [h0] at this
    cases this
  · rw [h1]
    have f := onSubmit_frame { g with submitCh := g.submitCh - 1 }
    refine ⟨fun hc => ?_, fun hw0 => ?_⟩
    · rw [f.2.2.1] at hc
      rw [f.2.1]
      exact h.1 hc
    · rw [f.2.2.2.1] at hw0
      exact absurd hw0 (by show g.wg ≠ 0; omega)
  · rw [h1]
    have f := onTick_frame g
    refine ⟨fun hc => ?_, fun hw0 => ?_⟩
    · rw [f.2.2.1] at hc
      rw [f.2.1]
      exact h.1 hc
    · rw [f.2.2.2.1] at hw0
      omega
  · rw [h1]
    have f := onClose_frame g
    refine ⟨fun _ => ?_, fun _ => ⟨?_, ?_⟩⟩
    · show (onClose g).closed = true
      rw [f.2.1]; exact h.1 hc
    · show (onClose g).closed = true
      rw [f.2.1]; exact h.1 hc
    · show (onClose g).buf = [] ∨ (onClose g).crashed = true
      rcases onClose_cases g with ⟨_, _, _, _, c⟩ | ⟨_, _, _, _, _, c, _⟩
      · exact Or.inr c
      · exact Or.inl c

/-- With a handler that only reads its batches: at every point of every run of a new
Group the batches handed over so far followed by the buffer are the accepted items in
order, and once the loop has exited without a panic of the drain the buffer is empty
and the batches are exactly the accepted items. -/
theorem run_delivers (opt : options) (task : List Obj → Outcome P) (hS : 1 ≤ opt.Size)
    (es : List (Event Obj)) :
    ((run (fresh opt task) es).calls.flatten ++ (run (fresh opt task) es).buf
      = accepted (fresh opt task) es) ∧
    ((run (fresh opt task) es).wg = 0 → (run (fresh opt task) es).crashed = false →
      (run (fresh opt task) es).buf = [] ∧
      (run (fresh opt task) es).calls.flatten = accepted (fresh opt task) es) := by
  have hall : (run (fresh opt task) es).calls.flatten ++ (run (fresh opt task) es).buf
      = accepted (fresh opt task) es := by
    rw [run_conserve es (fresh opt task) hS (fun _ => rfl)]
    simp [fresh, start]
  refine ⟨hall, fun hw hc => ?_⟩
  have hd := run_induction Drained step_drained es (fresh opt task)
    ⟨by simp [fresh, start], by simp [fresh, start]⟩
  have hb : (run (fresh opt task) es).buf = [] := by
    rcases (hd.2 hw).2 with hb | hb
    · exact hb
    · rw [hc] at hb
      cases hb
  refine ⟨hb, ?_⟩
  rw [hb] at hall
  simpa using hall

/-! ## The defect of `chunk` -/

/-- C5 fails in the code. (1) Capacity overflow: a Group of `struct{}` items with
`Size(math.MaxInt64)` is built by `New`; with a backlog of two items `chunk` computes
the capacity `(2 + MaxInt64) / MaxInt64`, which wraps around to -1, and `make`
panics: the drain hands nothing to the handler, the backlog stays in the buffer and
the loop goroutine dies (its deferred `wg.Done()` still runs), where C5 promises one
call with both items. (2) Shared storage: with `Size(1)`, backlog 1,2 and a handler
that does `append(objs, 9)`, `chunk` returns [1] and [2] as slices of one array, the
first call overwrites the 2 and the second call gets [9]. -/
theorem onClose_loses_backlog :
    New 0 (some (⟨fun _ => Outcome.returned, fun _ => []⟩ : Handler Unit String))
        [some (Size 9223372036854775807)]
      = some (Except.ok (start ⟨9223372036854775807, 128 * 1000000, some RecoverFn.printPanic⟩
          ⟨fun _ => Outcome.returned, fun _ => []⟩)) ∧
    (run (start ⟨9223372036854775807, 128 * 1000000, some RecoverFn.printPanic⟩
        (⟨fun _ => Outcome.returned, fun _ => []⟩ : Handler Unit String))
      [Event.submit (), Event.submit ()]).buf = [(), ()] ∧
    Int.tdiv (wrapInt (2 + 9223372036854775807)) 9223372036854775807 = -1 ∧
    makeslice 24 (-1) = false ∧
    chunk [(), ()] 9223372036854775807 = none ∧
    (onClose (run (start ⟨9223372036854775807, 128 * 1000000, some RecoverFn.printPanic⟩
        (⟨fun _ => Outcome.returned, fun _ => []⟩ : Handler Unit String))
      [Event.submit (), Event.submit ()])).calls = [] ∧
    (onClose (run (start ⟨9223372036854775807, 128 * 1000000, some RecoverFn.printPanic⟩
        (⟨fun _ => Outcome.returned, fun _ => []⟩ : Handler Unit String))
      [Event.submit (), Event.submit ()])).buf = [(), ()] ∧
    (onClose (run (start ⟨9223372036854775807, 128 * 1000000, some RecoverFn.printPanic⟩
        (⟨fun _ => Outcome.returned, fun _ => []⟩ : Handler Unit String))
      [Event.submit (), Event.submit ()])).crashed = true ∧
    New 8 (some (⟨fun _ => Outcome.returned, fun _ => [9]⟩ : Handler Nat String))
        [some (Size 1)]
      = some (Except.ok (start ⟨1, 128 * 1000000, some RecoverFn.printPanic⟩
          ⟨fun _ => Outcome.returned, fun _ => [9]⟩)) ∧
    (run (start ⟨1, 128 * 1000000, some RecoverFn.printPanic⟩
        (⟨fun _ => Outcome.returned, fun _ => [9]⟩ : Handler Nat String))
      [Event.submit 1, Event.submit 2]).buf = [1, 2] ∧
    chunk [1, 2] 1 = some [[1], [2]] ∧
    (onClose (run (start ⟨1, 128 * 1000000, some RecoverFn.printPanic⟩
        (⟨fun _ => Outcome.returned, fun _ => [9]⟩ : Handler Nat String))
      [Event.submit 1, Event.submit 2])).calls = [[1], [9]] :=
  ⟨rfl, by decide, by decide, by decide, by decide, by decide, by decide, by decide, rfl,
    by decide, by decide, by decide⟩

/-- C1 fails in the code, through the defect of `chunk`. (1) Capacity overflow:
`struct{}` items, `Size(math.MaxInt64)`; two items are accepted, `Close` is called and
the loop takes its `closedCh` case: the drain panics in `chunk`, the loop exits
(`wg` = 0) and no accepted item has been handed to the handler. (2) Shared storage:
`Size(1)` and a handler that does `append(objs, 9)`; items 1 and 2 are accepted and
both are in the buffer at `Close`; the handler gets [1] and then [9]: the batches
followed by the buffer are 1,9 and not the accepted 1,2 (item 2 is dropped). -/
theorem run_loses_accepted :
    accepted (start ⟨9223372036854775807, 128 * 1000000, some RecoverFn.printPanic⟩
        (⟨fun _ => Outcome.returned, fun _ => []⟩ : Handler Unit String))
      [Event.submit (), Event.submit (), Event.close, Event.loop Case.closedCh] = [(), ()] ∧
    (run (start ⟨9223372036854775807, 128 * 1000000, some RecoverFn.printPanic⟩
        (⟨fun _ => Outcome.returned, fun _ => []⟩ : Handler Unit String))
      [Event.submit (), Event.submit (), Event.close, Event.loop Case.closedCh]).wg = 0 ∧
    (run (start ⟨9223372036854775807, 128 * 1000000, some RecoverFn.printPanic⟩
        (⟨fun _ => Outcome.returned, fun _ => []⟩ : Handler Unit String))
      [Event.submit (), Event.submit (), Event.close, Event.loop Case.closedCh]).crashed
        = true ∧
    (run (start ⟨9223372036854775807, 128 * 1000000, some RecoverFn.printPanic⟩
        (⟨fun _ => Outcome.returned, fun _ => []⟩ : Handler Unit String))
      [Event.submit (), Event.submit (), Event.close, Event.loop Case.closedCh]).calls.flatten
        = [] ∧
    accepted (start ⟨1, 128 * 1000000, some RecoverFn.printPanic⟩
        (⟨fun _ => Outcome.returned, fun _ => [9]⟩ : Handler Nat String))
      [Event.submit 1, Event.submit 2, Event.close, Event.loop Case.closedCh] = [1, 2] ∧
    (run (start ⟨1, 128 * 1000000, some RecoverFn.printPanic⟩
        (⟨fun _ => Outcome.returned, fun _ => [9]⟩ : Handler Nat String))
      [Event.submit 1, Event.submit 2, Event.close, Event.loop Case.closedCh]).wg = 0 ∧
    (run (start ⟨1, 128 * 1000000, some RecoverFn.printPanic⟩
        (⟨fun _ => Outcome.returned, fun _ => [9]⟩ : Handler Nat String))
      [Event.submit 1, Event.submit 2, Event.close, Event.loop Case.closedCh]).calls.flatten
      ++ (run (start ⟨1, 128 * 1000000, some RecoverFn.printPanic⟩
        (⟨fun _ => Outcome.returned, fun _ => [9]⟩ : Handler Nat String))
      [Event.submit 1, Event.submit 2, Event.close, Event.loop Case.closedCh]).buf
        = [1, 9] := by
  refine ⟨?_, ?_, ?_, ?_, ?_, ?_, ?_⟩ <;> decide

/-- C2 fails in the code, through the defect of `chunk`. (1) Capacity overflow:
S = `math.MaxInt64` and N = 2 items of type `struct{}`, submitted with no close and
no tick in between; `Close` for the remainder makes the drain panic: the handler is
invoked 0 times, not ceil(N/S) = 1 time, and the buffer still holds both items.
(2) Shared storage: S = 2, items 1 to 5 and a handler that does `append(objs, 9)`;
one size flush hands over [1,2] and `Close` drains the rest: the buffer ends empty
after ceil(5/2) = 3 calls, but the batches are [1,2], [3,4], [9] and do not
concatenate to the submitted items. -/
theorem close_breaks_batches :
    fullBatches (start ⟨9223372036854775807, 128 * 1000000, some RecoverFn.printPanic⟩
        (⟨fun _ => Outcome.returned, fun _ => []⟩ : Handler Unit String))
      [Event.submit (), Event.submit ()] = true ∧
    (run (run (start ⟨9223372036854775807, 128 * 1000000, some RecoverFn.printPanic⟩
        (⟨fun _ => Outcome.returned, fun _ => []⟩ : Handler Unit String))
      [Event.submit (), Event.submit ()])
      [Event.close, Event.loop Case.closedCh]).calls.length = 0 ∧
    (((items [Event.submit (), Event.submit ()]).length : Int) + 9223372036854775807 - 1)
      / 9223372036854775807 = 1 ∧
    (run (run (start ⟨9223372036854775807, 128 * 1000000, some RecoverFn.printPanic⟩
        (⟨fun _ => Outcome.returned, fun _ => []⟩ : Handler Unit String))
      [Event.submit (), Event.submit ()])
      [Event.close, Event.loop Case.closedCh]).buf = [(), ()] ∧
    fullBatches (start ⟨2, 128 * 1000000, some RecoverFn.printPanic⟩
        (⟨fun _ => Outcome.returned, fun _ => [9]⟩ : Handler Nat String))
      [Event.submit 1, Event.submit 2, Event.submit 3, Event.submit 4, Event.submit 5,
        Event.loop Case.submitCh] = true ∧
    flushOnly ([Event.close, Event.loop Case.closedCh] : List (Event Nat)) = true ∧
    (run (run (start ⟨2, 128 * 1000000, some RecoverFn.printPanic⟩
        (⟨fun _ => Outcome.returned, fun _ => [9]⟩ : Handler Nat String))
      [Event.submit 1, Event.submit 2, Event.submit 3, Event.submit 4, Event.submit 5,
        Event.loop Case.submitCh])
      [Event.close, Event.loop Case.closedCh]).buf = [] ∧
    (run (run (start ⟨2, 128 * 1000000, some RecoverFn.printPanic⟩
        (⟨fun _ => Outcome.returned, fun _ => [9]⟩ : Handler Nat String))
      [Event.submit 1, Event.submit 2, Event.submit 3, Event.submit 4, Event.submit 5,
        Event.loop Case.submitCh])
      [Event.close, Event.loop Case.closedCh]).calls = [[1, 2], [3, 4], [9]] ∧
    items [Event.submit 1, Event.submit 2, Event.submit 3, Event.submit 4, Event.submit 5,
      Event.loop Case.submitCh] = [1, 2, 3, 4, 5] := by
  refine ⟨?_, ?_, ?_, ?_, ?_, ?_, ?_, ?_, ?_⟩ <;> decide

/-! ## Construction -/

theorem resolve_Size_pos (opts : List OptionFn) : 0 < (resolve opts).Size := by
  unfold resolve
  rw [Correct_Size]
  split <;> omega

theorem New_nil (elemSize : Int) (opts : List (Option OptionFn)) :
    New elemSize (none : Option (Handler Obj P)) opts
      = some (Except.error Err.ErrTaskInvalid) := rfl

theorem New_some (elemSize : Int) (h : Handler Obj P) (opts : List (Option OptionFn)) :
    New elemSize (some h) opts =
      if opts.all Option.isSome then
        if makeslice elemSize (resolve (opts.filterMap id)).Size then
          some (Except.ok (start (resolve (opts.filterMap id)) h))
        else none
      else none := rfl

theorem all_isSome_iff (opts : List (Option OptionFn)) :
    opts.all Option.isSome = true ↔ ∀ o ∈ opts, o ≠ none := by
  simp only [List.all_eq_true]
  constructor
  · intro h o ho hn
    have := h o ho
    rw [hn] at this
    cases this
  · intro h o ho
    cases o with
    | none => exact absurd rfl (h none ho)
    | some f => rfl

theorem makeslice_resolve (elemSize : Int) (opts : List OptionFn) :
    makeslice elemSize (resolve opts).Size = true ↔
      elemSize * (resolve opts).Size ≤ maxAlloc := by
  have := resolve_Size_pos opts
  simp only [makeslice, decide_eq_true_eq]
  constructor
  · exact fun h => h.2
  · exact fun h => ⟨by omega, h⟩

/-- Counterexample to C12 as stated: with a non-nil handler, items of 8 bytes (`int`)
and the option `Size(1 << 62)`, `New` panics in `make([]Obj, 0, opt.Size)` and
returns neither a Group nor an error; so does `New` when one of the options is a nil
`Option`. -/
theorem New_panics :
    New 8 (some (⟨fun _ => Outcome.returned, fun _ => []⟩ : Handler Int String))
      [some (Size 4611686018427387904)] = none ∧
    New 8 (some (⟨fun _ => Outcome.returned, fun _ => []⟩ : Handler Int String))
      [some (Size 3), none] = none :=
  ⟨rfl, rfl⟩

/-- C12, amended: `New` returns an error exactly when the handler is nil; the error
is `ErrTaskInvalid` and comes without a Group. For a non-nil handler and options that
are all non-nil, `New` returns nil error and the Group with the resolved options
whenever the runtime accepts the resolved size as the capacity of the buffer
(`elemSize * Size ≤ maxAlloc`); this covers every zero or negative size and interval,
which resolve to 64 items and 128 ms. For a non-nil handler `New` panics, returning
nothing, exactly when an option is nil or the runtime refuses the capacity. -/
theorem New_returns (elemSize : Int) (task : Option (Handler Obj P))
    (opts : List (Option OptionFn)) :
    (New elemSize task opts = some (Except.error Err.ErrTaskInvalid) ↔ task = none) ∧
    (∀ e : Err, New elemSize task opts = some (Except.error e) →
      e = Err.ErrTaskInvalid ∧ task = none) ∧
    (∀ h, task = some h → (∀ o ∈ opts, o ≠ none) →
      elemSize * (resolve (opts.filterMap id)).Size ≤ maxAlloc →
      New elemSize task opts = some (Except.ok (start (resolve (opts.filterMap id)) h))) ∧
    ((∃ g, New elemSize task opts = some (Except.ok g)) ↔
      task ≠ none ∧ (∀ o ∈ opts, o ≠ none) ∧
        elemSize * (resolve (opts.filterMap id)).Size ≤ maxAlloc) ∧
    (New elemSize task opts = none ↔
      task ≠ none ∧ ((∃ o ∈ opts, o = none) ∨
        maxAlloc < elemSize * (resolve (opts.filterMap id)).Size)) ∧
    (∀ (h : Handler Obj P) (size interval : Int), size ≤ 0 → interval ≤ 0 →
      elemSize * 64 ≤ maxAlloc →
      New elemSize (some h) [some (Size size), some (Interval interval)]
        = some (Except.ok (start ⟨64, 128 * 1000000, some RecoverFn.printPanic⟩ h))) := by
  have hsz : ∀ (size interval : Int), size ≤ 0 → interval ≤ 0 →
      resolve [Size size, Interval interval]
        = ⟨64, 128 * 1000000, some RecoverFn.printPanic⟩ := by
    intro size interval h1 h2
    simp [resolve, options.Apply, options.Correct, Size, Interval, h1, h2]
  refine ⟨?_, ?_, ?_, ?_, ?_, ?_⟩
  · cases task with
    | none => simp [New_nil]
    | some h =>
      rw [New_some]
      split
      · split <;> simp
      · simp
  · intro e he
    cases task with
    | none =>
      rw [New_nil] at he
      cases he
      exact ⟨rfl, rfl⟩
    | some h =>
      rw [New_some] at he
      split at he
      · split at he <;> cases he
      · cases he
  · intro h ht hall hcap
    subst ht
    rw [New_some, (all_isSome_iff opts).mpr hall, if_pos rfl,
      (makeslice_resolve elemSize _).mpr hcap, if_pos rfl]
  · cases task with
    | none => simp [New_nil]
    | some h =>
      rw [New_some]
      by_cases hall : opts.all Option.isSome = true
      · by_cases hmk : makeslice elemSize (resolve (opts.filterMap id)).Size = true
        · simp only [hall, hmk, if_true]
          exact ⟨fun _ => ⟨by simp, (all_isSome_iff opts).mp hall,
            (makeslice_resolve elemSize _).mp hmk⟩, fun _ => ⟨_, rfl⟩⟩
        · simp only [hall, hmk, if_true, if_false]
          constructor
          · rintro ⟨g, hg⟩
            cases hg
          · rintro ⟨_, _, hcap⟩
            exact absurd ((makeslice_resolve elemSize _).mpr hcap) hmk
      · simp only [hall, if_false]
        constructor
        · rintro ⟨g, hg⟩
          cases hg
        · rintro ⟨_, hx, _⟩
          exact absurd ((all_isSome_iff opts).mpr hx) hall
  · cases task with
    | none => simp [New_nil]
    | some h =>
      rw [New_some]
      by_cases hall : opts.all Option.isSome = true
      · by_cases hmk : makeslice elemSize (resolve (opts.filterMap id)).Size = true
        · simp only [hall, hmk, if_true]
          constructor
          · intro hx
            cases hx
          · rintro ⟨_, hx | hx⟩
            · obtain ⟨o, ho, hn⟩ := hx
              exact absurd hn ((all_isSome_iff opts).mp hall o ho)
            · have := (makeslice_resolve elemSize _).mp hmk
              omega
        · simp only [hall, hmk, if_true, if_false]
          refine ⟨fun _ => ⟨by simp, Or.inr ?_⟩, fun _ => rfl⟩
          have := mt (makeslice_resolve elemSize (opts.filterMap id)).mpr hmk
          omega
      · simp only [hall, if_false]
        refine ⟨fun _ => ⟨by simp, Or.inl ?_⟩, fun _ => rfl⟩
        by_contra hx
        apply hall
        rw [all_isSome_iff]
        intro o ho hn
        exact hx ⟨o, ho, hn⟩
  · intro h size interval h1 h2 hcap
    rw [New_some]
    have hfm : ([some (Size size), some (Interval interval)] : List (Option OptionFn)).filterMap id
        = [Size size, Interval interval] := rfl
    have hall : ([some (Size size), some (Interval interval)] : List (Option OptionFn)).all
        Option.isSome = true := rfl
    rw [hall, if_pos rfl, hfm, hsz size interval h1 h2]
    have hmk : makeslice elemSize 64 = true := by
      simp [makeslice, hcap]
    rw [hmk, if_pos rfl]

/-- Witness of C12, amended: with a handler, items of 8 bytes and the options
Size(-3), Interval(0), `New` returns a Group whose size is 64. -/
theorem New_returns_witness :
    ∃ g : Group Nat String,
      New 8 (some ⟨fun _ => Outcome.returned, fun _ => []⟩) [some (Size (-3)), some (Interval 0)]
        = some (Except.ok g) ∧ g.options.Size = 64 :=
  ⟨_, (New_returns 8 (some ⟨fun _ => Outcome.returned, fun _ => []⟩)
    [some (Size (-3)), some (Interval 0)]).2.2.2.2.2 ⟨fun _ => Outcome.returned, fun _ => []⟩
      (-3) 0 (by decide) (by decide) (by decide), rfl⟩

/-! ## Handler invocations in flight -/

theorem exec_nil (s : Sys Obj P) : exec s [] = s := rfl

theorem exec_cons (s : Sys Obj P) (a : Act Obj) (as : List (Act Obj)) :
    exec s (a :: as) = exec (act s a) as := rfl

/-- A property that every action preserves holds after every sequence of actions. -/
theorem exec_induction (Inv : Sys Obj P → Prop) (hact : ∀ s a, Inv s → Inv (act s a)) :
    ∀ (as : List (Act Obj)) (s : Sys Obj P), Inv s → Inv (exec s as) := by
  intro as
  induction as with
  | nil => intro s h; exact h
  | cons a as ih => intro s h; exact ih _ (hact s a h)

theorem settle_inFlight (g : Group Obj P) (ws : List Obj) (bs : List (List Obj)) (last : Bool)
    (n : Nat) : (settle g ws bs last n).inFlight = n := by
  cases bs with
  | nil => cases last <;> rfl
  | cons b rest => rfl

theorem settle_pc (g : Group Obj P) (ws : List Obj) (bs : List (List Obj)) (last : Bool)
    (n : Nat) (b ws1 : List Obj) (bs1 : List (List Obj)) (l1 : Bool) :
    (settle g ws bs last n).pc ≠ Pc.inTask b ws1 bs1 l1 := by
  cases bs with
  | nil => cases last <;> simp [settle]
  | cons c rest => simp [settle]

theorem settle_calls (g : Group Obj P) (ws : List Obj) (bs : List (List Obj)) (last : Bool)
    (n : Nat) : (settle g ws bs last n).g.calls = g.calls := by
  cases bs with
  | nil => cases last <;> rfl
  | cons b rest => rfl

theorem cutSubmit_calls (g : Group Obj P) : (cutSubmit g).1.calls = g.calls := by
  unfold cutSubmit
  split <;> rfl

theorem cutTick_calls (g : Group Obj P) : (cutTick g).1.calls = g.calls := by
  unfold cutTick
  split
  · rfl
  · split <;> rfl

/-- Method `onSubmit` is its mutex section followed by the handler call on the batch
that was cut. -/
theorem onSubmit_cut (g : Group Obj P) :
    onSubmit g = drain (cutSubmit g).1 [] (cutSubmit g).2 := by
  unfold onSubmit cutSubmit
  split
  · rfl
  · simp [drain]

/-- Method `onTick` is its mutex section followed by the handler call on the batch
that was cut. -/
theorem onTick_cut (g : Group Obj P) :
    onTick g = drain (cutTick g).1 [] (cutTick g).2 := by
  unfold onTick cutTick
  split
  · rfl
  · split <;> simp [drain]

/-- Handing the pending batches to the handler one call after the other, with
nothing in between, has the effect of the drain loop. -/
theorem exec_settle (bs : List (List Obj)) :
    ∀ (g : Group Obj P) (ws : List Obj) (last : Bool),
      exec (settle g ws bs last 0) (handOver bs.length)
        = settle (drain g ws bs) [] [] last 0 := by
  induction bs with
  | nil => intro g ws last; cases last <;> rfl
  | cons b bs ih =>
    intro g ws last
    have h := ih (g.runTask (overwrite ws b))
      (overlay (g.writes (overwrite ws b)) (ws.drop b.length)) last
    rw [drain_cons, ← h]
    rfl

/-- What an action does to the count of invocations in flight and to the handler
calls: only `begin`, enabled when the loop goroutine is about to hand over a batch
and hence not inside a call, starts an invocation; only `finish` ends one. -/
theorem act_cases (s : Sys Obj P) (a : Act Obj) :
    ((act s a).inFlight = s.inFlight ∧ (act s a).g.calls = s.g.calls ∧
      ((∃ b ws bs last, (act s a).pc = Pc.inTask b ws bs last) →
        ∃ b ws bs last, s.pc = Pc.inTask b ws bs last) ∧
      ((∃ b ws bs last, s.pc = Pc.inTask b ws bs last) →
        ∃ b ws bs last, (act s a).pc = Pc.inTask b ws bs last)) ∨
    (a = Act.begin ∧ (∃ ws b bs last, s.pc = Pc.handing ws (b :: bs) last ∧
      (act s a).pc = Pc.inTask (overwrite ws b) (ws.drop b.length) bs last ∧
      (act s a).g.calls = s.g.calls ++ [overwrite ws b]) ∧
      (act s a).inFlight = s.inFlight + 1) ∨
    (a = Act.finish ∧ (∃ b ws bs last, s.pc = Pc.inTask b ws bs last) ∧
      (∀ b ws bs last, (act s a).pc ≠ Pc.inTask b ws bs last) ∧
      (act s a).g.calls = s.g.calls ∧ (act s a).inFlight = s.inFlight - 1) := by
  have same : ∀ s0 : Sys Obj P, act s0 a = s0 →
      ((act s0 a).inFlight = s0.inFlight ∧ (act s0 a).g.calls = s0.g.calls ∧
      ((∃ b ws bs last, (act s0 a).pc = Pc.inTask b ws bs last) →
        ∃ b ws bs last, s0.pc = Pc.inTask b ws bs last) ∧
      ((∃ b ws bs last, s0.pc = Pc.inTask b ws bs last) →
        ∃ b ws bs last, (act s0 a).pc = Pc.inTask b ws bs last)) := fun s0 h => by
    rw [h]
    exact ⟨rfl, rfl, id, id⟩
  rcases s with ⟨g, pc, n⟩
  cases a with
  | submit obj =>
    left
    exact ⟨rfl, (Submit_frame g obj).2.2.2.2.2.1, id, id⟩
  | close =>
    left
    exact ⟨rfl, (Close_frame g).2.2.2.2.2.1, id, id⟩
  | fire c =>
    left
    cases pc with
    | select =>
      have hno : ¬ ∃ b ws bs last,
          (⟨g, Pc.select, n⟩ : Sys Obj P).pc = Pc.inTask b ws bs last := by
        simp
      cases c with
      | submitCh =>
        by_cases hs : 0 < g.submitCh
        · have e : act ⟨g, Pc.select, n⟩ (Act.fire Case.submitCh)
              = settle (cutSubmit { g with submitCh := g.submitCh - 1 }).1 []
                (cutSubmit { g with submitCh := g.submitCh - 1 }).2 false n := by
            simp only [act, hs, if_true]
          rw [e]
          refine ⟨settle_inFlight _ _ _ _ _, ?_, ?_, fun h => absurd h hno⟩
          · rw [settle_calls, cutSubmit_calls]
          · rintro ⟨b, ws, bs, last, h⟩
            exact absurd h (settle_pc _ _ _ _ _ _ _ _ _)
        · exact same _ (by simp only [act, hs, if_false])
      | tick =>
        have e : act ⟨g, Pc.select, n⟩ (Act.fire Case.tick)
            = settle (cutTick g).1 [] (cutTick g).2 false n := by
          simp only [act]
        rw [e]
        refine ⟨settle_inFlight _ _ _ _ _, ?_, ?_, fun h => absurd h hno⟩
        · rw [settle_calls, cutTick_calls]
        · rintro ⟨b, ws, bs, last, h⟩
          exact absurd h (settle_pc _ _ _ _ _ _ _ _ _)
      | closedCh =>
        by_cases hc : g.closedCh = true
        · cases hch : chunk g.buf g.options.Size with
          | none =>
            have e : act ⟨g, Pc.select, n⟩ (Act.fire Case.closedCh)
                = ⟨{ g with crashed := true, wg := g.wg - 1 }, Pc.exited, n⟩ := by
              simp only [act, hc, if_true, hch]
            rw [e]
            exact ⟨rfl, rfl, by simp, fun h => absurd h hno⟩
          | some batches =>
            have e : act ⟨g, Pc.select, n⟩ (Act.fire Case.closedCh)
                = settle { g with buf := [] } [] batches true n := by
              simp only [act, hc, if_true, hch]
            rw [e]
            refine ⟨settle_inFlight _ _ _ _ _, ?_, ?_, fun h => absurd h hno⟩
            · rw [settle_calls]
            · rintro ⟨b, ws, bs, last, h⟩
              exact absurd h (settle_pc _ _ _ _ _ _ _ _ _)
        · exact same _ (by simp only [act, hc]; rfl)
    | handing ws bs last => exact same _ rfl
    | inTask b ws bs last => exact same _ rfl
    | exited => exact same _ rfl
  | begin =>
    cases pc with
    | select => left; exact same _ rfl
    | handing ws bs last =>
      cases bs with
      | nil => left; exact same _ rfl
      | cons b rest =>
        right; left
        exact ⟨rfl, ⟨ws, b, rest, last, rfl, rfl, rfl⟩, rfl⟩
    | inTask b ws bs last => left; exact same _ rfl
    | exited => left; exact same _ rfl
  | finish =>
    cases pc with
    | select => left; exact same _ rfl
    | handing ws bs last => left; exact same _ rfl
    | inTask b ws bs last =>
      right; right
      have e : act ⟨g, Pc.inTask b ws bs last, n⟩ Act.finish
          = settle { g with recovered := g.recovered ++ hookLog g.options g.task b }
            (overlay (g.writes b) ws) bs last (n - 1) := rfl
      rw [e]
      exact ⟨rfl, ⟨b, ws, bs, last, rfl⟩, fun _ _ _ _ => settle_pc _ _ _ _ _ _ _ _ _,
        settle_calls _ _ _ _ _, settle_inFlight _ _ _ _ _⟩
    | exited => left; exact same _ rfl

/-- The count of invocations in flight is 1 while the loop goroutine is inside a
handler call and 0 otherwise; every action keeps it so. -/
theorem act_flight (s : Sys Obj P) (a : Act Obj)
    (h : (s.inFlight = 1 ∧ ∃ b ws bs last, s.pc = Pc.inTask b ws bs last) ∨
      (s.inFlight = 0 ∧ ¬ ∃ b ws bs last, s.pc = Pc.inTask b ws bs last)) :
    ((act s a).inFlight = 1 ∧ ∃ b ws bs last, (act s a).pc = Pc.inTask b ws bs last) ∨
      ((act s a).inFlight = 0 ∧ ¬ ∃ b ws bs last, (act s a).pc = Pc.inTask b ws bs last) := by
  rcases act_cases s a with ⟨h1, _, h3, h4⟩ | ⟨_, ⟨ws, b, bs, last, hp, hq, _⟩, h2⟩ |
    ⟨_, hin, hout, _, h2⟩
  · rcases h with ⟨hn, hp⟩ | ⟨hn, hp⟩
    · exact Or.inl ⟨by rw [h1]; exact hn, h4 hp⟩
    · exact Or.inr ⟨by rw [h1]; exact hn, fun hx => hp (h3 hx)⟩
  · rcases h with ⟨_, ⟨b1, ws1, bs1, l1, hp1⟩⟩ | ⟨hn, _⟩
    · rw [hp] at hp1; cases hp1
    · exact Or.inl ⟨by rw [h2, hn], ⟨_, _, _, _, hq⟩⟩
  · rcases h with ⟨hn, _⟩ | ⟨_, hp⟩
    · refine Or.inr ⟨by rw [h2, hn], ?_⟩
      rintro ⟨b, ws, bs, last, hx⟩
      exact hout b ws bs last hx
    · exact absurd hin hp

/-- One iteration of `loop` is the `select` with the mutex section of the chosen
flush, followed by the handler calls on the batches that were cut, one after the
other. -/
theorem exec_loop (g : Group Obj P) (c : Case) (hw : 0 < g.wg) :
    ∃ n : Nat, (exec (boot g) (Act.fire c :: handOver n)).g = loop g c ∧
      (exec (boot g) (Act.fire c :: handOver n)).inFlight = 0 ∧
      ((exec (boot g) (Act.fire c :: handOver n)).pc = Pc.select ∨
        (exec (boot g) (Act.fire c :: handOver n)).pc = Pc.exited) := by
  have hw0 : ¬ g.wg = 0 := by omega
  have idle : loop g c = g → act (boot g) (Act.fire c) = boot g →
      ∃ n : Nat, (exec (boot g) (Act.fire c :: handOver n)).g = loop g c ∧
      (exec (boot g) (Act.fire c :: handOver n)).inFlight = 0 ∧
      ((exec (boot g) (Act.fire c :: handOver n)).pc = Pc.select ∨
        (exec (boot g) (Act.fire c :: handOver n)).pc = Pc.exited) := by
    intro h1 h2
    refine ⟨0, ?_, ?_, ?_⟩
    · rw [exec_cons, h2, h1]; rfl
    · rw [exec_cons, h2]; rfl
    · rw [exec_cons, h2]; exact Or.inl rfl
  cases c with
  | submitCh =>
    by_cases hs : 0 < g.submitCh
    · have e : act (boot g) (Act.fire Case.submitCh)
          = settle (cutSubmit { g with submitCh := g.submitCh - 1 }).1 []
            (cutSubmit { g with submitCh := g.submitCh - 1 }).2 false 0 := by
        simp only [act, boot, hs, if_true]
      have e2 : loop g Case.submitCh = onSubmit { g with submitCh := g.submitCh - 1 } := by
        simp only [loop, hw0, if_false, hs, if_true]
      refine ⟨(cutSubmit { g with submitCh := g.submitCh - 1 }).2.length, ?_⟩
      rw [exec_cons, e, exec_settle, e2, onSubmit_cut]
      exact ⟨rfl, rfl, Or.inl rfl⟩
    · exact idle (by simp only [loop, hw0, if_false, hs])
        (by simp only [act, boot, hs, if_false])
  | tick =>
    have e : act (boot g) (Act.fire Case.tick)
        = settle (cutTick g).1 [] (cutTick g).2 false 0 := by
      simp only [act, boot]
    have e2 : loop g Case.tick = onTick g := by
      simp only [loop, hw0, if_false]
    refine ⟨(cutTick g).2.length, ?_⟩
    rw [exec_cons, e, exec_settle, e2, onTick_cut]
    exact ⟨rfl, rfl, Or.inl rfl⟩
  | closedCh =>
    by_cases hc : g.closedCh = true
    · have e2 : loop g Case.closedCh = { onClose g with wg := g.wg - 1 } := by
        simp only [loop, hw0, if_false, hc, if_true]
      cases hch : chunk g.buf g.options.Size with
      | none =>
        have e : act (boot g) (Act.fire Case.closedCh)
            = ⟨{ g with crashed := true, wg := g.wg - 1 }, Pc.exited, 0⟩ := by
          simp only [act, boot, hc, if_true, hch]
        refine ⟨0, ?_⟩
        rw [exec_cons, e, e2, onClose_none g hch]
        exact ⟨rfl, rfl, Or.inr rfl⟩
      | some batches =>
        have e : act (boot g) (Act.fire Case.closedCh)
            = settle { g with buf := [] } [] batches true 0 := by
          simp only [act, boot, hc, if_true, hch]
        refine ⟨batches.length, ?_⟩
        rw [exec_cons, e, exec_settle, e2, onClose_some g batches hch]
        have hwg := (drain_frame batches { g with buf := [] } []).2.2.2.2.2.1
        refine ⟨?_, rfl, Or.inr rfl⟩
        show { drain { g with buf := [] } [] batches with
          wg := (drain { g with buf := [] } [] batches).wg - 1 } = _
        rw [hwg]
    · exact idle (by simp only [loop, hw0, if_false, hc]; rfl)
        (by simp only [act, boot, hc]; rfl)

/-- C13: in the interleaving semantics where callers on any goroutine perform
`Submit` and `Close` at any moment, also while a handler call is running, and the
single loop goroutine moves from its `select` through the mutex section of a flush
to the handler calls (`begin`, `finish`) and back, at most one handler invocation is
in flight after every sequence of actions from a new Group, and one is in flight
exactly while the loop goroutine is inside `g.task`. `Submit` and `Close` never
start, end or record a handler call. An invocation starts only by the loop
goroutine's `begin`, on the next batch cut by `onSubmit`, `onTick` or `onClose`, and
only when none is in flight. Run without interruption, the actions of one loop
iteration have the effect of `loop`. -/
theorem single_flight (opt : options) (h : Handler Obj P) (as : List (Act Obj)) :
    (exec (boot (start opt h)) as).inFlight ≤ 1 ∧
    ((exec (boot (start opt h)) as).inFlight = 1 ↔
      ∃ b ws bs last, (exec (boot (start opt h)) as).pc = Pc.inTask b ws bs last) ∧
    (∀ (s : Sys Obj P) (obj : Obj),
      act s (Act.submit obj) = { s with g := (Submit s.g obj).1 } ∧
      (act s (Act.submit obj)).inFlight = s.inFlight ∧
      (act s (Act.submit obj)).g.calls = s.g.calls ∧
      (act s (Act.submit obj)).g.recovered = s.g.recovered) ∧
    (∀ s : Sys Obj P,
      act s Act.close = { s with g := (Close s.g).1 } ∧
      (act s Act.close).inFlight = s.inFlight ∧
      (act s Act.close).g.calls = s.g.calls ∧
      (act s Act.close).g.recovered = s.g.recovered) ∧
    (∀ (s : Sys Obj P) (a : Act Obj),
      (s.inFlight < (act s a).inFlight ∨ (act s a).g.calls ≠ s.g.calls) →
      a = Act.begin ∧ (act s a).inFlight = s.inFlight + 1 ∧
      ∃ ws b bs last, s.pc = Pc.handing ws (b :: bs) last ∧
        (act s a).pc = Pc.inTask (overwrite ws b) (ws.drop b.length) bs last ∧
        (act s a).g.calls = s.g.calls ++ [overwrite ws b]) ∧
    (∀ a : Act Obj, (exec (boot (start opt h)) as).inFlight
        < (act (exec (boot (start opt h)) as) a).inFlight →
      (exec (boot (start opt h)) as).inFlight = 0) ∧
    (∀ (g : Group Obj P) (c : Case), 0 < g.wg →
      ∃ n : Nat, (exec (boot g) (Act.fire c :: handOver n)).g = loop g c ∧
        (exec (boot g) (Act.fire c :: handOver n)).inFlight = 0) := by
  have inv := exec_induction
    (fun s : Sys Obj P =>
      (s.inFlight = 1 ∧ ∃ b ws bs last, s.pc = Pc.inTask b ws bs last) ∨
      (s.inFlight = 0 ∧ ¬ ∃ b ws bs last, s.pc = Pc.inTask b ws bs last))
    (fun s a hs => act_flight s a hs) as (boot (start opt h))
    (Or.inr ⟨rfl, by simp [boot]⟩)
  refine ⟨?_, ?_, ?_, ?_, ?_, ?_, ?_⟩
  · rcases inv with ⟨h1, _⟩ | ⟨h1, _⟩ <;> omega
  · rcases inv with ⟨h1, h2⟩ | ⟨h1, h2⟩
    · exact ⟨fun _ => h2, fun _ => h1⟩
    · exact ⟨fun hx => by omega, fun hx => absurd hx h2⟩
  · intro s obj
    exact ⟨rfl, rfl, (Submit_frame s.g obj).2.2.2.2.2.1, (Submit_frame s.g obj).2.2.2.2.2.2⟩
  · intro s
    exact ⟨rfl, rfl, (Close_frame s.g).2.2.2.2.2.1, (Close_frame s.g).2.2.2.2.2.2⟩
  · intro s a hch
    rcases act_cases s a with ⟨h1, h2, _⟩ | ⟨ha, hx, h2⟩ | ⟨_, _, _, h1, h2⟩
    · rcases hch with hch | hch
      · omega
      · exact absurd h2 hch
    · exact ⟨ha, h2, hx⟩
    · rcases hch with hch | hch
      · omega
      · exact absurd h1 hch
  · intro a hlt
    rcases inv with ⟨h1, ⟨b, ws, bs, last, hp⟩⟩ | ⟨h1, _⟩
    · rcases act_cases (exec (boot (start opt h)) as) a with ⟨e1, _⟩ |
        ⟨_, ⟨ws1, b1, bs1, l1, hp1, _⟩, _⟩ | ⟨_, _, _, _, e1⟩
      · omega
      · rw [hp] at hp1; cases hp1
      · omega
    · exact h1
  · intro g c hw
    obtain ⟨n, h1, h2, _⟩ := exec_loop g c hw
    exact ⟨n, h1, h2⟩

/-- Witness of C13: size 2; while the handler runs on the batch [1,2], item 3 is
submitted and `Close` is called; exactly one invocation is in flight, and after its
return and the drain of [3] none is. -/
theorem single_flight_witness :
    (exec (boot (start ⟨2, 128 * 1000000, some RecoverFn.printPanic⟩
        (⟨fun _ => Outcome.returned, fun _ => []⟩ : Handler Nat String)))
      [Act.submit 1, Act.submit 2, Act.fire Case.submitCh, Act.begin, Act.submit 3,
        Act.close]).inFlight = 1 ∧
    (exec (boot (start ⟨2, 128 * 1000000, some RecoverFn.printPanic⟩
        (⟨fun _ => Outcome.returned, fun _ => []⟩ : Handler Nat String)))
      [Act.submit 1, Act.submit 2, Act.fire Case.submitCh, Act.begin, Act.submit 3,
        Act.close, Act.begin, Act.fire Case.closedCh, Act.finish, Act.fire Case.closedCh,
        Act.begin, Act.begin, Act.finish]).g.calls = [[1, 2], [3]] ∧
    (exec (boot (start ⟨2, 128 * 1000000, some RecoverFn.printPanic⟩
        (⟨fun _ => Outcome.returned, fun _ => []⟩ : Handler Nat String)))
      [Act.submit 1, Act.submit 2, Act.fire Case.submitCh, Act.begin, Act.submit 3,
        Act.close, Act.begin, Act.fire Case.closedCh, Act.finish, Act.fire Case.closedCh,
        Act.begin, Act.begin, Act.finish]).inFlight ≤ 1 :=
  ⟨by decide, by decide,
    (single_flight ⟨2, 128 * 1000000, some RecoverFn.printPanic⟩
      (⟨fun _ => Outcome.returned, fun _ => []⟩ : Handler Nat String)
      [Act.submit 1, Act.submit 2, Act.fire Case.submitCh, Act.begin, Act.submit 3,
        Act.close, Act.begin, Act.fire Case.closedCh, Act.finish, Act.fire Case.closedCh,
        Act.begin, Act.begin, Act.finish]).1⟩

end asyncbatch

namespace atomicx

/-- C16: for every current value v of a `uint32` (`uint64`) and every `int32`
(`int64`) delta, the minimum value included, `SubUint32` (`SubUint64`) stores and
returns (v - delta) mod 2^32 (2^64); for a negative delta that is (v + |delta|) mod
2^w. `DecrUint32` and `DecrUint64` store and return (v - 1) mod 2^w, and a decrement
after an increment, or an increment after a decrement, gives back v. -/
theorem Sub_wraps (v : Nat) (delta : Int) :
    (v < 4294967296 → -2147483648 ≤ delta → delta < 2147483648 →
      ((SubUint32 v delta).1 : Int) = ((v : Int) - delta) % 4294967296 ∧
      (SubUint32 v delta).2 = (SubUint32 v delta).1 ∧
      (delta < 0 → (SubUint32 v delta).1 = (v + delta.natAbs) % 4294967296) ∧
      ((DecrUint32 v).1 : Int) = ((v : Int) - 1) % 4294967296 ∧
      (DecrUint32 v).2 = (DecrUint32 v).1 ∧
      DecrUint32 (IncrUint32 v).1 = (v, v) ∧
      IncrUint32 (DecrUint32 v).1 = (v, v)) ∧
    (v < 18446744073709551616 → -9223372036854775808 ≤ delta → delta < 9223372036854775808 →
      ((SubUint64 v delta).1 : Int) = ((v : Int) - delta) % 18446744073709551616 ∧
      (SubUint64 v delta).2 = (SubUint64 v delta).1 ∧
      (delta < 0 → (SubUint64 v delta).1 = (v + delta.natAbs) % 18446744073709551616) ∧
      ((DecrUint64 v).1 : Int) = ((v : Int) - 1) % 18446744073709551616 ∧
      (DecrUint64 v).2 = (DecrUint64 v).1 ∧
      DecrUint64 (IncrUint64 v).1 = (v, v) ∧
      IncrUint64 (DecrUint64 v).1 = (v, v)) := by
  constructor
  · intro hv h1 h2
    simp only [SubUint32, DecrUint32, IncrUint32, AddUint32, notUint32, toUint32, wrapInt32,
      Prod.mk.injEq]
    refine ⟨?_, trivial, ?_, ?_, trivial, ?_, ?_⟩ <;> omega
  · intro hv h1 h2
    simp only [SubUint64, DecrUint64, IncrUint64, AddUint64, notUint64, toUint64, wrapInt64,
      Prod.mk.injEq]
    refine ⟨?_, trivial, ?_, ?_, trivial, ?_, ?_⟩ <;> omega

/-- Witness of C16: value 5 minus the minimum `int32` is 5 + 2^31, and value 0 minus
1 wraps to 2^32 - 1. -/
theorem Sub_wraps_witness :
    SubUint32 5 (-2147483648) = (2147483653, 2147483653) ∧
    DecrUint32 0 = (4294967295, 4294967295) ∧
    SubUint64 5 (-9223372036854775808) = (9223372036854775813, 9223372036854775813) := by
  have h32 := (Sub_wraps 5 (-2147483648)).1 (by decide) (by decide) (by decide)
  have h0 := (Sub_wraps 0 1).1 (by decide) (by decide) (by decide)
  have h64 := (Sub_wraps 5 (-9223372036854775808)).2 (by decide) (by decide) (by decide)
  refine ⟨?_, ?_, ?_⟩
  · have a := h32.1
    have b := h32.2.1
    apply Prod.ext
    · show (SubUint32 5 (-2147483648)).1 = 2147483653
      omega
    · show (SubUint32 5 (-2147483648)).2 = 2147483653
      omega
  · have a := h0.2.2.2.1
    have b := h0.2.2.2.2.1
    apply Prod.ext
    · show (DecrUint32 0).1 = 4294967295
      omega
    · show (DecrUint32 0).2 = 4294967295
      omega
  · have a := h64.1
    have b := h64.2.1
    apply Prod.ext
    · show (SubUint64 5 (-9223372036854775808)).1 = 9223372036854775813
      omega
    · show (SubUint64 5 (-9223372036854775808)).2 = 9223372036854775813
      omega

end atomicx

namespace poolx

/-! ## Bit length and powers of two -/

theorem lenLoop_zero (fuel : Nat) : lenLoop fuel 0 = 0 := by
  cases fuel <;> simp [lenLoop]

theorem lenLoop_spec : ∀ (fuel x : Nat), x < 2 ^ fuel →
    x < 2 ^ lenLoop fuel x ∧ (x ≠ 0 → 2 ^ (lenLoop fuel x - 1) ≤ x) := by
  intro fuel
  induction fuel with
  | zero =>
    intro x hx
    have : x = 0 := by simpa using hx
    subst this
    simp [lenLoop]
  | succ f ih =>
    intro x hx
    by_cases h0 : x = 0
    · subst h0
      simp [lenLoop]
    · have hhalf : x / 2 < 2 ^ f := by
        rw [pow_succ] at hx
        omega
      obtain ⟨h1, h2⟩ := ih (x / 2) hhalf
      simp only [lenLoop, h0, if_false]
      refine ⟨?_, fun _ => ?_⟩
      · rw [pow_succ]
        omega
      · simp only [Nat.add_sub_cancel]
        by_cases hq : x / 2 = 0
        · rw [hq, lenLoop_zero]
          simp
          omega
        · have h3 := h2 hq
          have hpos : lenLoop f (x / 2) ≠ 0 := by
            intro hz
            rw [hz] at h1
            simp at h1
            exact hq h1
          obtain ⟨l, hl⟩ := Nat.exists_eq_succ_of_ne_zero hpos
          rw [hl] at h3 ⊢
          simp only [Nat.succ_sub_one] at h3
          rw [pow_succ]
          omega

theorem Len64_spec (x : Nat) (hx : x < 2 ^ 64) :
    x < 2 ^ Len64 x ∧ (x ≠ 0 → 2 ^ (Len64 x - 1) ≤ x) :=
  lenLoop_spec 64 x hx

theorem land_mod_two (a b : Nat) : (a &&& b) % 2 = (a % 2) * (b % 2) := by
  have h := Nat.testBit_land a b 0
  simp only [Nat.testBit_zero] at h
  rcases Nat.mod_two_eq_zero_or_one a with ha | ha <;>
  rcases Nat.mod_two_eq_zero_or_one b with hb | hb <;>
  rcases Nat.mod_two_eq_zero_or_one (a &&& b) with hc | hc <;>
  simp [ha, hb, hc] at h ⊢

/-- The test `div&(div-1) == 0` holds for a nonzero `div` exactly when `div` is a
power of two. -/
theorem land_pred_eq_zero_iff : ∀ d : Nat, d ≠ 0 → (d &&& (d - 1) = 0 ↔ ∃ k, d = 2 ^ k) := by
  intro d
  induction d using Nat.strong_induction_on with
  | _ d ih =>
    intro hd
    have hx : d &&& (d - 1) = 0 ↔ (d / 2 &&& (d - 1) / 2) = 0 ∧ (d % 2) * ((d - 1) % 2) = 0 := by
      rw [← Nat.and_div_two, ← land_mod_two]
      omega
    rw [hx]
    rcases Nat.mod_two_eq_zero_or_one d with hpar | hpar
    · have hm : d / 2 ≠ 0 := by omega
      have e1 : (d - 1) / 2 = d / 2 - 1 := by omega
      rw [e1, hpar, Nat.zero_mul, ih (d / 2) (by omega) hm]
      constructor
      · rintro ⟨⟨k, hk⟩, _⟩
        exact ⟨k + 1, by rw [pow_succ]; omega⟩
      · rintro ⟨k, hk⟩
        refine ⟨?_, rfl⟩
        cases k with
        | zero => simp at hk; omega
        | succ k =>
          refine ⟨k, ?_⟩
          rw [pow_succ] at hk
          omega
    · have e1 : (d - 1) / 2 = d / 2 := by omega
      have e2 : (d - 1) % 2 = 0 := by omega
      rw [e1, e2, Nat.and_self, Nat.mul_zero]
      constructor
      · rintro ⟨h, _⟩
        exact ⟨0, by simp; omega⟩
      · rintro ⟨k, hk⟩
        refine ⟨?_, rfl⟩
        cases k with
        | zero => simp at hk; omega
        | succ k =>
          rw [pow_succ] at hk
          omega

/-! ## The bucket index -/

/-- The index computed by `findPool` for a size `s` and a minimum size `m ≥ 1` is the
least `i` with `m * 2^i ≥ s`. -/
theorem bucketIndex_least (m s : Nat) (hm : 1 ≤ m) (hs : s < 2 ^ 64) :
    s ≤ m * 2 ^ bucketIndex (s / m) (s % m) ∧
    ∀ j, j < bucketIndex (s / m) (s % m) → m * 2 ^ j < s := by
  have hdiv : m * (s / m) + s % m = s := Nat.div_add_mod s m
  have hr : s % m < m := Nat.mod_lt s (by omega)
  have hd64 : s / m < 2 ^ 64 := lt_of_le_of_lt (Nat.div_le_self s m) hs
  obtain ⟨hL1, hL2⟩ := Len64_spec (s / m) hd64
  by_cases hc : s % m = 0 ∧ s / m ≠ 0 ∧ (s / m &&& (s / m - 1)) = 0
  · obtain ⟨hc1, hc2, hc3⟩ := hc
    obtain ⟨k, hk⟩ := (land_pred_eq_zero_iff (s / m) hc2).mp hc3
    have hidx : bucketIndex (s / m) (s % m) = Len64 (s / m) - 1 := by
      simp only [bucketIndex, hc1, hc2, hc3, ne_eq, not_false_eq_true, and_self, if_true]
    have hL3 := hL2 hc2
    rw [hk] at hL1 hL3
    have a : k < Len64 (2 ^ k) := (Nat.pow_lt_pow_iff_right (by omega)).mp hL1
    have b : Len64 (2 ^ k) - 1 ≤ k := (Nat.pow_le_pow_iff_right (by omega)).mp hL3
    have hkk : Len64 (s / m) - 1 = k := by rw [hk]; omega
    rw [hidx, hkk]
    have hs2 : s = m * 2 ^ k := by rw [← hk]; omega
    refine ⟨by omega, fun j hj => ?_⟩
    rw [hs2]
    exact Nat.mul_lt_mul_of_pos_left (Nat.pow_lt_pow_right (by omega) hj) (by omega)
  · have hidx : bucketIndex (s / m) (s % m) = Len64 (s / m) := by
      simp only [bucketIndex, hc, if_false]
    rw [hidx]
    constructor
    · have h1 : m * (s / m + 1) ≤ m * 2 ^ Len64 (s / m) := Nat.mul_le_mul_left m hL1
      rw [Nat.mul_add, Nat.mul_one] at h1
      omega
    · intro j hj
      have hd0 : s / m ≠ 0 := by
        intro h0
        rw [h0] at hj
        simp [Len64, lenLoop] at hj
      have h1 : 2 ^ j ≤ 2 ^ (Len64 (s / m) - 1) := Nat.pow_le_pow_right (by omega) (by omega)
      have h2 : 2 ^ j ≤ s / m := le_trans h1 (hL2 hd0)
      have h3 : m * 2 ^ j ≤ m * (s / m) := Nat.mul_le_mul_left m h2
      by_contra hnot
      have heq : m * 2 ^ j = m * (s / m) := by omega
      have hrem : s % m = 0 := by omega
      have hpow : s / m = 2 ^ j := (Nat.eq_of_mul_eq_mul_left (by omega) heq).symm
      exact hc ⟨hrem, hd0, (land_pred_eq_zero_iff (s / m) hd0).mpr ⟨j, hpow⟩⟩

/-! ## The buckets built by the constructor -/

/-- When the loop of `NewBucketBufferPool` ends after `t` iterations, it has appended
the pools of the first `t` doublings of `curSize`, all below `maxSize`, and the value
it ends with is the first doubling that is not below `maxSize`. -/
theorem bucketLoop_spec (maxSize : Int) :
    ∀ (fuel : Nat) (c : Int) (acc : List BufferPool) (cur : Int) (bs : List BufferPool),
      bucketLoop maxSize fuel c acc = some (cur, bs) →
      ∃ t : Nat,
        bs = acc ++ (List.range t).map (fun i => NewBufferPool (double^[i] c)) ∧
        cur = double^[t] c ∧ maxSize ≤ cur ∧ ∀ i, i < t → double^[i] c < maxSize := by
  intro fuel
  induction fuel with
  | zero => intro c acc cur bs h; simp [bucketLoop] at h
  | succ f ih =>
    intro c acc cur bs h
    by_cases hlt : c < maxSize
    · simp only [bucketLoop, hlt, if_true] at h
      obtain ⟨t, h1, h2, h3, h4⟩ := ih _ _ _ _ h
      refine ⟨t + 1, ?_, ?_, h3, ?_⟩
      · rw [h1, List.range_succ_eq_map, List.map_cons, List.map_map, List.append_assoc]
        rfl
      · rw [h2]; rfl
      · intro i hi
        cases i with
        | zero => exact hlt
        | succ i => exact h4 i (by omega)
    · simp only [bucketLoop, hlt, if_false, Option.some.injEq, Prod.mk.injEq] at h
      obtain ⟨h1, h2⟩ := h
      refine ⟨0, by simp [h2], by simp [h1], by rw [← h1]; omega, fun i hi => by omega⟩

/-- Doubling does not wrap around as long as the exact value fits in an `int`. -/
theorem double_iterate (m : Int) (hm : 1 ≤ m) :
    ∀ i : Nat, m * 2 ^ i < 9223372036854775808 → double^[i] m = m * 2 ^ i := by
  intro i
  induction i with
  | zero => intro _; simp
  | succ i ih =>
    intro h
    have hpos : 0 < m * 2 ^ i := by positivity
    have hstep : m * 2 ^ (i + 1) = m * 2 ^ i * 2 := by rw [pow_succ]; ring
    rw [hstep] at h
    rw [Function.iterate_succ_apply', ih (by omega), hstep]
    simp only [double, wrapInt]
    omega

theorem NewBucketBufferPool_ok (fuel : Nat) (minSize maxSize : Int) (p : BucketBufferPool)
    (hp : NewBucketBufferPool fuel minSize maxSize = some (Except.ok p)) :
    minSize ≤ maxSize ∧ p.minSize = minSize ∧ p.maxSize = maxSize ∧
    ∃ t : Nat,
      p.buckets = (List.range (t + 1)).map (fun i => NewBufferPool (double^[i] minSize)) ∧
      maxSize ≤ double^[t] minSize ∧ ∀ i, i < t → double^[i] minSize < maxSize := by
  unfold NewBucketBufferPool at hp
  by_cases hlt : maxSize < minSize
  · simp [hlt] at hp
  · simp only [hlt, if_false] at hp
    cases hloop : bucketLoop maxSize fuel minSize [] with
    | none => simp [hloop] at hp
    | some r =>
      obtain ⟨cur, bs⟩ := r
      simp only [hloop, Option.some.injEq, Except.ok.injEq] at hp
      obtain ⟨t, h1, h2, h3, h4⟩ := bucketLoop_spec maxSize fuel minSize [] cur bs hloop
      subst hp
      refine ⟨by omega, rfl, rfl, t, ?_, by rw [← h2]; exact h3, h4⟩
      simp only [h1, h2, List.nil_append, List.range_succ, List.map_append, List.map_cons,
        List.map_nil]

/-- C17: for a pool returned by `NewBucketBufferPool` with 1 ≤ minSize ≤ maxSize,
`findPool(size)` returns nil exactly when size > maxSize, and for 0 ≤ size ≤ maxSize
it returns the bucket at the index `idx` that is within the bucket slice and is the
least `i` with minSize * 2^i ≥ size; it is 0 for every size ≤ minSize. -/
theorem findPool_least (fuel : Nat) (minSize maxSize : Int) (p : BucketBufferPool)
    (h1 : 1 ≤ minSize) (h2 : minSize ≤ maxSize) (h3 : maxSize < 9223372036854775808)
    (hp : NewBucketBufferPool fuel minSize maxSize = some (Except.ok p)) (size : Int) :
    (findPool p size = Found.nil ↔ maxSize < size) ∧
    (0 ≤ size → size ≤ maxSize →
      ∃ idx : Nat, findPool p size = Found.bucket idx ∧ idx < p.buckets.length ∧
        size ≤ minSize * 2 ^ idx ∧ (∀ j, j < idx → minSize * 2 ^ j < size) ∧
        (size ≤ minSize → idx = 0)) := by
  obtain ⟨_, hmin, hmax, t, hb, hexit, hbelow⟩ := NewBucketBufferPool_ok fuel minSize maxSize p hp
  have hlen : p.buckets.length = t + 1 := by rw [hb]; simp
  constructor
  · unfold findPool
    rw [hmax]
    by_cases hgt : size > maxSize
    · simp only [hgt, if_true, true_iff]
    · simp only [hgt, if_false]
      have : ¬ maxSize < size := hgt
      simp only [this, iff_false]
      cases Div64 (toUint64 size) (toUint64 p.minSize) with
      | none => simp
      | some r =>
        obtain ⟨d, r⟩ := r
        simp only
        split <;> simp
  · intro hs0 hsmax
    have hsnat : toUint64 size = size.toNat := by simp only [toUint64]; omega
    have hmnat : toUint64 p.minSize = minSize.toNat := by rw [hmin]; simp only [toUint64]; omega
    have hm1 : 1 ≤ minSize.toNat := by omega
    have hs64 : size.toNat < 2 ^ 64 := by
      have : (2 : Nat) ^ 64 = 18446744073709551616 := by norm_num
      omega
    obtain ⟨hle, hleast⟩ := bucketIndex_least minSize.toNat size.toNat hm1 hs64
    have hmcast : ((minSize.toNat : Nat) : Int) = minSize := by omega
    have hscast : ((size.toNat : Nat) : Int) = size := by omega
    have hleI : size ≤ minSize * 2 ^ bucketIndex (size.toNat / minSize.toNat)
        (size.toNat % minSize.toNat) := by
      have : ((size.toNat : Nat) : Int) ≤ ((minSize.toNat * 2 ^ bucketIndex
          (size.toNat / minSize.toNat) (size.toNat % minSize.toNat) : Nat) : Int) := by
        exact_mod_cast hle
      rw [hscast] at this
      push_cast at this
      rw [hmcast] at this
      exact this
    have hleastI : ∀ j, j < bucketIndex (size.toNat / minSize.toNat)
        (size.toNat % minSize.toNat) → minSize * 2 ^ j < size := by
      intro j hj
      have : ((minSize.toNat * 2 ^ j : Nat) : Int) < ((size.toNat : Nat) : Int) := by
        exact_mod_cast hleast j hj
      rw [hscast] at this
      push_cast at this
      rw [hmcast] at this
      exact this
    have hrange : bucketIndex (size.toNat / minSize.toNat) (size.toNat % minSize.toNat)
        < p.buckets.length := by
      rw [hlen]
      by_contra hge
      have ht := hleastI t (by omega)
      have hnowrap := double_iterate minSize h1 t (by omega)
      rw [hnowrap] at hexit
      omega
    refine ⟨_, ?_, hrange, hleI, hleastI, fun hsm => ?_⟩
    · unfold findPool
      have hgt : ¬ size > p.maxSize := by rw [hmax]; omega
      have hm0 : minSize.toNat ≠ 0 := by omega
      simp only [hgt, if_false, hsnat, hmnat, Div64, hm0, hrange, if_true]
    · by_contra hne
      have := hleastI 0 (by omega)
      simp at this
      omega

/-- Witness of C17: in the pool of `NewBucketBufferPool(128, 1024)` a size of 300 is
served by the bucket at index 2, the first whose size 128 * 2^i reaches 300. -/
theorem findPool_least_witness :
    findPool pool128 300 = Found.bucket 2 ∧
    ∃ idx : Nat, findPool pool128 300 = Found.bucket idx ∧ idx < pool128.buckets.length ∧
      (300 : Int) ≤ 128 * 2 ^ idx ∧ (∀ j, j < idx → (128 : Int) * 2 ^ j < 300) ∧
      ((300 : Int) ≤ 128 → idx = 0) :=
  ⟨by decide, (findPool_least 10 128 1024 pool128 (by decide) (by decide) (by decide) rfl 300).2
    (by decide) (by decide)⟩

/-- The loop of `NewBucketBufferPool` ends when no doubling overflows: for
`1 ≤ curSize` and `maxSize ≤ 2^62`, `fuel + 1` iterations are enough as soon as
`curSize * 2^fuel` reaches `maxSize`. -/
theorem bucketLoop_returns (maxSize : Int) (hmax : maxSize ≤ 4611686018427387904) :
    ∀ (fuel : Nat) (c : Int) (acc : List BufferPool), 1 ≤ c → c < 9223372036854775808 →
      maxSize ≤ c * 2 ^ fuel → ∃ r, bucketLoop maxSize (fuel + 1) c acc = some r := by
  intro fuel
  induction fuel with
  | zero =>
    intro c acc _ _ h
    have : ¬ c < maxSize := by simpa using h
    exact ⟨(c, acc), by simp only [bucketLoop, this, if_false]⟩
  | succ f ih =>
    intro c acc hc1 hc2 h
    by_cases hlt : c < maxSize
    · have hd : double c = c * 2 := by
        simp only [double, wrapInt]
        omega
      have hstep : c * 2 ^ (f + 1) = c * 2 * 2 ^ f := by rw [pow_succ]; ring
      obtain ⟨r, hr⟩ := ih (double c) (acc ++ [NewBufferPool c]) (by rw [hd]; omega)
        (by rw [hd]; omega) (by rw [hd, ← hstep]; exact h)
      refine ⟨r, ?_⟩
      rw [← hr]
      simp only [bucketLoop, hlt, if_true]
    · exact ⟨(c, acc), by simp only [bucketLoop, hlt, if_false]⟩

/-- For 1 ≤ minSize ≤ maxSize ≤ 2^62 the constructor returns a pool, and its bucket
sizes are minSize, 2 * minSize, 4 * minSize, ... up to and including the first value
that is at least maxSize. -/
theorem NewBucketBufferPool_returns (minSize maxSize : Int) (h1 : 1 ≤ minSize)
    (h2 : minSize ≤ maxSize) (h3 : maxSize ≤ 4611686018427387904) :
    ∃ (p : BucketBufferPool) (t : Nat),
      NewBucketBufferPool 63 minSize maxSize = some (Except.ok p) ∧
      p.buckets.map BufferPool.size = (List.range (t + 1)).map (fun i => minSize * 2 ^ i) ∧
      maxSize ≤ minSize * 2 ^ t ∧ ∀ i, i < t → minSize * 2 ^ i < maxSize := by
  have hpow : maxSize ≤ minSize * 2 ^ 62 := by
    have : (2 : Int) ^ 62 = 4611686018427387904 := by norm_num
    rw [this]
    omega
  obtain ⟨r, hr⟩ := bucketLoop_returns maxSize h3 62 minSize [] h1 (by omega) hpow
  have hnot : ¬ maxSize < minSize := by omega
  have hnew : NewBucketBufferPool 63 minSize maxSize
      = some (Except.ok ⟨minSize, maxSize, r.2 ++ [NewBufferPool r.1]⟩) := by
    simp only [NewBucketBufferPool, hnot, if_false, hr]
  obtain ⟨_, _, _, t, hb, hexit, hbelow⟩ := NewBucketBufferPool_ok 63 minSize maxSize _ hnew
  have hreal : ∀ i, i ≤ t → double^[i] minSize = minSize * 2 ^ i := by
    intro i
    induction i with
    | zero => intro _; simp
    | succ i ih =>
      intro hi
      have hprev := ih (by omega)
      have hlt := hbelow i (by omega)
      rw [hprev] at hlt
      have hstep : minSize * 2 ^ (i + 1) = minSize * 2 ^ i * 2 := by rw [pow_succ]; ring
      exact double_iterate minSize h1 (i + 1) (by rw [hstep]; omega)
  refine ⟨_, t, hnew, ?_, ?_, ?_⟩
  · rw [hb, List.map_map]
    apply List.map_congr_left
    intro i hi
    have : i ≤ t := by
      have := List.mem_range.mp hi
      omega
    simp [NewBufferPool, hreal i this]
  · rw [← hreal t (le_refl t)]
    exact hexit
  · intro i hi
    rw [← hreal i (by omega)]
    exact hbelow i hi

/-- C14 fails on the code: in the pool of `NewBucketBufferPool(128, 1024)`, `Get(100)`
hands out a buffer of capacity 128. A buffer of capacity 300 (one that grew while in
use, or one made with that capacity) is put back into the bucket of size 512, since
`findPool` rounds its capacity up, and the next `Get(512)` returns it: capacity 300,
less than the 512 requested. -/
theorem Get_below_requested :
    NewBucketBufferPool 10 128 1024 = some (Except.ok pool128) ∧
    pool128.Get 100 = some ({ cap := 128, len := 0 }, pool128) ∧
    findPool pool128 300 = Found.bucket 2 ∧
    findPool pool128 512 = Found.bucket 2 ∧
    ∃ (p1 p2 : BucketBufferPool) (b : Buffer),
      pool128.Put { cap := 300, len := 300 } = some p1 ∧
      p1.Get 512 = some (b, p2) ∧ b.cap = 300 ∧ b.cap < 512 :=
  ⟨rfl, by decide, by decide, by decide,
    { pool128 with buckets := [NewBufferPool 128, NewBufferPool 256,
        { size := 512, free := [{ cap := 300, len := 0 }] }, NewBufferPool 1024] },
    pool128, { cap := 300, len := 0 }, by decide, by decide, by decide, by decide⟩

/-- C15 fails on the code: `NewBucketBufferPool(0, 1)` never returns, since `curSize`
stays 0 and the loop condition `curSize < maxSize` stays true. The pool for (128,
1024) has the four buckets 128, 256, 512, 1024, the pool for (512, 512) has one
bucket, and (1024, 512) gives `ErrInvalidSize`. -/
theorem NewBucketBufferPool_zero_min :
    (∀ fuel : Nat, NewBucketBufferPool fuel 0 1 = none) ∧
    NewBucketBufferPool 10 128 1024 = some (Except.ok pool128) ∧
    pool128.buckets.map BufferPool.size = [128, 256, 512, 1024] ∧
    NewBucketBufferPool 10 512 512
      = some (Except.ok { minSize := 512, maxSize := 512, buckets := [NewBufferPool 512] }) ∧
    (∀ fuel : Nat, NewBucketBufferPool fuel 1024 512 = some (Except.error Err.ErrInvalidSize)) := by
  refine ⟨fun fuel => ?_, rfl, by decide, rfl, fun fuel => rfl⟩
  have hloop : ∀ (f : Nat) (acc : List BufferPool), bucketLoop 1 f 0 acc = none := by
    intro f
    induction f with
    | zero => intro acc; rfl
    | succ f ih =>
      intro acc
      have hd : double 0 = 0 := by decide
      simp only [bucketLoop, show (0 : Int) < 1 by decide, if_true, hd]
      exact ih _
  simp only [NewBucketBufferPool, show ¬ ((1 : Int) < 0) by decide, if_false, hloop]

end poolx
